import Mathlib

/-!
The package getql: parameter map to parameterised SELECT statement.

A shallow embedding of `getql.go`.

Modelling conventions.

* A Go `string` is a Lean `String`, read as its list of characters.  The only
  bytes the program searches for are ASCII (`?`, `$`, white space), and an
  ASCII byte never occurs inside a multi-byte UTF-8 sequence, so scanning
  characters and scanning bytes agree on every well-formed string.
* A Go pointer that may be nil is an `Option`.
* `map[string]*Pred` is the list of its entries *in the order the `range`
  loop enumerates them*.  Go leaves that order unspecified and picks one for
  every loop, so the same map is represented by every permutation of one list
  with distinct keys, and two calls on one tree are calls on two such
  listings (`PredGrp.canon` tells whether two listings are the same tree).
* `stringifyPred` writes to the `Pred` it is handed (through the pointer), so
  the serialiser functions return, next to their Go results, the tree as the
  call leaves it.  The tree is a proper tree: no `Pred` is shared between two
  map entries (`ParseSelect` never builds a shared one).
* `[]interface{}` argument lists only ever hold strings here: `List String`;
  the arguments of `Subst` have the type `Arg`.
* Go `int` is modelled by `Int`; where the program computes with it
  (`ResolvePage`, `DBSelectWithStats`) the result is wrapped into 64 bits by
  `int64.wrap`, and the `float64` quotient is modelled by `float64.divCeil`.
* In a `map[string][]string` a missing key gives the nil slice; the value list
  `[]` of an entry stands for an empty slice that is not nil.  The nil map
  reads like the empty map; where the program writes to the map
  (`ResolvePage`) the argument is an `Option` and `none` is the nil map.  A
  run-time panic is the result `none`.
-/

namespace Getql

/-! ## Constants -/

/-- Suffix SELECT. -/
def Sel : String := "SEL"
/-- Suffix FROM. -/
def Frm : String := "FRM"
/-- Suffix Column. -/
def col : String := "COL"
/-- Suffix Operator. -/
def opr : String := "OPR"
/-- Suffix Value. -/
def val : String := "VAL"
/-- Suffix ORDER BY. -/
def ord : String := "ORD"
/-- Suffix LIMIT. -/
def Lim : String := "LIM"
/-- Suffix OFFSET. -/
def Off : String := "OFF"
/-- Suffix And/Or. -/
def aor : String := "AOR"
/-- Suffix PAGE. -/
def Page : String := "PAGE"
/-- Suffix FILTER. -/
def Filter : String := "FILTER"

/-- The separator between the segments of a key. -/
def Sep : String := "."
/-- Just a helper constant. -/
def space : String := " "

/-- SQL keyword. -/
def Count : String := "COUNT(*)"
/-- SQL keyword. -/
def Asc : String := "ASC"
/-- SQL keyword. -/
def Desc : String := "DESC"
/-- SQL keyword. -/
def And : String := "AND"
/-- SQL keyword. -/
def Or : String := "OR"

/-- Operator code. -/
def Eq : String := "EQ"
/-- Operator code. -/
def Ne : String := "NE"
/-- Operator code. -/
def In : String := "IN"
/-- Operator code. -/
def Gt : String := "GT"
/-- Operator code. -/
def Ge : String := "GE"
/-- Operator code. -/
def Lt : String := "LT"
/-- Operator code. -/
def Le : String := "LE"
/-- Operator code. -/
def Null : String := "NULL"
/-- Operator code. -/
def NotNull : String := "NOTNULL"
/-- Operator code. -/
def Like : String := "LIKE"
/-- Operator code. -/
def ILike : String := "ILIKE"
/-- Operator code. -/
def Between : String := "BETWEEN"
/-- Operator code. -/
def Ignore : String := "IGNORE"

/-! ## The Go library functions the program calls -/

/-- Go `strings.Join(elems, sep)`. -/
def strings.Join : List String → String → String
  | [], _ => ""
  | [a], _ => a
  | a :: b :: rest, sep => a ++ sep ++ strings.Join (b :: rest) sep

/-- The scan of `strings.ReplaceAll` for a non-empty `old`: at each position,
left to right, a match of `old` is replaced by `new` and skipped over. -/
def strings.replaceFrom (old new : List Char) : Nat → List Char → List Char
  | 0, s => s
  | _ + 1, [] => []
  | fuel + 1, c :: rest =>
    if old.isPrefixOf (c :: rest) then
      new ++ strings.replaceFrom old new fuel ((c :: rest).drop old.length)
    else
      c :: strings.replaceFrom old new fuel rest

/-- Go `strings.ReplaceAll(s, old, new)`.  An empty `old` matches before every
character and at the end. -/
def strings.ReplaceAll (s old new : String) : String :=
  if old.data = [] then
    ⟨new.data ++ s.data.flatMap (fun c => c :: new.data)⟩
  else
    ⟨strings.replaceFrom old.data new.data s.data.length s.data⟩

/-- Go `unicode.IsSpace`: the characters with the Unicode White_Space
property. -/
def unicode.IsSpace (c : Char) : Bool :=
  let n := c.toNat
  (9 ≤ n && n ≤ 13) || n == 32 || n == 0x85 || n == 0xA0 || n == 0x1680 ||
  (0x2000 ≤ n && n ≤ 0x200a) || n == 0x2028 || n == 0x2029 || n == 0x202f ||
  n == 0x205f || n == 0x3000

/-- Go `strings.TrimSpace(s)`: `s` without its leading and trailing white
space. -/
def strings.TrimSpace (s : String) : String :=
  ⟨((s.data.dropWhile unicode.IsSpace).reverse.dropWhile unicode.IsSpace).reverse⟩

/-- Go `strings.Index(s, c)` for a one-character pattern: the position of its
first occurrence; `none` stands for `-1`. -/
def strings.Index : List Char → Char → Option Nat
  | [], _ => none
  | x :: xs, c => if x = c then some 0 else (strings.Index xs c).map (· + 1)

/-- Go `strconv.Itoa`. -/
def strconv.Itoa : Int → String
  | .ofNat n => Nat.repr n
  | .negSucc n => "-" ++ Nat.repr (n + 1)

/-- The scan of `strings.Split` for a one-character separator: the stretches
between the occurrences of `sep`, an empty text giving one empty stretch. -/
def strings.splitChars (sep : Char) : List Char → List (List Char)
  | [] => [[]]
  | c :: rest =>
    if c = sep then [] :: strings.splitChars sep rest
    else
      match strings.splitChars sep rest with
      | [] => [[c]]
      | h :: t => (c :: h) :: t

/-- Go `strings.Split(s, sep)` for a one-character separator, which is all the
program uses (`Sep` is `.`): the result always has at least one element. -/
def strings.Split (s : String) (sep : Char) : List String :=
  (strings.splitChars sep s.data).map String.mk

/-- The digit loop of Go `strconv.ParseUint` for base 10 and 64 bits, with the
number read so far.  `none` is a syntax error: a character that is not a
decimal digit was met.  `some none` is a range error: the number no longer fits
64 bits; the loop returns there and does not read the characters after it.
`some (some n)` is the number read. -/
def strconv.parseDigits : List Char → Nat → Option (Option Nat)
  | [], n => some (some n)
  | c :: rest, n =>
    if ¬ c.isDigit then none
    else if n ≥ 1844674407370955162 then some none
    else if n * 10 + (c.toNat - 48) > 18446744073709551615 then some none
    else strconv.parseDigits rest (n * 10 + (c.toNat - 48))

/-- Go `strconv.Atoi` where `int` has 64 bits: the value and whether an error
is returned with it.  After an optional sign the digit loop of
`strconv.ParseUint` runs: an empty text and a character that is not a digit
give a syntax error with the value 0; a number outside the range of `int` gives
a range error, and the value returned with it is the nearest bound of the
range (as `strconv.ParseInt` documents), also when the loop stopped at the
overflow before it reached a character that is not a digit. -/
def strconv.Atoi (s : String) : Int × Bool :=
  match s.data with
  | [] => (0, true)
  | c :: rest =>
    let digits := if c = '+' ∨ c = '-' then rest else c :: rest
    if digits = [] then (0, true)
    else
      match strconv.parseDigits digits 0 with
      | none => (0, true)
      | some none => if c = '-' then (-(2 ^ 63 : Int), true) else ((2 ^ 63 : Int) - 1, true)
      | some (some un) =>
        if c = '-' then
          if un > 2 ^ 63 then (-(2 ^ 63 : Int), true) else (-(un : Int), false)
        else
          if un ≥ 2 ^ 63 then ((2 ^ 63 : Int) - 1, true) else ((un : Int), false)

/-- Go `sort.Strings`: the strings in increasing order, compared byte by byte
(for well-formed texts that is the comparison character by character).  Any
sorting algorithm returns the same list; this one inserts. -/
def sort.Strings (xs : List String) : List String :=
  xs.insertionSort (fun a b => a.data ≤ b.data)

/-- Go `strings.HasSuffix(s, suffix)`. -/
def strings.HasSuffix (s suffix : String) : Bool :=
  suffix.data.isSuffixOf s.data

/-- Go `ReplaceAllString(query, " ")` for the pattern `(?m)--.*$`, on the
characters of `query`: a match starts at the first `--` of a line and runs to
the end of that line (`.` does not match a line feed, and with the flag `m` the
`$` matches before a line feed and at the end of the text); every match is
replaced by one space.  The flag tells whether the scan is inside a match. -/
def regexp.replaceComments : Bool → List Char → List Char
  | _, [] => []
  | true, c :: rest =>
    if c = '\n' then c :: regexp.replaceComments false rest
    else regexp.replaceComments true rest
  | false, [c] => [c]
  | false, c :: d :: rest =>
    if c = '-' ∧ d = '-' then ' ' :: regexp.replaceComments true rest
    else c :: regexp.replaceComments false (d :: rest)

/-- Go `ReplaceAllString(query, " ")` for the pattern `\\n|\\t`, which the
source writes as a raw string literal: it matches a backslash followed by the
letter `n`, or a backslash followed by the letter `t` (not a line feed or a tab
character); every match is replaced by one space. -/
def regexp.replaceEscapes : List Char → List Char
  | [] => []
  | [c] => [c]
  | c :: d :: rest =>
    if c = '\\' ∧ (d = 'n' ∨ d = 't') then ' ' :: regexp.replaceEscapes rest
    else c :: regexp.replaceEscapes (d :: rest)

/-- The class `\s` of Go regular expressions: tab, line feed, form feed,
carriage return and space. -/
def regexp.isSpace (c : Char) : Bool :=
  c = '\t' ∨ c = '\n' ∨ c = Char.ofNat 12 ∨ c = '\r' ∨ c = ' '

/-- Go `ReplaceAllString(query, " ")` for the pattern `\s+`: every maximal run
of white space is replaced by one space.  The flag tells whether the scan is
inside a run. -/
def regexp.replaceSpaces : Bool → List Char → List Char
  | _, [] => []
  | inRun, c :: rest =>
    if regexp.isSpace c then
      if inRun then regexp.replaceSpaces true rest
      else ' ' :: regexp.replaceSpaces true rest
    else c :: regexp.replaceSpaces false rest

/-- Go arithmetic on `int` where `int` has 64 bits: the mathematical result
of `+`, `-` or `*` is wrapped into the range from -2^63 to 2^63 - 1. -/
def int64.wrap (x : Int) : Int :=
  (x + 2 ^ 63) % 2 ^ 64 - 2 ^ 63

/-- The number of binary digits of `n`, for `n` below `2 ^ fuel`. -/
def float64.bitLen : Nat → Nat → Nat
  | 0, _ => 0
  | fuel + 1, n => if n = 0 then 0 else float64.bitLen fuel (n / 2) + 1

/-- The integer nearest to `a / b` (for `b > 0`), the even one of the two when
`a / b` lies halfway: the rounding of IEEE 754 arithmetic. -/
def float64.roundDiv (a b : Nat) : Nat :=
  if 2 * (a % b) > b ∨ (2 * (a % b) = b ∧ a / b % 2 = 1) then a / b + 1 else a / b

/-- Go `float64(n)` for an `int` `n`: the nearest number with a significand of
53 binary digits.  It is always an integer, so it is given as one. -/
def float64.ofInt (n : Int) : Int :=
  let a := n.natAbs
  let len := float64.bitLen 64 a
  let r : Nat :=
    if len ≤ 53 then a
    else float64.roundDiv a (2 ^ (len - 53)) * 2 ^ (len - 53)
  if n < 0 then -(r : Int) else (r : Int)

/-- The exponent of the quotient `a / b` of two positive integers of at most
64 binary digits, as a `float64`: the `e` for which `a / b` lies from
`2 ^ 52 * 2 ^ e` up to, not including, `2 ^ 53 * 2 ^ e`. -/
def float64.divExponent (a b : Nat) : Int :=
  let la := float64.bitLen 64 a
  let lb := float64.bitLen 64 b
  let ge : Bool :=
    if la ≥ lb then decide (a ≥ b * 2 ^ (la - lb)) else decide (a * 2 ^ (lb - la) ≥ b)
  (la : Int) - (lb : Int) - (if ge then 0 else 1) - 52

/-- The significand of the quotient `a / b` as a `float64` with the exponent
`e`: the integer nearest to `a / b / 2 ^ e`. -/
def float64.divMantissa (a b : Nat) (e : Int) : Nat :=
  if e ≥ 0 then float64.roundDiv a (b * 2 ^ e.toNat)
  else float64.roundDiv (a * 2 ^ (-e).toNat) b

/-- Go `math.Ceil` of the `float64` with the significand `mant`, the exponent
`e` and the given sign: the least integer not below it. -/
def float64.ceil (mant : Nat) (e : Int) (negative : Bool) : Int :=
  if e ≥ 0 then
    if negative then -((mant * 2 ^ e.toNat : Nat) : Int) else ((mant * 2 ^ e.toNat : Nat) : Int)
  else if negative then -((mant / 2 ^ (-e).toNat : Nat) : Int)
  else (((mant + 2 ^ (-e).toNat - 1) / 2 ^ (-e).toNat : Nat) : Int)

/-- Go `int(math.Ceil(x / y))` for two `float64` values `x` and `y` that are
integers of at most 64 binary digits (as `float64.ofInt` returns them).  The
quotient is rounded to a significand of 53 binary digits, then `math.Ceil`
takes the least integer not below it.  Where the language leaves the
conversion to `int` open (the quotient by zero, which is an infinity or not a
number, and a result outside the range of `int`), the value is the one the
amd64 implementation returns, -2^63. -/
def float64.divCeil (x y : Int) : Int :=
  if y = 0 then -(2 ^ 63)
  else if x = 0 then 0
  else
    let e := float64.divExponent x.natAbs y.natAbs
    let mant := float64.divMantissa x.natAbs y.natAbs e
    let r := float64.ceil mant e (decide (x < 0) != decide (y < 0))
    if r < -(2 ^ 63) ∨ r ≥ 2 ^ 63 then -(2 ^ 63) else r

/-! ## Data model -/

/-- An ORDER BY entry; `Order` is meant to be "ASC" or "DESC". -/
structure OrderBy where
  Column : String
  Order : String
deriving DecidableEq, Repr

/-- Go `OrderBy.String()`. -/
def OrderBy.string (orderby : OrderBy) : String :=
  if orderby.Column = "" ∨ orderby.Order = "" then ""
  else orderby.Column ++ " " ++ orderby.Order

mutual
/-- Go `Pred`: a leaf comparison, or (when `Nested`) a reference to a child
group. -/
inductive Pred where
  | mk (Column Operator Value : String) (Values : List String) (Nested : Bool)
      (PredGrp : Option PredGrp)
/-- Go `PredGrp`: the connective flag and the entries of the `Preds` map in
enumeration order. -/
inductive PredGrp where
  | mk (Or : Bool) (Preds : List (String × Option Pred))
end

/-- Field `Column`. -/
def Pred.Column : Pred → String
  | .mk c _ _ _ _ _ => c
/-- Field `Operator`. -/
def Pred.Operator : Pred → String
  | .mk _ o _ _ _ _ => o
/-- Field `Value`. -/
def Pred.Value : Pred → String
  | .mk _ _ v _ _ _ => v
/-- Field `Values`. -/
def Pred.Values : Pred → List String
  | .mk _ _ _ vs _ _ => vs
/-- Field `Nested`. -/
def Pred.Nested : Pred → Bool
  | .mk _ _ _ _ n _ => n
/-- Field `PredGrp`. -/
def Pred.PredGrp : Pred → Option PredGrp
  | .mk _ _ _ _ _ g => g
/-- Field `Or`. -/
def PredGrp.Or : PredGrp → Bool
  | .mk o _ => o
/-- Field `Preds`, in enumeration order. -/
def PredGrp.Preds : PredGrp → List (String × Option Pred)
  | .mk _ ps => ps

/-- Go `SelectQuery`. -/
structure SelectQuery where
  Select : List String
  From : String
  Where : Option PredGrp
  OrderBys : List OrderBy
  Limit : Int
  Offset : Int

/-- Go `SelectOption`. -/
abbrev SelectOption := SelectQuery → SelectQuery

/-! ## The program -/

/-- Go `IsValidSuffix`: a lookup in the map literal, `false` for a missing
key. -/
def IsValidSuffix (suffix : String) : Bool :=
  let suffixes : List (String × Bool) :=
    [(Sel, true), (Frm, true), (col, true), (opr, true), (val, true), (ord, true),
     (Lim, true), (aor, true), (Page, true)]
  (suffixes.lookup suffix).getD false

/-- The loop of `dedup`: `uniq` holds the keys of the Go map that are set. -/
def dedup.loop : List String → List String → List String → List String
  | [], deduped, _ => deduped
  | value :: rest, deduped, uniq =>
    if value ∈ uniq then dedup.loop rest deduped uniq
    else dedup.loop rest (deduped ++ [value]) (value :: uniq)

/-- Go `dedup`: deduplicate a slice, maintaining order. -/
def dedup (values : List String) : List String :=
  dedup.loop values [] []

/-- Go `removeEmptyStrings`. -/
def removeEmptyStrings (values : List String) : List String :=
  values.filter (fun value => value ≠ "")

/-- Go `SelectCount`. -/
def SelectCount : SelectOption := fun sq =>
  { sq with Select := [Count], OrderBys := [], Limit := 0, Offset := 0 }

/-- Go `SelectAll`. -/
def SelectAll : SelectOption := fun sq =>
  { sq with Select := ["*"] }

/-- Go `WhereOnly`. -/
def WhereOnly : SelectOption := fun sq =>
  { sq with Select := [], From := "", OrderBys := [], Limit := 0, Offset := 0 }

/-- The loop of `ReplacePlaceholders`, with the remaining `query`, the buffer
and the counter `i` as state; it returns the buffer and the final counter.
Every round removes at least one character of `query`, so `query.length + 1`
rounds of fuel are never used up. -/
def ReplacePlaceholders.loop : Nat → List Char → List Char → Nat → List Char × Nat
  | 0, query, buf, i => (buf ++ query, i)
  | fuel + 1, query, buf, i =>
    match strings.Index query '?' with
    | none => (buf ++ query, i)
    | some p =>
      if (query.drop p).length > 1 ∧ (query.drop p).take 2 = ['?', '?'] then
        ReplacePlaceholders.loop fuel (query.drop (p + 2)) (buf ++ query.take p ++ ['?']) i
      else
        ReplacePlaceholders.loop fuel (query.drop (p + 1))
          (buf ++ query.take p ++ ('$' :: (strconv.Itoa (i + 1 : Nat)).data)) (i + 1)

/-- The text `ReplacePlaceholders` returns together with the final value of
its counter `i`, the number of positional markers it wrote. -/
def ReplacePlaceholders.run (query : String) : String × Nat :=
  let r := ReplacePlaceholders.loop (query.data.length + 1) query.data [] 0
  (⟨r.1⟩, r.2)

/-- Go `ReplacePlaceholders`: replace all ? with postgres placeholders. -/
def ReplacePlaceholders (query : String) : String :=
  (ReplacePlaceholders.run query).1

/-- The loop of the `In` case of `stringifyPred`. -/
def stringifyPred.inLoop : List String → List String → List String →
    List String × List String
  | [], placeholders, args => (placeholders, args)
  | v :: rest, placeholders, args =>
    stringifyPred.inLoop rest (placeholders ++ ["?"]) (args ++ [v])

/-- The leaf part of `stringifyPred`, after the three assignments to the
fields: the switch on the operator. -/
def stringifyPred.leaf (Column Operator Value : String) (Values : List String) :
    String × List String :=
  if Column = "" then ("", [])
  else if Operator = Eq then (Column ++ " = ?", [Value])
  else if Operator = Ne then (Column ++ " <> ?", [Value])
  else if Operator = In then
    let r := stringifyPred.inLoop Values [] []
    (Column ++ " IN (" ++ strings.Join r.1 ("," ++ space) ++ ")", r.2)
  else if Operator = Gt then (Column ++ " > ?", [Value])
  else if Operator = Ge then (Column ++ " >= ?", [Value])
  else if Operator = Lt then (Column ++ " < ?", [Value])
  else if Operator = Le then (Column ++ " <= ?", [Value])
  else if Operator = Null then (Column ++ " IS NULL", [])
  else if Operator = NotNull then (Column ++ " IS NOT NULL", [])
  else if Operator = Like then (Column ++ " LIKE ?", [Value])
  else if Operator = ILike then (Column ++ " ILIKE ?", [Value])
  else if Operator = Between then
    match Values with
    | smaller :: greater :: _ => (Column ++ " BETWEEN ? AND ?", [smaller, greater])
    | _ => ("", [])
  else ("", [])

mutual
/-- The body of `stringifyWhere` for a group that is not nil.  Result:
`(whereStr, args)` and the group as the call leaves it. -/
def stringifyWhere.body : PredGrp → (String × List String) × PredGrp
  | .mk or preds =>
    let conjuctor := if or then Or else And
    let r := stringifyWhere.loop conjuctor preds "" []
    (r.1, .mk or r.2)
/-- The `range where.Preds` loop of `stringifyWhere`, with the buffer and the
argument list as state; the call `stringifyPred(pred)` starts with its nil
check. -/
def stringifyWhere.loop (conjuctor : String) :
    List (String × Option Pred) → String → List String →
    (String × List String) × List (String × Option Pred)
  | [], buf, args => ((buf, args), [])
  | (key, pred) :: rest, buf, args =>
    let r : (String × List String) × Option Pred :=
      match pred with
      | none => (("", []), none)
      | some p => ((stringifyPred.body p).1, some (stringifyPred.body p).2)
    let predStr := r.1.1
    let argsTemp := r.1.2
    let st : String × List String :=
      if predStr ≠ "" then
        ((if buf.length > 0 then buf ++ (space ++ conjuctor ++ space) else buf) ++ predStr,
          args ++ argsTemp)
      else (buf, args)
    let r2 := stringifyWhere.loop conjuctor rest st.1 st.2
    (r2.1, (key, r.2) :: r2.2)
/-- The body of `stringifyPred` for a predicate that is not nil.  Result:
`(predStr, args)` and the predicate as the call leaves it (a leaf gets its
`Column`, `Operator` and `Values` rewritten); the call
`stringifyWhere(pred.PredGrp)` starts with its nil check. -/
def stringifyPred.body : Pred → (String × List String) × Pred
  | .mk column operator value values nested grp =>
    if nested then
      let r : (String × List String) × Option PredGrp :=
        match grp with
        | none => (("", []), none)
        | some g => ((stringifyWhere.body g).1, some (stringifyWhere.body g).2)
      (("(" ++ r.1.1 ++ ")", [] ++ r.1.2), .mk column operator value values nested r.2)
    else
      let column := strings.ReplaceAll column "?" "??"
      let operator := strings.TrimSpace operator
      let values := dedup values
      (stringifyPred.leaf column operator value values,
        .mk column operator value values nested grp)
end

/-- Go `stringifyWhere`: the nil check, then the body. -/
def stringifyWhere : Option PredGrp → (String × List String) × Option PredGrp
  | none => (("", []), none)
  | some g => ((stringifyWhere.body g).1, some (stringifyWhere.body g).2)

/-- Go `stringifyPred`: the nil check, then the body. -/
def stringifyPred : Option Pred → (String × List String) × Option Pred
  | none => (("", []), none)
  | some p => ((stringifyPred.body p).1, some (stringifyPred.body p).2)

/-- The loop of `stringifyOrder`. -/
def stringifyOrder.loop : List OrderBy → String → String
  | [], buf => buf
  | o :: rest, buf =>
    if o.string ≠ "" then
      stringifyOrder.loop rest ((if buf.length > 0 then buf ++ ", " else buf) ++ o.string)
    else stringifyOrder.loop rest buf

/-- Go `stringifyOrder`. -/
def stringifyOrder (orderBys : List OrderBy) : String :=
  stringifyOrder.loop orderBys ""

/-- One `if content != "" ...` block of `Sql`: write a separating space when
the buffer is not empty, then the keyword, a space and the content. -/
def SelectQuery.writeClause (buf : String) (present : Bool) (keyword content : String) :
    String :=
  if present then
    (if buf.length > 0 then buf ++ space else buf) ++ (keyword ++ space ++ content)
  else buf

/-- Go `SelectQuery.Sql`, with the state it leaves behind: the result
`(query, args)` and the `Where` tree of the query it serialised, as the call
leaves it.  Every option the package offers keeps `sq.Where`, and then that is
the tree the caller's query points to afterwards.  The order in which the
lists of the tree store their entries is the order in which the `range` loops
of *this* call enumerate the maps.  Go picks an order for every loop, so
another call on the same query may enumerate differently: it is a call on
another listing of the tree (one with the same `PredGrp.canon`). -/
def SelectQuery.SqlRun (sq : SelectQuery) (options : List SelectOption) :
    (String × List String) × Option PredGrp :=
  let sq := options.foldl (fun sq option => option sq) sq
  let selectStr := strings.Join (dedup (removeEmptyStrings sq.Select)) ("," ++ space)
  let w := stringifyWhere sq.Where
  let whereStr := w.1.1
  let args := w.1.2
  let orderByStr := stringifyOrder sq.OrderBys
  let buf := ""
  let buf := SelectQuery.writeClause buf (selectStr ≠ "") "SELECT" selectStr
  let buf := SelectQuery.writeClause buf (sq.From ≠ "") "FROM" sq.From
  let buf := SelectQuery.writeClause buf (whereStr ≠ "") "WHERE" whereStr
  let buf := SelectQuery.writeClause buf (orderByStr ≠ "") "ORDER BY" orderByStr
  let buf := SelectQuery.writeClause buf (sq.Limit ≠ 0) "LIMIT" (strconv.Itoa sq.Limit)
  let buf := SelectQuery.writeClause buf (sq.Offset ≠ 0) "OFFSET" (strconv.Itoa sq.Offset)
  ((ReplacePlaceholders buf, args), w.2)

/-- Go `SelectQuery.Sql`: the query text and its argument list, for the
enumeration of the maps that the listing of `sq.Where` stands for. -/
def SelectQuery.Sql (sq : SelectQuery) (options : List SelectOption) :
    String × List String :=
  (sq.SqlRun options).1

/-- Two calls of `Sql` in succession on the same query, in a run in which
both calls enumerate every map in the same order: the second call finds the
tree as the first one left it. -/
def SelectQuery.SqlTwice (sq : SelectQuery) (options : List SelectOption) :
    (String × List String) × (String × List String) :=
  let first := sq.SqlRun options
  let second := SelectQuery.SqlRun { sq with Where := first.2 } options
  (first.1, second.1)

/-- Go `map[string][]string` (also `url.Values`): the entries in the order a
`range` loop enumerates them. -/
abbrev ParamMap := List (String × List String)

/-- Go `params[name]`: the value list of a key, nil for a missing key. -/
def ParamMap.get (params : ParamMap) (name : String) : List String :=
  (params.lookup name).getD []

/-- Go `ref.Preds[key]`: nil (here `none`) for a missing key. -/
def PredGrp.getPred (preds : List (String × Option Pred)) (key : String) : Option Pred :=
  (preds.lookup key).getD none

/-- Go `ref.Preds[key] = pred`: the entry of an existing key is replaced where
it stands, a new key gets a new entry. -/
def PredGrp.setPred : List (String × Option Pred) → String → Pred →
    List (String × Option Pred)
  | [], key, pred => [(key, some pred)]
  | (k, q) :: rest, key, pred =>
    if k = key then (k, some pred) :: rest else (k, q) :: PredGrp.setPred rest key pred

/-- Go `orderbyMap[name] = orderby`. -/
def ParseSelect.setOrder : List (String × OrderBy) → String → OrderBy →
    List (String × OrderBy)
  | [], name, orderby => [(name, orderby)]
  | (k, q) :: rest, name, orderby =>
    if k = name then (k, orderby) :: rest else (k, q) :: ParseSelect.setOrder rest name orderby

/-- The closure `paramvalue` of `ParseSelect`: the first string of
`params[name]`, or the empty string. -/
def ParseSelect.paramvalue (params : ParamMap) (name : String) : String :=
  match params.get name with
  | [] => ""
  | value :: _ => value

/-- The closure `paramvalueInt` of `ParseSelect`: the first string of
`params[name]` converted by `strconv.Atoi`, whose error is dropped, or 0. -/
def ParseSelect.paramvalueInt (params : ParamMap) (name : String) : Int :=
  match params.get name with
  | [] => 0
  | value :: _ => (strconv.Atoi value).1

/-- The loop over the values of an ORD key in `ParseSelect`, with `orderby` as
state: `some` is the entry stored for the key, `none` means the loop ended (or
broke off at `Ignore`) without storing one. -/
def ParseSelect.orderLoop : List String → OrderBy → Option OrderBy
  | [], _ => none
  | value :: rest, orderby =>
    if value = Ignore then none
    else
      let orderby : OrderBy :=
        if value = Asc ∨ value = Desc then { orderby with Order := value }
        else { orderby with Column := value }
      if orderby.string ≠ "" then some orderby else ParseSelect.orderLoop rest orderby

/-- The inner switch of `ParseSelect` at the last segment of a key: the field
the suffix names is assigned. -/
def ParseSelect.assign (suffix value : String) (values : List String) : Pred → Pred
  | .mk column operator v vs nested grp =>
    if suffix = col then .mk value operator v vs nested grp
    else if suffix = opr then .mk column value v vs nested grp
    else if suffix = val then .mk column operator value values nested grp
    else if suffix = aor then
      match grp with
      | none => .mk column operator v vs nested (some (.mk (value == Or) []))
      | some (.mk _ preds) => .mk column operator v vs nested (some (.mk (value == Or) preds))
    else .mk column operator v vs nested grp

/-- The loop over the segments of a COL, OPR, VAL or AOR key in `ParseSelect`,
started at the group `ref`: the result is that group after the loop.  A missing
predicate is created empty; at the last segment the field is assigned; at any
other segment the predicate gets a child group if it has none, is marked
nested, and the loop goes on in the child group. -/
def ParseSelect.descend (suffix value : String) (values : List String) :
    List String → PredGrp → PredGrp
  | [], ref => ref
  | pfx :: rest, .mk or preds =>
    let pred : Pred :=
      match PredGrp.getPred preds pfx with
      | none => .mk "" "" "" [] false none
      | some p => p
    match rest with
    | [] => .mk or (PredGrp.setPred preds pfx (ParseSelect.assign suffix value values pred))
    | _ :: _ =>
      match pred with
      | .mk column operator v vs _ grp =>
        let child : PredGrp :=
          match grp with
          | none => .mk false []
          | some g => g
        .mk or (PredGrp.setPred preds pfx
          (.mk column operator v vs true
            (some (ParseSelect.descend suffix value values rest child))))

/-- The state of the `range params` loop of `ParseSelect`: the tree under
`query.Where`, `orderbyMap` and `orderbyKeys`. -/
structure ParseSelect.State where
  Where : PredGrp
  orderbyMap : List (String × OrderBy)
  orderbyKeys : List String

/-- One round of the `range params` loop of `ParseSelect`, for the entry
`name, values`. -/
def ParseSelect.step (params : ParamMap) (st : ParseSelect.State)
    (entry : String × List String) : ParseSelect.State :=
  let name := entry.1
  let strs := strings.Split name '.'
  if strs.length = 0 then st
  else
    let prefixes := strs.dropLast
    let suffix := strs.getLastD ""
    if ¬ IsValidSuffix suffix then st
    else
      let value := ParseSelect.paramvalue params name
      let values := dedup entry.2
      if suffix = ord then
        match ParseSelect.orderLoop values ⟨"", ""⟩ with
        | none => st
        | some orderby =>
          { st with
            orderbyMap := ParseSelect.setOrder st.orderbyMap name orderby
            orderbyKeys := st.orderbyKeys ++ [name] }
      else if suffix = col ∨ suffix = opr ∨ suffix = val ∨ suffix = aor then
        { st with Where := ParseSelect.descend suffix value values prefixes st.Where }
      else st

/-- The closing loop of `ParseSelect` over the sorted `orderbyKeys`. -/
def ParseSelect.collect (orderbyMap : List (String × OrderBy)) :
    List String → List OrderBy → List OrderBy
  | [], orderBys => orderBys
  | key :: rest, orderBys =>
    let orderby : OrderBy := (orderbyMap.lookup key).getD ⟨"", ""⟩
    if orderby.string ≠ "" then ParseSelect.collect orderbyMap rest (orderBys ++ [orderby])
    else ParseSelect.collect orderbyMap rest orderBys

/-- Go `ParseSelect`; `params` lists the entries of the map in the order the
`range` loop enumerates them.  In the tree it returns, the entries of each
`Preds` map stand in the order the keys were created. -/
def ParseSelect (params : ParamMap) : SelectQuery :=
  let st := params.foldl (ParseSelect.step params) ⟨.mk false [], [], []⟩
  { Select := dedup (removeEmptyStrings (params.get Sel))
    From := ParseSelect.paramvalue params Frm
    Where := some st.Where
    OrderBys := ParseSelect.collect st.orderbyMap (sort.Strings st.orderbyKeys) []
    Limit := ParseSelect.paramvalueInt params Lim
    Offset := ParseSelect.paramvalueInt params Off }

/-- Go `form.Del(key)`. -/
def ParamMap.Del (form : ParamMap) (key : String) : ParamMap :=
  form.filter (fun entry => entry.1 ≠ key)

/-- The `range form` loop of `ScrubForm`: `keys` are the entries still to be
enumerated, `form` is the map as the deletions so far leave it. -/
def ScrubForm.loop : ParamMap → ParamMap → ParamMap
  | [], form => form
  | (key, _) :: rest, form =>
    let strs := strings.Split key '.'
    let suffix := strs.getLastD ""
    if ¬ IsValidSuffix suffix then ScrubForm.loop rest (form.Del key)
    else ScrubForm.loop rest form

/-- Go `ScrubForm`. -/
def ScrubForm (form : ParamMap) : ParamMap :=
  ScrubForm.loop form form

/-- The body of one round of the loop over the segments of a key in
`ParseSelect`, as `ParseSelect.descend` runs it on the predicate `pred` found
(or created empty) at the current segment, with `rest` the segments after it:
at the last segment the field is assigned; otherwise the predicate is marked
nested and the loop goes on in its child group.  It is used to state the
lemmas on `ParseSelect.descend`. -/
def ParseSelect.visit (suffix value : String) (values : List String) (rest : List String)
    (pred : Pred) : Pred :=
  match rest with
  | [] => ParseSelect.assign suffix value values pred
  | _ :: _ =>
    .mk pred.Column pred.Operator pred.Value pred.Values true
      (some (ParseSelect.descend suffix value values rest
        (pred.PredGrp.getD (.mk false []))))

/-- The values `Subst` is handed in `args`, as far as the language fixes their
literal form: a string, an integer (`int`, `int32` or `int64`) or nil.  A
`time.Time` and the values that go through `json.Marshal` are left out. -/
inductive Arg where
  | str (v : String)
  | int (v : Int)
  | nil
deriving DecidableEq, Repr

/-- The type switch of `Subst`: the literal form of an argument. -/
def Subst.literal : Arg → String
  | .str v => "'" ++ v ++ "'"
  | .int v => strconv.Itoa v
  | .nil => "NULL"

/-- The `range args` loop of `Subst`, with the index `i` and the text as
state. -/
def Subst.loop : List Arg → Nat → String → String
  | [], _, query => query
  | arg :: rest, i, query =>
    Subst.loop rest (i + 1)
      (strings.ReplaceAll query ("$" ++ strconv.Itoa ((i + 1 : Nat) : Int)) (Subst.literal arg))

/-- Go `Subst`. -/
def Subst (query : String) (args : List Arg) : String :=
  let query : String := ⟨regexp.replaceComments false query.data⟩
  let query : String := ⟨regexp.replaceEscapes query.data⟩
  let query : String := ⟨regexp.replaceSpaces false query.data⟩
  let query := strings.TrimSpace query
  let query := Subst.loop args 0 query
  if ¬ strings.HasSuffix query ";" then query ++ ";" else query

/-- Go `params[key] = values`: the entry of an existing key is replaced where
it stands, a new key gets a new entry. -/
def ParamMap.set : ParamMap → String → List String → ParamMap
  | [], key, values => [(key, values)]
  | (k, vs) :: rest, key, values =>
    if k = key then (k, values) :: rest else (k, vs) :: ParamMap.set rest key values

/-- The block `if params[name] != nil ...` of `ResolvePage` and of
`DBSelectWithStats`, with `current` the value of the variable before it: a
missing key (a nil slice) leaves the variable as it is; otherwise
`params[name][0]` is read, which for an entry with an empty value list is an
index out of range (`none`: the program panics); the first value goes through
`strconv.Atoi`, whose error is dropped, and replaces the variable when it is
greater. -/
def ResolvePage.raise (params : ParamMap) (name : String) (current : Int) : Option Int :=
  match params.lookup name with
  | none => some current
  | some [] => none
  | some (value :: _) =>
    let parsed := (strconv.Atoi value).1
    some (if parsed > current then parsed else current)

/-- Go `ResolvePage`.  The argument `none` is the nil map: reading it gives
the nil slice for every key, and the assignment `params[Off] = ...` of line 596
to it is a run-time panic.  The result `none` stands for a run-time panic. -/
def ResolvePage (params : Option ParamMap) : Option ParamMap :=
  let entries : ParamMap := params.getD []
  match ResolvePage.raise entries Lim 5 with
  | none => none
  | some limit =>
    match ResolvePage.raise entries Page 1 with
    | none => none
    | some page =>
      let offset := int64.wrap (limit * int64.wrap (page - 1))
      match params with
      | none => none
      | some m => some (m.set Off [strconv.Itoa offset])

/-- Go `SelectStats`. -/
structure SelectStats where
  Query : String
  Total : Int
  Limit : Int
  Page : Int
  TotalPages : Int
deriving DecidableEq, Repr

/-- Go `SelectStatsConfig`. -/
structure SelectStatsConfig where
  MinimumLimit : Int
  QueryOptions : List SelectOption

/-- Go `SelectStatsOption`. -/
abbrev SelectStatsOption := SelectStatsConfig → SelectStatsConfig

/-- Go `SelectStatsMinimumLimit`. -/
def SelectStatsMinimumLimit (limit : Int) : SelectStatsOption := fun config =>
  { config with MinimumLimit := limit }

/-- Go `SelectStatsQueryAll`. -/
def SelectStatsQueryAll : SelectStatsOption := fun config =>
  { config with QueryOptions := config.QueryOptions ++ [SelectAll] }

/-- The part of `DBSelectWithStats` between the count query and the rendering
of `stats.Query` (lines 555 to 570): from the parsed query `sq`, the minimum
limit of the configuration and the total the count query returned, the query
with its limit and offset set and the statistics (their `Query` still empty);
`none` stands for a run-time panic. -/
def DBSelectWithStats.paginate (params : ParamMap) (minimumLimit : Int) (sq : SelectQuery)
    (total : Int) : Option (SelectQuery × SelectStats) :=
  let limit := if sq.Limit < minimumLimit then minimumLimit else sq.Limit
  match ResolvePage.raise params Page 1 with
  | none => none
  | some page =>
    let offset := int64.wrap (limit * int64.wrap (page - 1))
    let totalPages := float64.divCeil (float64.ofInt total) (float64.ofInt limit)
    some ({ sq with Limit := limit, Offset := offset },
      { Query := "", Total := total, Limit := limit, Page := page, TotalPages := totalPages })

/-- What `DBSelectWithStats` returns: `rows` is the query text and the
arguments handed to `db.Queryx` (whose result is not modelled), `none` when the
count query failed and no row query is made; `err` tells whether the count
query failed. -/
structure DBSelectWithStats.Result where
  rows : Option (String × List String)
  stats : SelectStats
  err : Bool
deriving DecidableEq, Repr

/-- Go `DBSelectWithStats`.  The database is the function `count`, the
result of `db.QueryRowx(query, args...).Scan(&stats.Total)`: the total, or
`none` for an error.  The three calls of `Sql` work on one tree, each finding
it as the call before left it; the definition covers the runs in which the
three calls enumerate every `Preds` map in the same order (for a parameter map
without predicates, every run).  `none` stands for a run-time panic. -/
def DBSelectWithStats (count : String → List String → Option Int) (params : ParamMap)
    (options : List SelectStatsOption) : Option DBSelectWithStats.Result :=
  let config : SelectStatsConfig := options.foldl (fun config option => option config) ⟨5, []⟩
  let sq := ParseSelect params
  let first := sq.SqlRun [SelectCount]
  let sq := { sq with Where := first.2 }
  match count first.1.1 first.1.2 with
  | none => some ⟨none, ⟨"", 0, 0, 0, 0⟩, true⟩
  | some total =>
    match DBSelectWithStats.paginate params config.MinimumLimit sq total with
    | none => none
    | some (sq, stats) =>
      let second := sq.SqlRun config.QueryOptions
      let sq := { sq with Where := second.2 }
      let stats := { stats with Query := Subst second.1.1 (second.1.2.map Arg.str) }
      some ⟨some (sq.Sql []), stats, false⟩

/-! ## Specification-side definitions

These follow the words of the specification, not the code; the theorems below
compare the program with them. -/

/-- Follows the specification, not the code: one left-to-right scan of a text
in which `??` is rewritten to a single `?` and consumes no number, any other
`?` is rewritten to `$` and the decimal form of `k + 1`, where `k` is the number
of non-escaped markers to its left, and every other character is copied. -/
def scanPlaceholders : Nat → List Char → List Char
  | _, [] => []
  | k, [c] => if c = '?' then '$' :: (Nat.repr (k + 1)).data else [c]
  | k, c :: d :: rest =>
    if c = '?' then
      if d = '?' then '?' :: scanPlaceholders k rest
      else '$' :: (Nat.repr (k + 1)).data ++ scanPlaceholders (k + 1) (d :: rest)
    else c :: scanPlaceholders k (d :: rest)

/-- Follows the specification, not the code: the number of non-escaped `?`
markers of a text, read left to right with `??` counted as an escape. -/
def countMarkers : List Char → Nat
  | [] => 0
  | [c] => if c = '?' then 1 else 0
  | c :: d :: rest =>
    if c = '?' then
      if d = '?' then countMarkers rest else countMarkers (d :: rest) + 1
    else countMarkers (d :: rest)

/-- Follows the specification, not the code: the distinct values of a list,
each kept at its first occurrence. -/
def firstOccurrences : List String → List String
  | [] => []
  | v :: rest => v :: (firstOccurrences rest).filter (fun w => w ≠ v)

/-- Follows the specification, not the code: the six clauses of the final
assembly in their fixed order, each one its keyword, a space and its content,
or the empty text when its content is empty (limit and offset: zero).  The
select content is the non-empty select expressions, deduplicated, joined by
`, `; the predicate clause is the clause of `stringifyWhere` with its markers
numbered; the order content is the non-empty order entries joined by `, `. -/
def specClauses (sq : SelectQuery) : List String :=
  let selectStr :=
    strings.Join (firstOccurrences (sq.Select.filter (fun s => s ≠ ""))) ", "
  let whereStr := ReplacePlaceholders (stringifyWhere sq.Where).1.1
  let orderByStr :=
    strings.Join ((sq.OrderBys.map OrderBy.string).filter (fun s => s ≠ "")) ", "
  [ if selectStr = "" then "" else "SELECT " ++ selectStr,
    if sq.From = "" then "" else "FROM " ++ sq.From,
    if whereStr = "" then "" else "WHERE " ++ whereStr,
    if orderByStr = "" then "" else "ORDER BY " ++ orderByStr,
    if sq.Limit = 0 then "" else "LIMIT " ++ strconv.Itoa sq.Limit,
    if sq.Offset = 0 then "" else "OFFSET " ++ strconv.Itoa sq.Offset ]

/-- Follows the specification, not the code: the scan of the value list of
an ORD key, with the column and the direction set so far.  The first token
equal to IGNORE aborts the key with no entry; a token equal to ASC or DESC
sets the direction, any other token sets the column; as soon as both a
non-empty column and a direction are set the entry is fixed and the remaining
tokens are not read; a list that runs out before that gives no entry. -/
def scanOrder : List String → String → String → Option OrderBy
  | [], _, _ => none
  | tok :: rest, column, direction =>
    if tok = "IGNORE" then none
    else if tok = "ASC" ∨ tok = "DESC" then
      if column ≠ "" then some ⟨column, tok⟩ else scanOrder rest column tok
    else
      if tok ≠ "" ∧ direction ≠ "" then some ⟨tok, direction⟩
      else scanOrder rest tok direction

/-- Follows the specification, not the code: following the ids of `path` from
the group `g` leads through nodes that are marked nested and own a child group,
and ends at a node that exists and satisfies `P`. -/
def reaches (P : Pred → Prop) : List String → PredGrp → Prop
  | [], _ => False
  | [s], g => ∃ node, PredGrp.getPred g.Preds s = some node ∧ P node
  | s :: t :: rest, g =>
    ∃ node child, PredGrp.getPred g.Preds s = some node ∧ node.Nested = true ∧
      node.PredGrp = some child ∧ reaches P (t :: rest) child

mutual
/-- Follows the specification, not the code: `f` holds of this predicate node
and of every node below it. -/
def Pred.all (f : Pred → Bool) : Pred → Bool
  | .mk column operator value values nested grp =>
    f (.mk column operator value values nested grp) &&
      (match grp with
        | none => true
        | some g => PredGrp.all f g)
/-- Follows the specification, not the code: `f` holds of every predicate
node of the group, at any depth. -/
def PredGrp.all (f : Pred → Bool) : PredGrp → Bool
  | .mk _ preds => PredGrp.allEntries f preds
/-- Follows the specification, not the code: `f` holds of every predicate
node under the entries of a `Preds` map. -/
def PredGrp.allEntries (f : Pred → Bool) : List (String × Option Pred) → Bool
  | [] => true
  | (_, none) :: rest => PredGrp.allEntries f rest
  | (_, some p) :: rest => Pred.all f p && PredGrp.allEntries f rest
end

/-- The ORD-suffixed keys of a parameter map for which the scan of the
specification (`scanOrder`), run over the value list after its deduplication
in first-occurrence order, ends with both a column and a direction set, each
with the entry that scan fixes, in the order the map is enumerated.  The
deduplication is that of the code (line 201), not of the specification, whose
scan reads the value list as given: the two differ as soon as a token is
repeated. -/
def resolvedOrders (params : ParamMap) : List (String × OrderBy) :=
  params.filterMap (fun e =>
    if (strings.Split e.1 '.').getLastD "" = "ORD" then
      (scanOrder (firstOccurrences e.2) "" "").map (fun ob => (e.1, ob))
    else none)

/-- Follows the specification, not the code: the node reached from a group by
following the ids of a path through the child groups, if there is one. -/
def nodeAt : List String → PredGrp → Option Pred
  | [], _ => none
  | [s], g => PredGrp.getPred g.Preds s
  | s :: t :: rest, g =>
    match PredGrp.getPred g.Preds s with
    | none => none
    | some node =>
      match node.PredGrp with
      | none => none
      | some child => nodeAt (t :: rest) child

/-- Follows the specification, not the code: the invariant of the data model,
a node is nested if and only if it owns a non-nil child group. -/
def nestedIffChild (p : Pred) : Bool :=
  p.Nested == p.PredGrp.isSome

/-- Follows the specification, not the code: one half of the invariant, a
nested node owns a non-nil child group. -/
def nestedOwnsChild (p : Pred) : Bool :=
  !p.Nested || p.PredGrp.isSome

/-- Follows the specification, not the code: what a key with the suffix
`suffix` and the value list `values` leaves at the node it addresses.  The
first value is the empty string when the list is empty. -/
def addressed (suffix : String) (values : List String) (node : Pred) : Prop :=
  (suffix = col → node.Column = values.headD "") ∧
  (suffix = opr → node.Operator = values.headD "") ∧
  (suffix = val → node.Value = values.headD "" ∧ node.Values = firstOccurrences values) ∧
  (suffix = aor → ∃ child, node.PredGrp = some child ∧
    (child.Or = true ↔ values.headD "" = Or))

/-- Follows the specification, not the code: the replacement of every
marker at once.  The flush of a pending `$` and the digits read after it: for
the decimal form of a `k` from 1 to the number of arguments, the literal form
of the `k`-th argument; any other text stays as it is. -/
def specSubst.flush (args : List Arg) (digits : List Char) : List Char :=
  let k := digits.foldl (fun n ch => n * 10 + (ch.toNat - 48)) 0
  if 1 ≤ k ∧ k ≤ args.length ∧ digits = (Nat.repr k).data then
    (Subst.literal (args.getD (k - 1) .nil)).data
  else '$' :: digits

/-- Follows the specification, not the code: one scan of the text, left to
right, in which each marker (a `$` and the longest run of digits after it) is
replaced in place by the literal form of its argument and every other
character is copied; text that was put in is not read again.  The state is the
run of digits after a pending `$`, if there is one. -/
def specSubst.scan (args : List Arg) : Option (List Char) → List Char → List Char
  | none, [] => []
  | some digits, [] => specSubst.flush args digits
  | none, c :: rest =>
    if c = '$' then specSubst.scan args (some []) rest
    else c :: specSubst.scan args none rest
  | some digits, c :: rest =>
    if c.isDigit then specSubst.scan args (some (digits ++ [c])) rest
    else if c = '$' then specSubst.flush args digits ++ specSubst.scan args (some []) rest
    else specSubst.flush args digits ++ c :: specSubst.scan args none rest

/-- Follows the specification, not the code: the text with each marker
replaced in place by the literal form of its argument and nothing else
changed, followed by `;` when the text does not already end with `;`. -/
def specSubst (query : String) (args : List Arg) : String :=
  let text : String := ⟨specSubst.scan args none query.data⟩
  if strings.HasSuffix query ";" then text else text ++ ";"

/-- Follows the specification, not the code: the fragments of a group, each
with its markers numbered from the position its arguments have in the
concatenated argument list: `k` is the number of arguments of the fragments
before it. -/
def numberFragments : Nat → List (String × List String) → List String
  | _, [] => []
  | k, f :: rest => ⟨scanPlaceholders k f.1.data⟩ :: numberFragments (k + f.2.length) rest

/-- Follows the specification, not the code: a `Preds` map with the entry of
`key` set to `pred`, for a list of entries in ascending key order (compared
byte by byte): an entry of that key is replaced, a new entry is put at its
place in the order. -/
def PredGrp.upsert : List (String × Option Pred) → String → Option Pred →
    List (String × Option Pred)
  | [], key, pred => [(key, pred)]
  | (k, p) :: rest, key, pred =>
    if key = k then (key, pred) :: rest
    else if key.data ≤ k.data then (key, pred) :: (k, p) :: rest
    else (k, p) :: PredGrp.upsert rest key pred

mutual
/-- Follows the specification, not the code: the predicate with the entries
of every `Preds` map below it listed in ascending key order. -/
def Pred.canon : Pred → Pred
  | .mk column operator value values nested grp =>
    .mk column operator value values nested
      (match grp with
        | none => none
        | some g => some (PredGrp.canon g))
/-- Follows the specification, not the code: the group as a Go value, in
which a map has no order: the entries of its `Preds` map and of every map
below it are listed in ascending key order.  Two trees stand for the same Go
value exactly when this listing is the same. -/
def PredGrp.canon : PredGrp → PredGrp
  | .mk or preds => .mk or (PredGrp.canonEntries preds)
/-- Follows the specification, not the code: the entries of a `Preds` map in
ascending key order, each predicate listed in the same way; where a key
stands twice in the list, the first entry is the one a lookup finds, and it is
the one kept. -/
def PredGrp.canonEntries : List (String × Option Pred) → List (String × Option Pred)
  | [] => []
  | (key, none) :: rest => PredGrp.upsert (PredGrp.canonEntries rest) key none
  | (key, some p) :: rest =>
    PredGrp.upsert (PredGrp.canonEntries rest) key (some (Pred.canon p))
end

mutual
/-- Follows the data model, not the code: in a Go map no key stands twice.
Every `Preds` map below this predicate is listed with distinct keys. -/
def Pred.keysDistinct : Pred → Bool
  | .mk _ _ _ _ _ grp =>
    match grp with
    | none => true
    | some g => PredGrp.keysDistinct g
/-- Follows the data model, not the code: in a Go map no key stands twice.
The `Preds` map of this group and every `Preds` map below it are listed with
distinct keys, so the tree is the listing of a Go value. -/
def PredGrp.keysDistinct : PredGrp → Bool
  | .mk _ preds => PredGrp.keysDistinctEntries preds
/-- Follows the data model, not the code: no key of these entries stands
twice, and the same holds in every `Preds` map below them. -/
def PredGrp.keysDistinctEntries : List (String × Option Pred) → Bool
  | [] => true
  | (key, none) :: rest =>
    !(rest.any (fun e => e.1 == key)) && PredGrp.keysDistinctEntries rest
  | (key, some p) :: rest =>
    !(rest.any (fun e => e.1 == key)) && Pred.keysDistinct p &&
      PredGrp.keysDistinctEntries rest
end

/-! ## Lemmas on the library functions -/

theorem strings_Index_none (q : List Char) (c : Char) :
    strings.Index q c = none ↔ c ∉ q := by
  induction q with
  | nil => simp [strings.Index]
  | cons x xs ih =>
    by_cases h : x = c
    · simp [strings.Index, h]
    · have h2 : ¬ c = x := fun e => h e.symm
      simp [strings.Index, h, h2, ih]

theorem strings_Index_some (q : List Char) (c : Char) (p : Nat)
    (h : strings.Index q c = some p) :
    c ∉ q.take p ∧ q.drop p = c :: q.drop (p + 1) := by
  induction q generalizing p with
  | nil => simp [strings.Index] at h
  | cons x xs ih =>
    by_cases hx : x = c
    · simp [strings.Index, hx] at h
      subst h
      simp [hx]
    · have h2 : ¬ c = x := fun e => hx e.symm
      cases hi : strings.Index xs c with
      | none => simp [strings.Index, hx, hi] at h
      | some p1 =>
        simp [strings.Index, hx, hi] at h
        subst h
        simpa [h2] using ih p1 hi

theorem scanPlaceholders_cons_ne (k : Nat) (c : Char) (rest : List Char) (h : c ≠ '?') :
    scanPlaceholders k (c :: rest) = c :: scanPlaceholders k rest := by
  cases rest with
  | nil => simp [scanPlaceholders, h]
  | cons d rest => simp [scanPlaceholders, h]

theorem countMarkers_cons_ne (c : Char) (rest : List Char) (h : c ≠ '?') :
    countMarkers (c :: rest) = countMarkers rest := by
  cases rest with
  | nil => simp [countMarkers, h]
  | cons d rest => simp [countMarkers, h]

theorem scanPlaceholders_escape (k : Nat) (rest : List Char) :
    scanPlaceholders k ('?' :: '?' :: rest) = '?' :: scanPlaceholders k rest := by
  simp [scanPlaceholders]

theorem countMarkers_escape (rest : List Char) :
    countMarkers ('?' :: '?' :: rest) = countMarkers rest := by
  simp [countMarkers]

theorem scanPlaceholders_marker (k : Nat) (rest : List Char)
    (h : ∀ rest1, rest ≠ '?' :: rest1) :
    scanPlaceholders k ('?' :: rest) =
      '$' :: (Nat.repr (k + 1)).data ++ scanPlaceholders (k + 1) rest := by
  cases rest with
  | nil => simp [scanPlaceholders]
  | cons d rest =>
    have hd : d ≠ '?' := fun e => h rest (by rw [e])
    simp [scanPlaceholders, hd]

theorem countMarkers_marker (rest : List Char) (h : ∀ rest1, rest ≠ '?' :: rest1) :
    countMarkers ('?' :: rest) = countMarkers rest + 1 := by
  cases rest with
  | nil => simp [countMarkers]
  | cons d rest =>
    have hd : d ≠ '?' := fun e => h rest (by rw [e])
    simp [countMarkers, hd]

/-- A stretch without `?` in front of a text is copied and leaves the counter
alone. -/
theorem scanPlaceholders_append_left (k : Nat) (pre rest : List Char) (h : '?' ∉ pre) :
    scanPlaceholders k (pre ++ rest) = pre ++ scanPlaceholders k rest := by
  induction pre with
  | nil => rfl
  | cons c pre ih =>
    have hc : c ≠ '?' := fun e => h (by simp [e])
    have hp : '?' ∉ pre := fun e => h (by simp [e])
    rw [List.cons_append, scanPlaceholders_cons_ne k c _ hc, ih hp, List.cons_append]

theorem countMarkers_append_left (pre rest : List Char) (h : '?' ∉ pre) :
    countMarkers (pre ++ rest) = countMarkers rest := by
  induction pre with
  | nil => rfl
  | cons c pre ih =>
    have hc : c ≠ '?' := fun e => h (by simp [e])
    have hp : '?' ∉ pre := fun e => h (by simp [e])
    rw [List.cons_append, countMarkers_cons_ne c _ hc, ih hp]


theorem strconv_Itoa_nat (n : Nat) : strconv.Itoa (n : Int) = Nat.repr n := rfl

theorem ReplacePlaceholders_loop_eq (fuel : Nat) : ∀ (query buf : List Char) (i : Nat),
    query.length < fuel →
    ReplacePlaceholders.loop fuel query buf i =
      (buf ++ scanPlaceholders i query, i + countMarkers query) := by
  induction fuel with
  | zero => intro query buf i h; omega
  | succ fuel ih =>
    intro query buf i h
    rw [ReplacePlaceholders.loop]
    cases hI : strings.Index query '?' with
    | none =>
      have hn := (strings_Index_none query '?').1 hI
      have h1 := scanPlaceholders_append_left i query [] hn
      have h2 := countMarkers_append_left query [] hn
      simp [scanPlaceholders, countMarkers] at h1 h2
      simp [h1, h2]
    | some p =>
      obtain ⟨hpre, hdrop⟩ := strings_Index_some query '?' p hI
      have hq : query = query.take p ++ '?' :: query.drop (p + 1) := by
        conv_lhs => rw [← List.take_append_drop p query, hdrop]
      have e2 : query.drop (p + 2) = (query.drop (p + 1)).drop 1 := by
        rw [List.drop_drop]
      have hlen : query.length = (query.take p).length + 1 + (query.drop (p + 1)).length := by
        conv_lhs => rw [hq]
        simp; omega
      simp only [hdrop, e2, strconv_Itoa_nat]
      generalize query.drop (p + 1) = rest at hq hlen ⊢
      generalize query.take p = pre at hq hlen hpre ⊢
      subst hq
      cases rest with
      | nil =>
        simp [scanPlaceholders_append_left _ _ _ hpre, countMarkers_append_left _ _ hpre,
          scanPlaceholders, countMarkers]
        rw [ih] <;> simp [scanPlaceholders, countMarkers]
        omega
      | cons d rest1 =>
        by_cases hd : d = '?'
        · subst hd
          simp [scanPlaceholders_append_left _ _ _ hpre, countMarkers_append_left _ _ hpre,
            scanPlaceholders_escape, countMarkers_escape]
          rw [ih]
          · simp
          · simp at h ⊢; omega
        · have hm : ∀ rest2, d :: rest1 ≠ '?' :: rest2 := by
            intro rest2 e; exact hd (List.cons.inj e).1
          simp [scanPlaceholders_append_left _ _ _ hpre, countMarkers_append_left _ _ hpre,
            scanPlaceholders_marker _ _ hm, countMarkers_marker _ hm, hd]
          rw [ih]
          · simp; omega
          · simp at h ⊢; omega

theorem ReplacePlaceholders_run_eq (query : String) :
    ReplacePlaceholders.run query =
      (⟨scanPlaceholders 0 query.data⟩, countMarkers query.data) := by
  simp [ReplacePlaceholders.run, ReplacePlaceholders_loop_eq]

theorem ReplacePlaceholders_eq_scan (query : String) :
    ReplacePlaceholders query = ⟨scanPlaceholders 0 query.data⟩ := by
  simp [ReplacePlaceholders, ReplacePlaceholders_run_eq]

/-- After any stretch `pre` the scan goes on with the counter raised by the
number of markers of `pre`, provided the rest does not start with `?`. -/
theorem scanPlaceholders_append (n : Nat) : ∀ (pre rest : List Char) (k : Nat),
    pre.length ≤ n → (∀ r, rest ≠ '?' :: r) →
    scanPlaceholders k (pre ++ rest) =
      scanPlaceholders k pre ++ scanPlaceholders (k + countMarkers pre) rest := by
  induction n with
  | zero =>
    intro pre rest k h _
    have : pre = [] := List.length_eq_zero.1 (by omega)
    subst this
    simp [scanPlaceholders, countMarkers]
  | succ n ih =>
    intro pre rest k h hr
    match pre, h with
    | [], _ => simp [scanPlaceholders, countMarkers]
    | [c], _ =>
      by_cases hc : c = '?'
      · subst hc
        simp [scanPlaceholders_marker _ _ hr, scanPlaceholders, countMarkers]
      · simp [scanPlaceholders_cons_ne _ _ _ hc, scanPlaceholders, countMarkers, hc]
    | c :: d :: pre1, h =>
      simp only [List.length_cons] at h
      by_cases hc : c = '?'
      · subst hc
        by_cases hd : d = '?'
        · subst hd
          simp only [List.cons_append, scanPlaceholders_escape, countMarkers_escape]
          rw [ih pre1 rest k (by omega) hr]
        · have hm : ∀ r, d :: (pre1 ++ rest) ≠ '?' :: r := by
            intro r e; exact hd (List.cons.inj e).1
          have hm2 : ∀ r, d :: pre1 ≠ '?' :: r := by
            intro r e; exact hd (List.cons.inj e).1
          simp only [List.cons_append, scanPlaceholders_marker _ _ hm,
            scanPlaceholders_marker _ _ hm2, countMarkers_marker _ hm2]
          have := ih (d :: pre1) rest (k + 1) (by simp; omega) hr
          simp only [List.cons_append] at this
          rw [this]
          simp [Nat.add_comm, Nat.add_left_comm]
      · simp only [List.cons_append, scanPlaceholders_cons_ne _ _ _ hc,
          countMarkers_cons_ne _ _ hc]
        have := ih (d :: pre1) rest k (by simp; omega) hr
        simp only [List.cons_append] at this
        rw [this]

theorem scanPlaceholders_no_marker (k : Nat) (s : List Char) (h : '?' ∉ s) :
    scanPlaceholders k s = s := by
  have := scanPlaceholders_append_left k s [] h
  simpa [scanPlaceholders] using this

/-- A stretch without `?` behind a text is copied. -/
theorem scanPlaceholders_append_right (k : Nat) (s post : List Char) (h : '?' ∉ post) :
    scanPlaceholders k (s ++ post) = scanPlaceholders k s ++ post := by
  have hr : ∀ r, post ≠ '?' :: r := by
    intro r e; exact h (by simp [e])
  rw [scanPlaceholders_append s.length s post k (Nat.le_refl _) hr,
    scanPlaceholders_no_marker _ post h]

theorem strings_replaceFrom_marker (fuel : Nat) : ∀ s : List Char, s.length ≤ fuel →
    strings.replaceFrom ['?'] ['?', '?'] fuel s =
      s.flatMap (fun c => if c = '?' then ['?', '?'] else [c]) := by
  induction fuel with
  | zero =>
    intro s h
    have : s = [] := List.length_eq_zero.1 (by omega)
    subst this
    simp [strings.replaceFrom]
  | succ fuel ih =>
    intro s h
    cases s with
    | nil => simp [strings.replaceFrom]
    | cons c rest =>
      have hl : rest.length ≤ fuel := by simp at h; omega
      by_cases hc : c = '?'
      · subst hc
        simp [strings.replaceFrom, List.isPrefixOf, ih rest hl]
      · have hc2 : ¬ '?' = c := fun e => hc e.symm
        simp [strings.replaceFrom, List.isPrefixOf, ih rest hl, hc, hc2]

theorem strings_ReplaceAll_marker (s : String) :
    (strings.ReplaceAll s "?" "??").data =
      s.data.flatMap (fun c => if c = '?' then ['?', '?'] else [c]) := by
  have h1 : ("?" : String).data = ['?'] := rfl
  have h2 : ("??" : String).data = ['?', '?'] := rfl
  simp [strings.ReplaceAll, h1, h2, strings_replaceFrom_marker]

/-- Scanning an escaped text gives the text back and leaves the counter
alone, whatever follows. -/
theorem scanPlaceholders_escaped (k : Nat) (s rest : List Char) :
    scanPlaceholders k (s.flatMap (fun c => if c = '?' then ['?', '?'] else [c]) ++ rest) =
      s ++ scanPlaceholders k rest := by
  induction s with
  | nil => simp
  | cons c s ih =>
    by_cases hc : c = '?'
    · subst hc
      simp [scanPlaceholders_escape, ih]
    · simp [hc, scanPlaceholders_cons_ne _ _ _ hc, ih]

theorem countMarkers_escaped (s rest : List Char) :
    countMarkers (s.flatMap (fun c => if c = '?' then ['?', '?'] else [c]) ++ rest) =
      countMarkers rest := by
  induction s with
  | nil => simp
  | cons c s ih =>
    by_cases hc : c = '?'
    · subst hc
      simp [countMarkers_escape, ih]
    · simp [hc, countMarkers_cons_ne _ _ hc, ih]


/-! ## Lemmas on `ReplacePlaceholders` at the level of strings -/

theorem ReplacePlaceholders_append_left (a b : String) (h : '?' ∉ a.data) :
    ReplacePlaceholders (a ++ b) = a ++ ReplacePlaceholders b := by
  apply String.ext
  simp [ReplacePlaceholders_eq_scan, scanPlaceholders_append_left _ _ _ h]

theorem ReplacePlaceholders_append_right (a b : String) (h : '?' ∉ b.data) :
    ReplacePlaceholders (a ++ b) = ReplacePlaceholders a ++ b := by
  apply String.ext
  simp [ReplacePlaceholders_eq_scan, scanPlaceholders_append_right _ _ _ h]

theorem ReplacePlaceholders_escaped_append (c b : String) :
    ReplacePlaceholders (strings.ReplaceAll c "?" "??" ++ b) = c ++ ReplacePlaceholders b := by
  apply String.ext
  simp [ReplacePlaceholders_eq_scan, strings_ReplaceAll_marker, scanPlaceholders_escaped]

theorem strings_ReplaceAll_marker_eq_empty (c : String) :
    strings.ReplaceAll c "?" "??" = "" ↔ c = "" := by
  constructor
  · intro h
    have h1 := congrArg String.data h
    rw [strings_ReplaceAll_marker] at h1
    apply String.ext
    cases hc : c.data with
    | nil => rfl
    | cons x xs =>
      rw [hc] at h1
      by_cases hx : x = '?' <;> simp [hx] at h1
  · intro h
    subst h
    decide

theorem String_append_ne_empty_left (a b : String) (h : a ≠ "") : a ++ b ≠ "" := by
  intro e
  have h1 := congrArg String.data e
  simp at h1
  exact h (String.ext h1.1)

theorem String_append_ne_empty_right (a b : String) (h : b ≠ "") : a ++ b ≠ "" := by
  intro e
  have h1 := congrArg String.data e
  simp at h1
  exact h (String.ext h1.2)

theorem String_length_pos_iff (a : String) : a.length > 0 ↔ a ≠ "" := by
  constructor
  · intro h e
    subst e
    simp at h
  · intro h
    cases hd : a.data with
    | nil => exact absurd (String.ext hd) h
    | cons x xs => simp [String.length, hd]

/-- C3, evaluated at the failing input, with the set the code accepts:
`IsValidSuffix` returns false for the reserved suffix OFF (OFFSET); the
suffixes it returns true for are exactly SEL, FRM, COL, OPR, VAL, ORD, LIM, AOR
and PAGE. -/
theorem IsValidSuffix_Off_false :
    IsValidSuffix Off = false ∧
    ∀ suffix : String, IsValidSuffix suffix = true ↔
      suffix ∈ [Sel, Frm, col, opr, val, ord, Lim, aor, Page] := by
  refine ⟨by decide, ?_⟩
  intro suffix
  simp only [IsValidSuffix, List.lookup]
  repeat' split
  all_goals simp_all


/-- C4: for every text `ReplacePlaceholders` equals the one left-to-right scan
of the specification (`??` becomes a single `?` and consumes no number, any
other `?` becomes `$k` with `k` one more than the number of non-escaped markers
to its left, every other character is copied); behind any stretch `pre` of the
text that is not cut off from a following `?`, the scan goes on numbering from
the number of markers of `pre`; `a = ? AND b?? = ?` becomes
`a = $1 AND b? = $2`; and a text without `?` is returned unchanged. -/
theorem ReplacePlaceholders_refines_scan :
    (∀ query : String, ReplacePlaceholders query = ⟨scanPlaceholders 0 query.data⟩) ∧
    (∀ (pre rest : List Char), (∀ r, rest ≠ '?' :: r) →
      scanPlaceholders 0 (pre ++ rest) =
        scanPlaceholders 0 pre ++ scanPlaceholders (countMarkers pre) rest) ∧
    ReplacePlaceholders "a = ? AND b?? = ?" = "a = $1 AND b? = $2" ∧
    (∀ query : String, '?' ∉ query.data → ReplacePlaceholders query = query) := by
  refine ⟨ReplacePlaceholders_eq_scan, ?_, by decide, ?_⟩
  · intro pre rest h
    have := scanPlaceholders_append pre.length pre rest 0 (Nat.le_refl _) h
    simpa using this
  · intro query h
    rw [ReplacePlaceholders_eq_scan, scanPlaceholders_no_marker 0 _ h]

/-- A text without `?` on which C4 applies. -/
theorem ReplacePlaceholders_refines_scan_witness :
    '?' ∉ ("SELECT a FROM t" : String).data ∧
    ReplacePlaceholders "SELECT a FROM t" = "SELECT a FROM t" :=
  ⟨by decide, ReplacePlaceholders_refines_scan.2.2.2 "SELECT a FROM t" (by decide)⟩

/-- C5, counterexample: a leaf with the empty column and operator EQ renders
through `Sql` as the empty text with no argument, not as the column followed by
` = $1`. -/
theorem Sql_leaf_empty_column :
    SelectQuery.Sql
        ⟨[], "", some (.mk false [("1", some (.mk "" "EQ" "v" ["v"] false none))]), [], 0, 0⟩ [] =
      ("", []) ∧
    SelectQuery.Sql
        ⟨[], "", some (.mk false [("1", some (.mk "" "EQ" "v" ["v"] false none))]), [], 0, 0⟩ [] ≠
      ("WHERE " ++ "" ++ " = $1", ["v"]) := by
  decide

/-- C5 (amended): for every string `c`, `ReplacePlaceholders` applied to `c`
with each `?` doubled returns `c` exactly and writes no positional marker (its
counter ends at 0); hence a leaf with a non-empty column `c` and operator EQ
renders through `Sql` as `WHERE `, then `c`, then ` = $1`, with its value as the
only argument. -/
theorem ReplacePlaceholders_escaped_column (c : String) :
    ReplacePlaceholders.run (strings.ReplaceAll c "?" "??") = (c, 0) ∧
    (c ≠ "" → ∀ (key value : String) (values : List String) (grp : Option PredGrp) (or : Bool),
      SelectQuery.Sql
          ⟨[], "", some (.mk or [(key, some (.mk c Eq value values false grp))]), [], 0, 0⟩ [] =
        ("WHERE " ++ c ++ " = $1", [value])) := by
  constructor
  · rw [ReplacePlaceholders_run_eq, strings_ReplaceAll_marker]
    have h1 := scanPlaceholders_escaped 0 c.data []
    have h2 := countMarkers_escaped c.data []
    simp only [List.append_nil] at h1 h2
    rw [h1, h2]
    simp [scanPlaceholders, countMarkers]
  · intro hc key value values grp or
    have hne : strings.ReplaceAll c "?" "??" ≠ "" :=
      fun e => hc ((strings_ReplaceAll_marker_eq_empty c).1 e)
    have ht : strings.TrimSpace Eq = Eq := by decide
    have hw : stringifyWhere (some (.mk or [(key, some (.mk c Eq value values false grp))])) =
        ((strings.ReplaceAll c "?" "??" ++ " = ?", [value]),
          some (.mk or [(key, some (.mk (strings.ReplaceAll c "?" "??") Eq value
            (dedup values) false grp))])) := by
      simp [stringifyWhere, stringifyWhere.body, stringifyWhere.loop, stringifyPred.body,
        stringifyPred.leaf, hne, ht, String_append_ne_empty_left _ _ hne]
    have hd : dedup (removeEmptyStrings []) = [] := by decide
    simp [SelectQuery.Sql, SelectQuery.SqlRun, hw, hd, strings.Join, SelectQuery.writeClause,
      stringifyOrder, stringifyOrder.loop, String_append_ne_empty_left _ _ hne]
    have h1 : '?' ∉ ("WHERE" ++ space).data := by decide
    have h2 : ReplacePlaceholders " = ?" = " = $1" := by decide
    have h3 : "WHERE" ++ space = "WHERE " := by decide
    rw [ReplacePlaceholders_append_left _ _ h1, ReplacePlaceholders_escaped_append, h2, h3,
      String.append_assoc]


/-- A leaf with a non-empty column on which the second part of C5 (amended)
applies; the column contains `?`. -/
theorem ReplacePlaceholders_escaped_column_witness :
    ("a?b" : String) ≠ "" ∧
    SelectQuery.Sql
        ⟨[], "", some (.mk false [("1", some (.mk "a?b" Eq "v" ["v"] false none))]), [], 0, 0⟩ [] =
      ("WHERE a?b = $1", ["v"]) :=
  ⟨by decide,
    (ReplacePlaceholders_escaped_column "a?b").2 (by decide) "1" "v" ["v"] none false⟩

/-- C1, evaluated at the failing input: two calls of `Sql` in succession on
the query whose only predicate is the leaf `a? EQ v` return different texts,
`WHERE a? = $1` and then `WHERE a?? = $1`: the first call stores the escaped
column `a??` in the leaf, and the second call escapes it once more. -/
theorem SqlTwice_marker_column :
    SelectQuery.SqlTwice
        ⟨[], "", some (.mk false [("1", some (.mk "a?" "EQ" "v" ["v"] false none))]), [], 0, 0⟩ [] =
      (("WHERE a? = $1", ["v"]), ("WHERE a?? = $1", ["v"])) := by
  decide

/-- C2, evaluated at the failing input: for the group with the predicates
`1 ↦ A EQ x` and `2 ↦ B EQ y`, `stringifyWhere` emits the fragments and the
arguments in the order the map is enumerated: `2` before `1` gives
`B = ? AND A = ?` with `[y, x]`, and `1` before `2` gives `A = ? AND B = ?`
with `[x, y]`. -/
theorem stringifyWhere_enumeration_order :
    (stringifyWhere (some (.mk false
        [("2", some (.mk "B" "EQ" "y" ["y"] false none)),
         ("1", some (.mk "A" "EQ" "x" ["x"] false none))]))).1 =
      ("B = ? AND A = ?", ["y", "x"]) ∧
    (stringifyWhere (some (.mk false
        [("1", some (.mk "A" "EQ" "x" ["x"] false none)),
         ("2", some (.mk "B" "EQ" "y" ["y"] false none))]))).1 =
      ("A = ? AND B = ?", ["x", "y"]) := by
  decide


/-! ## Lemmas on `dedup` and on the leaf rendering -/

theorem dedup_loop_eq (values : List String) : ∀ (deduped uniq : List String),
    (∀ v, v ∈ uniq ↔ v ∈ deduped) →
    dedup.loop values deduped uniq =
      deduped ++ (firstOccurrences values).filter (fun v => v ∉ deduped) := by
  induction values with
  | nil => intro deduped uniq _; simp [dedup.loop, firstOccurrences]
  | cons value rest ih =>
    intro deduped uniq h
    by_cases hv : value ∈ uniq
    · have hv2 : value ∈ deduped := (h value).1 hv
      rw [dedup.loop, if_pos hv, ih deduped uniq h]
      simp only [firstOccurrences, List.filter_cons, hv2, not_true_eq_false, decide_False,
        Bool.false_eq_true, if_false, List.filter_filter]
      congr 1
      apply List.filter_congr
      intro w _
      by_cases hw : w ∈ deduped
      · simp [hw]
      · have : w ≠ value := fun e => hw (e ▸ hv2)
        simp [hw, this]
    · have hv2 : value ∉ deduped := fun e => hv ((h value).2 e)
      have h2 : ∀ v, v ∈ value :: uniq ↔ v ∈ deduped ++ [value] := by
        intro v
        simp [h v, or_comm]
      rw [dedup.loop, if_neg hv, ih (deduped ++ [value]) (value :: uniq) h2]
      simp only [firstOccurrences, List.filter_cons, hv2, not_false_eq_true, decide_True,
        if_true, List.filter_filter, List.append_assoc, List.singleton_append]
      congr 2
      apply List.filter_congr
      intro w _
      by_cases hw : w ∈ deduped <;> by_cases hw2 : w = value <;> simp [hw, hw2]

/-- The code's `dedup` keeps each value at its first occurrence. -/
theorem dedup_eq_firstOccurrences (values : List String) :
    dedup values = firstOccurrences values := by
  rw [dedup, dedup_loop_eq values [] [] (by simp)]
  simp

theorem stringifyPred_inLoop_eq (values : List String) : ∀ placeholders args : List String,
    stringifyPred.inLoop values placeholders args =
      (placeholders ++ List.replicate values.length "?", args ++ values) := by
  induction values with
  | nil => intro placeholders args; simp [stringifyPred.inLoop]
  | cons v rest ih =>
    intro placeholders args
    simp [stringifyPred.inLoop, ih, List.replicate_succ]

/-- A leaf is rendered by the operator switch on the escaped column, the
trimmed operator and the deduplicated value list. -/
theorem stringifyPred_leaf_eq (column operator value : String) (values : List String)
    (grp : Option PredGrp) :
    (stringifyPred (some (.mk column operator value values false grp))).1 =
      stringifyPred.leaf (strings.ReplaceAll column "?" "??") (strings.TrimSpace operator)
        value (dedup values) := by
  simp [stringifyPred, stringifyPred.body]


/-- C6, counterexample: the leaf with column `a?` and operator EQ renders as
`a?? = ?` (the column with its `?` doubled), not as the column followed by
` = ?`. -/
theorem stringifyPred_marker_column :
    (stringifyPred (some (.mk "a?" "EQ" "v" ["v"] false none))).1 = ("a?? = ?", ["v"]) ∧
    (stringifyPred (some (.mk "a?" "EQ" "v" ["v"] false none))).1 ≠ ("a?" ++ " = ?", ["v"]) := by
  decide

/-- C6 (amended): for every leaf predicate, with `c` its column after every
`?` is doubled and `op` its operator code after surrounding white space is
trimmed: when the column is not empty, `stringifyPred` renders EQ as `c = ?`,
NE as `c <> ?`, GT as `c > ?`, GE as `c >= ?`, LT as `c < ?`, LE as `c <= ?`,
LIKE as `c LIKE ?`, ILIKE as `c ILIKE ?`, each with the argument list `[Value]`,
NULL as `c IS NULL` and NOTNULL as `c IS NOT NULL` with no arguments; and when
the column is empty, or `op` is none of the twelve operator codes, it renders
the empty text with no arguments. -/
theorem stringifyPred_leaf_table (column operator value : String) (values : List String)
    (grp : Option PredGrp) :
    (column ≠ "" →
      (strings.TrimSpace operator = Eq →
        (stringifyPred (some (.mk column operator value values false grp))).1 =
          (strings.ReplaceAll column "?" "??" ++ " = ?", [value])) ∧
      (strings.TrimSpace operator = Ne →
        (stringifyPred (some (.mk column operator value values false grp))).1 =
          (strings.ReplaceAll column "?" "??" ++ " <> ?", [value])) ∧
      (strings.TrimSpace operator = Gt →
        (stringifyPred (some (.mk column operator value values false grp))).1 =
          (strings.ReplaceAll column "?" "??" ++ " > ?", [value])) ∧
      (strings.TrimSpace operator = Ge →
        (stringifyPred (some (.mk column operator value values false grp))).1 =
          (strings.ReplaceAll column "?" "??" ++ " >= ?", [value])) ∧
      (strings.TrimSpace operator = Lt →
        (stringifyPred (some (.mk column operator value values false grp))).1 =
          (strings.ReplaceAll column "?" "??" ++ " < ?", [value])) ∧
      (strings.TrimSpace operator = Le →
        (stringifyPred (some (.mk column operator value values false grp))).1 =
          (strings.ReplaceAll column "?" "??" ++ " <= ?", [value])) ∧
      (strings.TrimSpace operator = Like →
        (stringifyPred (some (.mk column operator value values false grp))).1 =
          (strings.ReplaceAll column "?" "??" ++ " LIKE ?", [value])) ∧
      (strings.TrimSpace operator = ILike →
        (stringifyPred (some (.mk column operator value values false grp))).1 =
          (strings.ReplaceAll column "?" "??" ++ " ILIKE ?", [value])) ∧
      (strings.TrimSpace operator = Null →
        (stringifyPred (some (.mk column operator value values false grp))).1 =
          (strings.ReplaceAll column "?" "??" ++ " IS NULL", [])) ∧
      (strings.TrimSpace operator = NotNull →
        (stringifyPred (some (.mk column operator value values false grp))).1 =
          (strings.ReplaceAll column "?" "??" ++ " IS NOT NULL", []))) ∧
    (column = "" ∨
        strings.TrimSpace operator ∉
          [Eq, Ne, In, Gt, Ge, Lt, Le, Null, NotNull, Like, ILike, Between] →
      (stringifyPred (some (.mk column operator value values false grp))).1 = ("", [])) := by
  rw [stringifyPred_leaf_eq]
  constructor
  · intro hc
    have hne : strings.ReplaceAll column "?" "??" ≠ "" :=
      fun e => hc ((strings_ReplaceAll_marker_eq_empty column).1 e)
    refine ⟨?_, ?_, ?_, ?_, ?_, ?_, ?_, ?_, ?_, ?_⟩ <;> intro ho <;> rw [ho] <;>
      simp [stringifyPred.leaf, hne, Eq, Ne, In, Gt, Ge, Lt, Le, Null, NotNull, Like, ILike,
        Between]
  · intro h
    rcases h with h | h
    · subst h
      have : strings.ReplaceAll "" "?" "??" = "" := by decide
      simp [stringifyPred.leaf, this]
    · simp only [List.mem_cons, List.mem_singleton, not_or, List.mem_nil_iff, or_false] at h
      obtain ⟨h1, h2, h3, h4, h5, h6, h7, h8, h9, h10, h11, h12⟩ := h
      simp [stringifyPred.leaf, h1, h2, h3, h4, h5, h6, h7, h8, h9, h10, h11, h12]


/-- A leaf with the operator ` EQ ` (white space around it) on which C6
(amended) applies. -/
theorem stringifyPred_leaf_table_witness :
    ("A" : String) ≠ "" ∧ strings.TrimSpace " EQ " = Eq ∧
    (stringifyPred (some (.mk "A" " EQ " "bullymong" ["bullymong"] false none))).1 =
      ("A = ?", ["bullymong"]) :=
  ⟨by decide, by decide,
    (((stringifyPred_leaf_table "A" " EQ " "bullymong" ["bullymong"] none).1 (by decide)).1
      (by decide)).trans (by decide)⟩

theorem countMarkers_join_markers (n : Nat) (rest : List Char) (h : ∀ r, rest ≠ '?' :: r) :
    countMarkers ((strings.Join (List.replicate n "?") ("," ++ space)).data ++ rest) =
      n + countMarkers rest := by
  induction n with
  | zero => simp [strings.Join]
  | succ n ih =>
    cases n with
    | zero =>
      have h1 : ("?" : String).data = ['?'] := rfl
      simp [strings.Join, List.replicate, h1, countMarkers_marker _ h]
      omega
    | succ m =>
      have h1 : ("?" : String).data = ['?'] := rfl
      have h2 : ("," ++ space : String).data = [',', ' '] := rfl
      have hm : ∀ r, ',' :: ' ' ::
          ((strings.Join ("?" :: List.replicate m "?") ("," ++ space)).data ++ rest) ≠
            '?' :: r := by
        intro r e
        exact absurd (List.cons.inj e).1 (by decide)
      have ih2 : countMarkers
          ((strings.Join ("?" :: List.replicate m "?") ("," ++ space)).data ++ rest) =
            m + 1 + countMarkers rest := by
        simpa [List.replicate] using ih
      simp only [List.replicate, strings.Join, String.data_append, h1, h2, List.append_assoc,
        List.cons_append, List.nil_append]
      rw [countMarkers_marker _ hm, countMarkers_cons_ne _ _ (by decide),
        countMarkers_cons_ne _ _ (by decide), ih2]
      omega

/-- C7, counterexample: the leaf with column `a?`, operator IN and the values
`x, y` renders as `a?? IN (?, ?)` (the column with its `?` doubled), not as
the column followed by ` IN (?, ?)`. -/
theorem stringifyPred_In_marker_column :
    (stringifyPred (some (.mk "a?" "IN" "x" ["x", "y"] false none))).1 =
      ("a?? IN (?, ?)", ["x", "y"]) ∧
    (stringifyPred (some (.mk "a?" "IN" "x" ["x", "y"] false none))).1 ≠
      ("a?" ++ " IN (?, ?)", ["x", "y"]) := by
  decide

/-- C7 (amended): for every leaf predicate with a non-empty column and
operator IN, `stringifyPred` renders the column with every `?` doubled, then
` IN (`, then one `?` per distinct value of the value list, joined by `, `,
then `)`; its arguments are the deduplicated values, which are the values in
first-occurrence order; and the number of markers of the rendered text (a
doubled `?` is not a marker) equals the number of arguments, also when the
value list is empty. -/
theorem stringifyPred_In (column operator value : String) (values : List String)
    (grp : Option PredGrp) (hc : column ≠ "") (ho : strings.TrimSpace operator = In) :
    (stringifyPred (some (.mk column operator value values false grp))).1 =
      (strings.ReplaceAll column "?" "??" ++ " IN (" ++
          strings.Join (List.replicate (dedup values).length "?") ", " ++ ")",
        dedup values) ∧
    dedup values = firstOccurrences values ∧
    countMarkers (stringifyPred (some (.mk column operator value values false grp))).1.1.data =
      (stringifyPred (some (.mk column operator value values false grp))).1.2.length := by
  have hne : strings.ReplaceAll column "?" "??" ≠ "" :=
    fun e => hc ((strings_ReplaceAll_marker_eq_empty column).1 e)
  have hsep : "," ++ space = ", " := by decide
  have h1 : (stringifyPred (some (.mk column operator value values false grp))).1 =
      (strings.ReplaceAll column "?" "??" ++ " IN (" ++
          strings.Join (List.replicate (dedup values).length "?") ", " ++ ")",
        dedup values) := by
    rw [stringifyPred_leaf_eq, ho]
    simp [stringifyPred.leaf, hne, stringifyPred_inLoop_eq, Eq, Ne, In, hsep]
  refine ⟨h1, dedup_eq_firstOccurrences values, ?_⟩
  rw [h1]
  have h2 : (" IN (" : String).data = [' ', 'I', 'N', ' ', '('] := rfl
  have h3 : (")" : String).data = [')'] := rfl
  have h4 : '?' ∉ [' ', 'I', 'N', ' ', '('] := by decide
  have h5 : ∀ r, [')'] ≠ '?' :: r := by
    intro r e
    exact absurd (List.cons.inj e).1 (by decide)
  have h6 := countMarkers_join_markers (dedup values).length [')'] h5
  rw [hsep] at h6
  simp only [String.data_append, List.append_assoc, strings_ReplaceAll_marker,
    countMarkers_escaped, h2, h3]
  rw [countMarkers_append_left _ _ h4, h6]
  simp [countMarkers]

/-- A leaf with a repeated value on which C7 applies: three values, two
distinct ones, two markers. -/
theorem stringifyPred_In_witness :
    ("C" : String) ≠ "" ∧ strings.TrimSpace "IN" = In ∧
    (stringifyPred (some (.mk "C" "IN" "x" ["x", "y", "x"] false none))).1 =
      ("C IN (?, ?)", ["x", "y"]) :=
  ⟨by decide, by decide,
    ((stringifyPred_In "C" "IN" "x" ["x", "y", "x"] none (by decide) (by decide)).1).trans
      (by decide)⟩

/-- C8, counterexample: a BETWEEN leaf whose value list holds the two values
`5, 5` renders as the empty text with no arguments, because the list is
deduplicated before its length is tested; and a column with `?` is rendered
with the `?` doubled. -/
theorem Between_duplicate_values :
    (stringifyPred (some (.mk "B" "BETWEEN" "5" ["5", "5"] false none))).1 = ("", []) ∧
    (stringifyPred (some (.mk "b?" "BETWEEN" "1" ["1", "2"] false none))).1 =
      ("b?? BETWEEN ? AND ?", ["1", "2"]) := by
  decide

/-- C8 (amended): for every leaf predicate with a non-empty column and
operator BETWEEN, with `c` the column after every `?` is doubled: when its
value list, deduplicated in first-occurrence order, holds at least two values,
`stringifyPred` renders `c BETWEEN ? AND ?` with the first two distinct values
as arguments; when the deduplicated list holds fewer than two values, it
renders the empty text and contributes no arguments. -/
theorem stringifyPred_Between (column operator value : String) (values : List String)
    (grp : Option PredGrp) (hc : column ≠ "") (ho : strings.TrimSpace operator = Between) :
    (∀ (smaller greater : String) (rest : List String),
      firstOccurrences values = smaller :: greater :: rest →
      (stringifyPred (some (.mk column operator value values false grp))).1 =
        (strings.ReplaceAll column "?" "??" ++ " BETWEEN ? AND ?", [smaller, greater])) ∧
    ((firstOccurrences values).length < 2 →
      (stringifyPred (some (.mk column operator value values false grp))).1 = ("", [])) := by
  have hne : strings.ReplaceAll column "?" "??" ≠ "" :=
    fun e => hc ((strings_ReplaceAll_marker_eq_empty column).1 e)
  rw [stringifyPred_leaf_eq, ho, dedup_eq_firstOccurrences]
  constructor
  · intro smaller greater rest h
    rw [h]
    simp [stringifyPred.leaf, hne, Eq, Ne, In, Gt, Ge, Lt, Le, Null, NotNull, Like, ILike,
      Between]
  · intro h
    match hv : firstOccurrences values, h with
    | [], _ =>
      simp [stringifyPred.leaf, hne, Eq, Ne, In, Gt, Ge, Lt, Le, Null, NotNull, Like, ILike,
        Between]
    | [a], _ =>
      simp [stringifyPred.leaf, hne, Eq, Ne, In, Gt, Ge, Lt, Le, Null, NotNull, Like, ILike,
        Between]
    | a :: b :: rest, h => exact absurd h (by simp)

/-- A BETWEEN leaf with three values, the first repeated, on which C8
(amended) applies. -/
theorem stringifyPred_Between_witness :
    ("B" : String) ≠ "" ∧ strings.TrimSpace "BETWEEN" = Between ∧
    firstOccurrences ["9", "9", "10"] = ["9", "10"] ∧
    (stringifyPred (some (.mk "B" "BETWEEN" "9" ["9", "9", "10"] false none))).1 =
      ("B BETWEEN ? AND ?", ["9", "10"]) :=
  ⟨by decide, by decide, by decide,
    ((stringifyPred_Between "B" "BETWEEN" "9" ["9", "9", "10"] none (by decide)
      (by decide)).1 "9" "10" [] (by decide)).trans (by decide)⟩


/-! ## Lemmas on joining fragments -/

theorem strings_Join_ne_empty (a : String) (rest : List String) (sep : String) (h : a ≠ "") :
    strings.Join (a :: rest) sep ≠ "" := by
  cases rest with
  | nil => simpa [strings.Join] using h
  | cons b rest =>
    simp only [strings.Join, String.append_assoc]
    exact String_append_ne_empty_left _ _ h

theorem strings_Join_snoc (done : List String) (f sep : String) (h : done ≠ []) :
    strings.Join (done ++ [f]) sep = strings.Join done sep ++ sep ++ f := by
  induction done with
  | nil => exact absurd rfl h
  | cons a rest ih =>
    cases rest with
    | nil => simp [strings.Join]
    | cons b rest =>
      have := ih (by simp)
      simp only [List.cons_append] at this
      simp only [List.cons_append, strings.Join, List.append_eq, this, String.append_assoc]

/-- One step of a buffer loop: writing a separator when the buffer is not
empty and then the fragment extends the join by that fragment. -/
theorem strings_Join_step (done : List String) (f sep : String)
    (h : ∀ t ∈ done, t ≠ "") :
    (if (strings.Join done sep).length > 0 then strings.Join done sep ++ sep
      else strings.Join done sep) ++ f = strings.Join (done ++ [f]) sep := by
  cases done with
  | nil => simp [strings.Join]
  | cons a rest =>
    have hne : strings.Join (a :: rest) sep ≠ "" :=
      strings_Join_ne_empty a rest sep (h a (by simp))
    rw [if_pos ((String_length_pos_iff _).2 hne), strings_Join_snoc _ _ _ (by simp)]

theorem strings_Join_eq_empty (xs : List String) (sep : String) (h : ∀ t ∈ xs, t ≠ "")
    (he : strings.Join xs sep = "") : xs = [] := by
  cases xs with
  | nil => rfl
  | cons a rest => exact absurd he (strings_Join_ne_empty a rest sep (h a (by simp)))

theorem stringifyWhere_loop_cons (conjuctor key : String) (pred : Option Pred)
    (rest : List (String × Option Pred)) (buf : String) (args : List String) :
    (stringifyWhere.loop conjuctor ((key, pred) :: rest) buf args).1 =
      (stringifyWhere.loop conjuctor rest
        (if (stringifyPred pred).1.1 ≠ "" then
          (if buf.length > 0 then buf ++ (space ++ conjuctor ++ space) else buf) ++
            (stringifyPred pred).1.1
          else buf)
        (if (stringifyPred pred).1.1 ≠ "" then args ++ (stringifyPred pred).1.2
          else args)).1 := by
  cases pred with
  | none => rfl
  | some p =>
    by_cases h : (stringifyPred.body p).1.1 = "" <;>
      simp [stringifyWhere.loop, stringifyPred, h]

theorem stringifyWhere_loop_join (conjuctor : String) :
    ∀ (preds : List (String × Option Pred)) (done : List String) (args : List String),
    (∀ t ∈ done, t ≠ "") →
    (stringifyWhere.loop conjuctor preds
        (strings.Join done (space ++ conjuctor ++ space)) args).1 =
      (strings.Join (done ++
          (((preds.map (fun e => (stringifyPred e.2).1)).filter (fun f => f.1 ≠ "")).map
            Prod.fst)) (space ++ conjuctor ++ space),
        args ++
          ((preds.map (fun e => (stringifyPred e.2).1)).filter (fun f => f.1 ≠ "")).flatMap
            Prod.snd) := by
  intro preds
  induction preds with
  | nil => intro done args _; simp [stringifyWhere.loop]
  | cons e rest ih =>
    intro done args h
    obtain ⟨key, pred⟩ := e
    rw [stringifyWhere_loop_cons]
    by_cases hp : (stringifyPred pred).1.1 = ""
    · simp only [hp, ne_eq, not_true_eq_false, if_false]
      rw [ih done args h]
      simp [hp]
    · simp only [hp, ne_eq, not_false_eq_true, if_true]
      rw [strings_Join_step done _ _ h, ih (done ++ [(stringifyPred pred).1.1]) _ (by
        intro t ht
        rcases List.mem_append.1 ht with ht | ht
        · exact h t ht
        · simp at ht; subst ht; exact hp)]
      simp [hp]

/-- The text and the arguments of a group: the non-empty fragments of its
predicates, in enumeration order, joined by the connective. -/
theorem stringifyWhere_group (or : Bool) (preds : List (String × Option Pred)) :
    (stringifyWhere (some (.mk or preds))).1 =
      (strings.Join
          (((preds.map (fun e => (stringifyPred e.2).1)).filter (fun f => f.1 ≠ "")).map
            Prod.fst) (if or then " OR " else " AND "),
        ((preds.map (fun e => (stringifyPred e.2).1)).filter (fun f => f.1 ≠ "")).flatMap
          Prod.snd) := by
  have h := stringifyWhere_loop_join (if or then Or else And) preds [] [] (by simp)
  simp only [strings.Join, List.nil_append] at h
  simp only [stringifyWhere, stringifyWhere.body]
  rw [h]
  cases or <;> rfl

/-- A group that renders to nothing contributes no arguments. -/
theorem stringifyWhere_empty_text (grp : Option PredGrp) (h : (stringifyWhere grp).1.1 = "") :
    (stringifyWhere grp).1.2 = [] := by
  cases grp with
  | none => rfl
  | some g =>
    obtain ⟨or, preds⟩ := g
    rw [stringifyWhere_group] at h ⊢
    have := strings_Join_eq_empty _ _ (by
      intro t ht
      simp only [List.mem_map, List.mem_filter] at ht
      obtain ⟨f, ⟨_, hf⟩, rfl⟩ := ht
      simpa using hf) h
    simp only [List.map_eq_nil_iff] at this
    show List.flatMap _ Prod.snd = []
    rw [this]
    rfl

theorem stringifyPred_nested_eq (column operator value : String) (values : List String)
    (grp : Option PredGrp) :
    (stringifyPred (some (.mk column operator value values true grp))).1 =
      ("(" ++ (stringifyWhere grp).1.1 ++ ")", (stringifyWhere grp).1.2) := by
  cases grp <;> simp [stringifyPred, stringifyPred.body, stringifyWhere]


/-- C9, evaluated at the failing input, with what the code does in general.
The nested node whose child group has the `Or` flag and the two EQ leaves
`1 ↦ student1 EQ john` and `2 ↦ student2 EQ jane` renders as
`(student2 = ? OR student1 = ?)` with the arguments `[jane, john]` when the
loop of `stringifyWhere` enumerates the child's key `2` before the key `1`,
and as `(student1 = ? OR student2 = ?)` with `[john, jane]` when it enumerates
`1` first; the two listings are the same map; and inside the parent's join the
node of the package's test comes out as
`A = ? AND (student2 = ? OR student1 = ?)` in the first case.  In general: a
nested node is the clause of its child group in one pair of parentheses with
exactly the child's arguments, and `()` with no arguments when the child group
is nil or renders to nothing; a group is the join of the non-empty fragments
of its predicates, in the order its map is enumerated, by ` OR ` when the `Or`
flag is set and by ` AND ` otherwise, with their arguments in the same order;
so a nested node with the `Or` flag and two EQ leaves, the one with the column
`c1` enumerated first, renders as `(c1 = ? OR c2 = ?)`, each column written
with every `?` doubled, as every leaf writes it. -/
theorem stringifyPred_nested_children_order :
    (stringifyPred (some (.mk "" "" "" [] true (some (.mk true
        [("2", some (.mk "student2" Eq "jane" ["jane"] false none)),
         ("1", some (.mk "student1" Eq "john" ["john"] false none))]))))).1 =
      ("(student2 = ? OR student1 = ?)", ["jane", "john"]) ∧
    (stringifyPred (some (.mk "" "" "" [] true (some (.mk true
        [("1", some (.mk "student1" Eq "john" ["john"] false none)),
         ("2", some (.mk "student2" Eq "jane" ["jane"] false none))]))))).1 =
      ("(student1 = ? OR student2 = ?)", ["john", "jane"]) ∧
    PredGrp.canon (.mk true
        [("2", some (.mk "student2" Eq "jane" ["jane"] false none)),
         ("1", some (.mk "student1" Eq "john" ["john"] false none))]) =
      PredGrp.canon (.mk true
        [("1", some (.mk "student1" Eq "john" ["john"] false none)),
         ("2", some (.mk "student2" Eq "jane" ["jane"] false none))]) ∧
    (stringifyWhere (some (.mk false
        [("1", some (.mk "A" Eq "bullymong" ["bullymong"] false none)),
         ("4", some (.mk "" "" "" [] true (some (.mk true
            [("2", some (.mk "student2" Eq "john" ["john"] false none)),
             ("1", some (.mk "student1" Eq "john" ["john"] false none))]))))]))).1 =
      ("A = ? AND (student2 = ? OR student1 = ?)", ["bullymong", "john", "john"]) ∧
    (∀ (column operator value : String) (values : List String) (grp : Option PredGrp),
      (stringifyPred (some (.mk column operator value values true grp))).1 =
        ("(" ++ (stringifyWhere grp).1.1 ++ ")", (stringifyWhere grp).1.2) ∧
      (grp = none ∨ (stringifyWhere grp).1.1 = "" →
        (stringifyPred (some (.mk column operator value values true grp))).1 = ("()", []))) ∧
    (∀ (or : Bool) (preds : List (String × Option Pred)),
      (stringifyWhere (some (.mk or preds))).1 =
        (strings.Join
            (((preds.map (fun e => (stringifyPred e.2).1)).filter (fun f => f.1 ≠ "")).map
              Prod.fst) (if or then " OR " else " AND "),
          ((preds.map (fun e => (stringifyPred e.2).1)).filter (fun f => f.1 ≠ "")).flatMap
            Prod.snd)) ∧
    (∀ (c1 c2 v1 v2 k1 k2 column operator value : String) (vs1 vs2 values : List String)
        (g1 g2 : Option PredGrp), c1 ≠ "" → c2 ≠ "" →
      (stringifyPred (some (.mk column operator value values true
          (some (.mk true [(k1, some (.mk c1 Eq v1 vs1 false g1)),
            (k2, some (.mk c2 Eq v2 vs2 false g2))]))))).1 =
        ("(" ++ (strings.ReplaceAll c1 "?" "??" ++ " = ?") ++ " OR " ++
            (strings.ReplaceAll c2 "?" "??" ++ " = ?") ++ ")", [v1, v2])) := by
  refine ⟨by decide, by decide, rfl, by decide, ?_, stringifyWhere_group, ?_⟩
  · intro column operator value values grp
    refine ⟨stringifyPred_nested_eq column operator value values grp, ?_⟩
    intro h
    have he : (stringifyWhere grp).1.1 = "" := by
      rcases h with h | h
      · subst h; rfl
      · exact h
    rw [stringifyPred_nested_eq, he, stringifyWhere_empty_text grp he]
    rfl
  · intro c1 c2 v1 v2 k1 k2 column operator value vs1 vs2 values g1 g2 h1 h2
    have hne1 : strings.ReplaceAll c1 "?" "??" ≠ "" :=
      fun e => h1 ((strings_ReplaceAll_marker_eq_empty c1).1 e)
    have hne2 : strings.ReplaceAll c2 "?" "??" ≠ "" :=
      fun e => h2 ((strings_ReplaceAll_marker_eq_empty c2).1 e)
    have ht : strings.TrimSpace Eq = Eq := by decide
    rw [stringifyPred_nested_eq, stringifyWhere_group]
    simp [stringifyPred_leaf_eq, stringifyPred.leaf, hne1, hne2, ht,
      String_append_ne_empty_left _ _ hne1, String_append_ne_empty_left _ _ hne2,
      strings.Join, String.append_assoc]

/-- A nested node with a marker in a column, enumerated with the key `2`
first, on which the last part of C9 applies. -/
theorem stringifyPred_nested_children_order_witness :
    ("b?" : String) ≠ "" ∧ ("a" : String) ≠ "" ∧
    (stringifyPred (some (.mk "" "" "" [] true (some (.mk true
        [("2", some (.mk "b?" Eq "y" ["y"] false none)),
         ("1", some (.mk "a" Eq "x" ["x"] false none))]))))).1 =
      ("(b?? = ? OR a = ?)", ["y", "x"]) :=
  ⟨by decide, by decide,
    (stringifyPred_nested_children_order.2.2.2.2.2.2 "b?" "a" "y" "x" "2" "1" "" "" ""
      ["y"] ["x"] [] none none (by decide) (by decide)).trans (by decide)⟩


/-! ## Lemmas on the final assembly -/

theorem Nat_digitChar_ne_marker : ∀ n : Nat, n < 10 → Nat.digitChar n ≠ '?' := by
  decide

theorem Nat_toDigitsCore_no_marker (fuel : Nat) : ∀ (n : Nat) (ds : List Char),
    '?' ∉ ds → '?' ∉ Nat.toDigitsCore 10 fuel n ds := by
  induction fuel with
  | zero => intro n ds h; simpa [Nat.toDigitsCore] using h
  | succ fuel ih =>
    intro n ds h
    have hd : '?' ∉ Nat.digitChar (n % 10) :: ds := by
      intro hm
      rcases List.mem_cons.1 hm with hm | hm
      · exact Nat_digitChar_ne_marker _ (Nat.mod_lt _ (by decide)) hm.symm
      · exact h hm
    rw [Nat.toDigitsCore]
    split_ifs
    · exact hd
    · exact ih _ _ hd

theorem Nat_repr_no_marker (n : Nat) : '?' ∉ (Nat.repr n).data := by
  show '?' ∉ Nat.toDigitsCore 10 (n + 1) n []
  exact Nat_toDigitsCore_no_marker _ _ _ (by simp)

theorem strconv_Itoa_no_marker (n : Int) : '?' ∉ (strconv.Itoa n).data := by
  cases n with
  | ofNat m => exact Nat_repr_no_marker m
  | negSucc m =>
    have h1 : ("-" : String).data = ['-'] := rfl
    have h2 := Nat_repr_no_marker (m + 1)
    simp only [strconv.Itoa, String.data_append, h1, List.mem_append, not_or]
    exact ⟨by decide, h2⟩

theorem String_append_no_marker (a b : String) :
    '?' ∉ (a ++ b).data ↔ '?' ∉ a.data ∧ '?' ∉ b.data := by
  simp [String.data_append, List.mem_append, not_or]

theorem strings_Join_no_marker (xs : List String) (sep : String)
    (h : ∀ x ∈ xs, '?' ∉ x.data) (hsep : '?' ∉ sep.data) :
    '?' ∉ (strings.Join xs sep).data := by
  induction xs with
  | nil => simp [strings.Join]
  | cons a rest ih =>
    cases rest with
    | nil => simpa [strings.Join] using h a (by simp)
    | cons b rest =>
      simp only [strings.Join, String_append_no_marker]
      exact ⟨⟨h a (by simp), hsep⟩, ih (fun x hx => h x (by simp [hx]))⟩

theorem firstOccurrences_subset (values : List String) :
    ∀ v ∈ firstOccurrences values, v ∈ values := by
  induction values with
  | nil => simp [firstOccurrences]
  | cons a rest ih =>
    intro v hv
    simp only [firstOccurrences, List.mem_cons, List.mem_filter] at hv
    rcases hv with hv | hv
    · simp [hv]
    · simp [ih v hv.1]

theorem scanPlaceholders_eq_nil (k : Nat) (s : List Char) (h : scanPlaceholders k s = []) :
    s = [] := by
  match s with
  | [] => rfl
  | [c] =>
    simp only [scanPlaceholders] at h
    split_ifs at h
  | c :: d :: rest =>
    simp only [scanPlaceholders] at h
    split_ifs at h
    simp at h

theorem ReplacePlaceholders_eq_empty (buf : String) :
    ReplacePlaceholders buf = "" ↔ buf = "" := by
  constructor
  · intro h
    rw [ReplacePlaceholders_eq_scan] at h
    exact String.ext (scanPlaceholders_eq_nil 0 _ (congrArg String.data h))
  · intro h
    subst h
    decide

theorem ReplacePlaceholders_no_marker (query : String) (h : '?' ∉ query.data) :
    ReplacePlaceholders query = query := by
  rw [ReplacePlaceholders_eq_scan, scanPlaceholders_no_marker 0 _ h]

/-- A clause without `?` written behind a buffer is left alone by the
translation of the buffer. -/
theorem writeClause_translate_post (buf : String) (present : Bool) (keyword content : String)
    (hk : '?' ∉ keyword.data) (hc : '?' ∉ content.data) :
    ReplacePlaceholders (SelectQuery.writeClause buf present keyword content) =
      SelectQuery.writeClause (ReplacePlaceholders buf) present keyword content := by
  have hsp : '?' ∉ space.data := by decide
  cases present with
  | false => simp [SelectQuery.writeClause]
  | true =>
    have ht : '?' ∉ (keyword ++ space ++ content).data := by
      simp only [String_append_no_marker]
      exact ⟨⟨hk, hsp⟩, hc⟩
    by_cases hb : buf = ""
    · subst hb
      have h0 : ReplacePlaceholders "" = "" := by decide
      have h1 : ReplacePlaceholders (keyword ++ space ++ content) =
          keyword ++ space ++ content := by
        have := ReplacePlaceholders_append_right "" _ ht
        simpa [h0] using this
      simp [SelectQuery.writeClause, h0, h1]
    · have hb2 : ReplacePlaceholders buf ≠ "" :=
        fun e => hb ((ReplacePlaceholders_eq_empty buf).1 e)
      have ht2 : '?' ∉ (space ++ (keyword ++ space ++ content)).data := by
        rw [String_append_no_marker]
        exact ⟨hsp, ht⟩
      simp only [SelectQuery.writeClause, if_true, (String_length_pos_iff _).2 hb,
        (String_length_pos_iff _).2 hb2]
      rw [String.append_assoc buf, ReplacePlaceholders_append_right _ _ ht2]
      simp only [String.append_assoc]

/-- A clause written behind a buffer without `?` is translated on its own. -/
theorem writeClause_translate_pre (buf : String) (present : Bool) (keyword content : String)
    (hb : '?' ∉ buf.data) (hk : '?' ∉ keyword.data) :
    ReplacePlaceholders (SelectQuery.writeClause buf present keyword content) =
      SelectQuery.writeClause buf present keyword (ReplacePlaceholders content) := by
  have hsp : '?' ∉ space.data := by decide
  cases present with
  | false =>
    have := (ReplacePlaceholders_no_marker buf hb)
    simpa [SelectQuery.writeClause] using this
  | true =>
    have h1 : '?' ∉ ((if buf.length > 0 then buf ++ space else buf) ++
        (keyword ++ space)).data := by
      rw [String_append_no_marker, String_append_no_marker]
      refine ⟨?_, hk, hsp⟩
      split_ifs
      · rw [String_append_no_marker]; exact ⟨hb, hsp⟩
      · exact hb
    simp only [SelectQuery.writeClause, if_true]
    rw [← String.append_assoc, ← String.append_assoc,
      String.append_assoc _ keyword, ReplacePlaceholders_append_left _ _ h1]
    simp [String.append_assoc]

theorem writeClause_no_marker (buf : String) (present : Bool) (keyword content : String)
    (hb : '?' ∉ buf.data) (hk : '?' ∉ keyword.data) (hc : present = true → '?' ∉ content.data) :
    '?' ∉ (SelectQuery.writeClause buf present keyword content).data := by
  have hsp : '?' ∉ space.data := by decide
  cases present with
  | false => simpa [SelectQuery.writeClause] using hb
  | true =>
    simp only [SelectQuery.writeClause, if_true, String_append_no_marker]
    refine ⟨?_, ⟨hk, hsp⟩, hc rfl⟩
    split_ifs
    · rw [String_append_no_marker]; exact ⟨hb, hsp⟩
    · exact hb


theorem stringifyOrder_loop_join : ∀ (orderBys : List OrderBy) (done : List String),
    (∀ t ∈ done, t ≠ "") →
    stringifyOrder.loop orderBys (strings.Join done ", ") =
      strings.Join (done ++ (orderBys.map OrderBy.string).filter (fun s => s ≠ "")) ", " := by
  intro orderBys
  induction orderBys with
  | nil => intro done _; simp [stringifyOrder.loop]
  | cons o rest ih =>
    intro done h
    by_cases ho : o.string = ""
    · simp only [stringifyOrder.loop, ho, ne_eq, not_true_eq_false, if_false]
      rw [ih done h]
      simp [ho]
    · simp only [stringifyOrder.loop, ho, ne_eq, not_false_eq_true, if_true]
      rw [strings_Join_step done _ _ h, ih (done ++ [o.string]) (by
        intro t ht
        rcases List.mem_append.1 ht with ht | ht
        · exact h t ht
        · simp at ht; subst ht; exact ho)]
      simp [ho]

/-- The ORDER BY content: the non-empty order entries joined by `, `. -/
theorem stringifyOrder_eq (orderBys : List OrderBy) :
    stringifyOrder orderBys =
      strings.Join ((orderBys.map OrderBy.string).filter (fun s => s ≠ "")) ", " := by
  have := stringifyOrder_loop_join orderBys [] (by simp)
  simpa [stringifyOrder, strings.Join] using this

theorem OrderBy_string_no_marker (o : OrderBy) (hc : '?' ∉ o.Column.data)
    (ho : '?' ∉ o.Order.data) : '?' ∉ o.string.data := by
  unfold OrderBy.string
  split_ifs
  · decide
  · simp only [String_append_no_marker]
    exact ⟨⟨hc, by decide⟩, ho⟩

theorem writeClause_join (done : List String) (present : Bool) (keyword content : String)
    (h : ∀ t ∈ done, t ≠ "") :
    SelectQuery.writeClause (strings.Join done space) present keyword content =
        strings.Join (done ++ (if present then [keyword ++ space ++ content] else [])) space ∧
      ∀ t ∈ done ++ (if present then [keyword ++ space ++ content] else []), t ≠ "" := by
  cases present with
  | false => simpa [SelectQuery.writeClause] using h
  | true =>
    refine ⟨?_, ?_⟩
    · simp only [SelectQuery.writeClause, if_true]
      exact strings_Join_step done _ _ h
    · intro t ht
      rcases List.mem_append.1 ht with ht | ht
      · exact h t ht
      · simp at ht
        subst ht
        exact String_append_ne_empty_left _ _
          (String_append_ne_empty_right _ _ (by decide))

theorem filter_clause (c : Prop) [Decidable c] (t : String) (rest : List String)
    (ht : t ≠ "") :
    List.filter (fun x => decide (x ≠ "")) ((if c then "" else t) :: rest) =
      (if c then [] else [t]) ++ List.filter (fun x => decide (x ≠ "")) rest := by
  by_cases hc : c <;> simp [hc, ht]


/-- The text `Sql` hands to `ReplacePlaceholders`, translated, is the join of
the non-empty clauses of the specification. -/
theorem Sql_text_eq (sq : SelectQuery)
    (hs : ∀ s ∈ sq.Select, '?' ∉ s.data) (hf : '?' ∉ sq.From.data)
    (ho : ∀ o ∈ sq.OrderBys, '?' ∉ o.Column.data ∧ '?' ∉ o.Order.data) :
    (sq.Sql []).1 = strings.Join ((specClauses sq).filter (fun c => c ≠ "")) " " := by
  have hsel : dedup (removeEmptyStrings sq.Select) =
      firstOccurrences (sq.Select.filter (fun s => s ≠ "")) := dedup_eq_firstOccurrences _
  have hsep : "," ++ space = ", " := by decide
  have hselq : '?' ∉ (strings.Join (firstOccurrences (sq.Select.filter (fun s => s ≠ "")))
      ", ").data := by
    apply strings_Join_no_marker _ _ _ (by decide)
    intro x hx
    exact hs x (List.mem_of_mem_filter (firstOccurrences_subset _ x hx))
  have hordq : '?' ∉ (strings.Join ((sq.OrderBys.map OrderBy.string).filter
      (fun s => s ≠ "")) ", ").data := by
    apply strings_Join_no_marker _ _ _ (by decide)
    intro x hx
    obtain ⟨o, hom, rfl⟩ := List.mem_map.1 (List.mem_of_mem_filter hx)
    exact OrderBy_string_no_marker o (ho o hom).1 (ho o hom).2
  simp only [SelectQuery.Sql, SelectQuery.SqlRun, List.foldl_nil, hsel, hsep,
    stringifyOrder_eq]
  rw [writeClause_translate_post _ _ _ _ (by decide) (strconv_Itoa_no_marker _),
    writeClause_translate_post _ _ _ _ (by decide) (strconv_Itoa_no_marker _),
    writeClause_translate_post _ _ _ _ (by decide) hordq,
    writeClause_translate_pre _ _ _ _
      (writeClause_no_marker _ _ _ _
        (writeClause_no_marker _ _ _ _ (by decide) (by decide) (fun _ => hselq))
        (by decide) (fun _ => hf))
      (by decide)]
  have h0 : strings.Join [] space = "" := rfl
  obtain ⟨e1, n1⟩ := writeClause_join []
    (decide (strings.Join (firstOccurrences (sq.Select.filter (fun s => s ≠ ""))) ", " ≠ ""))
    "SELECT" (strings.Join (firstOccurrences (sq.Select.filter (fun s => s ≠ ""))) ", ")
    (by simp)
  rw [h0] at e1
  rw [e1]
  obtain ⟨e2, n2⟩ := writeClause_join _ (decide (sq.From ≠ "")) "FROM" sq.From n1
  rw [e2]
  obtain ⟨e3, n3⟩ := writeClause_join _ (decide ((stringifyWhere sq.Where).1.1 ≠ "")) "WHERE"
    (ReplacePlaceholders (stringifyWhere sq.Where).1.1) n2
  rw [e3]
  obtain ⟨e4, n4⟩ := writeClause_join _
    (decide (strings.Join ((sq.OrderBys.map OrderBy.string).filter (fun s => s ≠ "")) ", " ≠ ""))
    "ORDER BY" (strings.Join ((sq.OrderBys.map OrderBy.string).filter (fun s => s ≠ "")) ", ")
    n3
  rw [e4]
  obtain ⟨e5, n5⟩ := writeClause_join _ (decide (sq.Limit ≠ 0)) "LIMIT"
    (strconv.Itoa sq.Limit) n4
  rw [e5]
  obtain ⟨e6, _⟩ := writeClause_join _ (decide (sq.Offset ≠ 0)) "OFFSET"
    (strconv.Itoa sq.Offset) n5
  rw [e6]
  have hsp : space = " " := rfl
  rw [hsp]
  congr 1
  simp only [specClauses]
  rw [filter_clause _ _ _ (String_append_ne_empty_left _ _ (by decide)),
    filter_clause _ _ _ (String_append_ne_empty_left _ _ (by decide)),
    filter_clause _ _ _ (String_append_ne_empty_left _ _ (by decide)),
    filter_clause _ _ _ (String_append_ne_empty_left _ _ (by decide)),
    filter_clause _ _ _ (String_append_ne_empty_left _ _ (by decide)),
    filter_clause _ _ _ (String_append_ne_empty_left _ _ (by decide))]
  clear e1 e2 e3 e4 e5 e6 n1 n2 n3 n4 n5 hsel hselq hordq hs hf ho
  simp [ReplacePlaceholders_eq_empty, space]

/-- C10, counterexample: the query whose only part is the order entry with
column `a` and direction `?` has no `?` in its select expressions, source and
order columns, and `Sql` returns `ORDER BY a $1` for it, not `ORDER BY a ?`:
the marker translation runs over the whole text, order directions included. -/
theorem Sql_order_direction_marker :
    SelectQuery.Sql ⟨[], "", none, [⟨"a", "?"⟩], 0, 0⟩ [] = ("ORDER BY a $1", []) ∧
    SelectQuery.Sql ⟨[], "", none, [⟨"a", "?"⟩], 0, 0⟩ [] ≠
      ("ORDER BY " ++ (OrderBy.string ⟨"a", "?"⟩), []) := by
  decide

/-- C10 (amended): for every SelectQuery whose select expressions, source,
order columns and order directions contain no `?`, `Sql` with no options
returns the clauses `SELECT ` + the non-empty deduplicated select expressions
joined by `, `, `FROM ` + source, `WHERE ` + the predicate clause with its
markers numbered, `ORDER BY ` + the non-empty order entries joined by `, `,
`LIMIT ` + limit and `OFFSET ` + offset, in that fixed order, separated by
exactly one space, each clause present if and only if its content is non-empty
(limit and offset: non-zero), together with the arguments of the predicate
clause; for the query with every part empty it returns the empty text and no
arguments. -/
theorem Sql_assembly :
    (∀ sq : SelectQuery,
      (∀ s ∈ sq.Select, '?' ∉ s.data) → '?' ∉ sq.From.data →
      (∀ o ∈ sq.OrderBys, '?' ∉ o.Column.data ∧ '?' ∉ o.Order.data) →
      sq.Sql [] =
        (strings.Join ((specClauses sq).filter (fun c => c ≠ "")) " ",
          (stringifyWhere sq.Where).1.2)) ∧
    SelectQuery.Sql ⟨[], "", none, [], 0, 0⟩ [] = ("", []) ∧
    (∀ or : Bool, SelectQuery.Sql ⟨[], "", some (.mk or []), [], 0, 0⟩ [] = ("", [])) := by
  refine ⟨?_, by decide, by decide⟩
  intro sq hs hf ho
  have h1 := Sql_text_eq sq hs hf ho
  have h2 : (sq.Sql []).2 = (stringifyWhere sq.Where).1.2 := rfl
  exact Prod.ext h1 h2

/-- A query with an empty and a repeated select expression, a partial order
entry and no offset, on which C10 (amended) applies. -/
theorem Sql_assembly_witness :
    (∀ s ∈ ["a", "", "a", "b"], '?' ∉ String.data s) ∧ '?' ∉ ("t" : String).data ∧
    (∀ o ∈ [(⟨"c", "ASC"⟩ : OrderBy), ⟨"d", ""⟩],
      '?' ∉ o.Column.data ∧ '?' ∉ o.Order.data) ∧
    SelectQuery.Sql
        ⟨["a", "", "a", "b"], "t",
          some (.mk false [("1", some (.mk "A" Eq "x" ["x"] false none))]),
          [⟨"c", "ASC"⟩, ⟨"d", ""⟩], 5, 0⟩ [] =
      ("SELECT a, b FROM t WHERE A = $1 ORDER BY c ASC LIMIT 5", ["x"]) :=
  ⟨by decide, by decide, by decide,
    (Sql_assembly.1
      ⟨["a", "", "a", "b"], "t",
        some (.mk false [("1", some (.mk "A" Eq "x" ["x"] false none))]),
        [⟨"c", "ASC"⟩, ⟨"d", ""⟩], 5, 0⟩ (by decide) (by decide) (by decide)).trans
      (by decide)⟩

/-! ## ParseSelect, ScrubForm and the option functions -/

theorem firstOccurrences_nodup (xs : List String) : (firstOccurrences xs).Nodup := by
  induction xs with
  | nil => simp [firstOccurrences]
  | cons v rest ih =>
    simp only [firstOccurrences, List.nodup_cons, List.mem_filter]
    exact ⟨by simp, ih.filter _⟩

theorem firstOccurrences_mem (xs : List String) (x : String) :
    x ∈ firstOccurrences xs ↔ x ∈ xs := by
  induction xs with
  | nil => simp [firstOccurrences]
  | cons v rest ih =>
    simp only [firstOccurrences, List.mem_cons, List.mem_filter, ih]
    by_cases h : x = v <;> simp [h]

theorem firstOccurrences_of_nodup (xs : List String) (h : xs.Nodup) :
    firstOccurrences xs = xs := by
  induction xs with
  | nil => rfl
  | cons v rest ih =>
    have hv : v ∉ rest := (List.nodup_cons.1 h).1
    rw [firstOccurrences, ih (List.nodup_cons.1 h).2]
    congr 1
    apply List.filter_eq_self.2
    intro w hw
    have : w ≠ v := fun e => hv (e ▸ hw)
    simpa using this

theorem firstOccurrences_sublist (xs : List String) : (firstOccurrences xs).Sublist xs := by
  induction xs with
  | nil => simp [firstOccurrences]
  | cons v rest ih =>
    rw [firstOccurrences]
    exact ((List.filter_sublist _).trans ih).cons₂ v

/-- C16: for every list of strings `xs`, `dedup xs` contains no string twice,
contains exactly the strings that occur in `xs`, and is `xs` with every
occurrence after the first of each string removed (a sublist of `xs`, equal to
the first-occurrence list of the specification); `dedup (dedup xs) = dedup xs`;
and the select list of `ParseSelect` is the values of the SEL key with the empty
strings removed, deduplicated in this way. -/
theorem dedup_first_occurrences (xs : List String) (params : ParamMap) :
    (dedup xs).Nodup ∧ (∀ x, x ∈ dedup xs ↔ x ∈ xs) ∧ (dedup xs).Sublist xs ∧
    dedup xs = firstOccurrences xs ∧ dedup (dedup xs) = dedup xs ∧
    (ParseSelect params).Select =
      firstOccurrences ((params.get Sel).filter (fun s => s ≠ "")) := by
  rw [dedup_eq_firstOccurrences, dedup_eq_firstOccurrences]
  exact ⟨firstOccurrences_nodup xs, firstOccurrences_mem xs, firstOccurrences_sublist xs, rfl,
    firstOccurrences_of_nodup _ (firstOccurrences_nodup xs), dedup_eq_firstOccurrences _⟩


theorem ScrubForm_loop_eq (keys : ParamMap) : ∀ form : ParamMap,
    ScrubForm.loop keys form =
      form.filter (fun e => keys.all (fun k =>
        !(k.1 == e.1) || IsValidSuffix ((strings.Split k.1 '.').getLastD ""))) := by
  induction keys with
  | nil => intro form; simp [ScrubForm.loop]
  | cons k rest ih =>
    intro form
    obtain ⟨key, vs⟩ := k
    by_cases hv : IsValidSuffix ((strings.Split key '.').getLastD "") = true
    · simp only [ScrubForm.loop, hv, not_true_eq_false, if_false, ih]
      apply List.filter_congr
      intro e _
      simp [hv, -List.getLastD_eq_getLast?]
    · simp only [ScrubForm.loop, hv, not_false_eq_true, if_true, ih, ParamMap.Del,
        List.filter_filter]
      apply List.filter_congr
      intro e _
      have hv2 : IsValidSuffix ((strings.Split key '.').getLastD "") = false := by
        simpa using hv
      by_cases he : key = e.1
      · have hv3 := hv2
        rw [he] at hv3
        simp [hv3, he, -List.getLastD_eq_getLast?]
      · have he2 : ¬ e.1 = key := fun h => he h.symm
        simp [hv2, he, he2, -List.getLastD_eq_getLast?]

/-- What `ScrubForm` leaves: the entries whose key has a last segment that
`IsValidSuffix` accepts, each with its value list, in their order. -/
theorem ScrubForm_eq_filter (form : ParamMap) :
    ScrubForm form =
      form.filter (fun e => IsValidSuffix ((strings.Split e.1 '.').getLastD "")) := by
  rw [ScrubForm, ScrubForm_loop_eq]
  apply List.filter_congr
  intro e he
  by_cases hv : IsValidSuffix ((strings.Split e.1 '.').getLastD "") = true
  · rw [hv, List.all_eq_true]
    intro k _
    by_cases hk : k.1 = e.1
    · simp [hk, hv, -List.getLastD_eq_getLast?]
    · simp [hk, -List.getLastD_eq_getLast?]
  · have hv2 : IsValidSuffix ((strings.Split e.1 '.').getLastD "") = false := by
      simpa using hv
    rw [hv2]
    apply Bool.eq_false_iff.2
    intro hall
    have := (List.all_eq_true.1 hall) e he
    simp [hv2, -List.getLastD_eq_getLast?] at this

/-- C17, evaluated at the failing input, with what the code keeps: `ScrubForm`
deletes the key `OFF`, whose only segment is the reserved suffix OFFSET (and
keeps `LIM` next to it); for every form it keeps exactly the entries whose key
has a last segment that `IsValidSuffix` accepts, each with its value list. -/
theorem ScrubForm_deletes_Off :
    ScrubForm [("OFF", ["2"]), ("LIM", ["1"])] = [("LIM", ["1"])] ∧
    ∀ form : ParamMap, ScrubForm form =
      form.filter (fun e => IsValidSuffix ((strings.Split e.1 '.').getLastD "")) :=
  ⟨by decide, ScrubForm_eq_filter⟩

/-- C18: for every form `f`, `ScrubForm (ScrubForm f)` equals `ScrubForm f`,
and scrubbing any other enumeration of the scrubbed map deletes nothing. -/
theorem ScrubForm_idempotent (f : ParamMap) :
    ScrubForm (ScrubForm f) = ScrubForm f ∧
    ∀ g : ParamMap, g.Perm (ScrubForm f) → ScrubForm g = g := by
  constructor
  · rw [ScrubForm_eq_filter (ScrubForm f), ScrubForm_eq_filter f, List.filter_filter]
    apply List.filter_congr
    intro e _
    simp
  · intro g hg
    rw [ScrubForm_eq_filter g]
    apply List.filter_eq_self.2
    intro e he
    have he2 : e ∈ ScrubForm f := hg.subset he
    rw [ScrubForm_eq_filter f] at he2
    exact (List.mem_filter.1 he2).2

/-- An enumeration of a scrubbed map on which the second part of C18
applies. -/
theorem ScrubForm_idempotent_witness :
    List.Perm [("LIM", ["1"]), ("1.COL", ["A"])]
        (ScrubForm [("x.BAD", ["0"]), ("1.COL", ["A"]), ("LIM", ["1"])]) ∧
    ScrubForm [("LIM", ["1"]), ("1.COL", ["A"])] = [("LIM", ["1"]), ("1.COL", ["A"])] :=
  ⟨by decide,
    (ScrubForm_idempotent [("x.BAD", ["0"]), ("1.COL", ["A"]), ("LIM", ["1"])]).2
      [("LIM", ["1"]), ("1.COL", ["A"])] (by decide)⟩


/-- C20, evaluated at the failing input, with what the code does in general:
for the first value `9223372036854775808` of LIM, which `strconv.Atoi` rejects
with a range error, the limit of `ParseSelect` is 9223372036854775807, neither
the integer the text denotes nor 0 (and likewise the offset for
`-9223372036854775809` is -9223372036854775808, and the limit for
`99999999999999999999x`, whose digits overflow before the `x` is read, is
9223372036854775807); for every parameter map the source is the first value of
the FRM key, empty when there is none, and the limit and the offset are the
value `strconv.Atoi` returns for the first value of LIM and OFF, 0 when there
is none. -/
theorem ParseSelect_limit_range_error :
    strconv.Atoi "9223372036854775808" = (9223372036854775807, true) ∧
    (ParseSelect [("LIM", ["9223372036854775808"])]).Limit = 9223372036854775807 ∧
    (ParseSelect [("OFF", ["-9223372036854775809"])]).Offset = -9223372036854775808 ∧
    (ParseSelect [("LIM", ["99999999999999999999x"])]).Limit = 9223372036854775807 ∧
    (ParseSelect [("LIM", ["12"]), ("OFF", ["x"])]).Limit = 12 ∧
    (ParseSelect [("LIM", ["12"]), ("OFF", ["x"])]).Offset = 0 ∧
    ∀ params : ParamMap,
      (ParseSelect params).From = (params.get Frm).headD "" ∧
      (ParseSelect params).Limit =
        ((params.get Lim).head?.map (fun v => (strconv.Atoi v).1)).getD 0 ∧
      (ParseSelect params).Offset =
        ((params.get Off).head?.map (fun v => (strconv.Atoi v).1)).getD 0 := by
  refine ⟨by decide, by decide, by decide, by decide, by decide, by decide, ?_⟩
  intro params
  refine ⟨?_, ?_, ?_⟩
  · show ParseSelect.paramvalue params Frm = _
    unfold ParseSelect.paramvalue
    cases params.get Frm <;> rfl
  · show ParseSelect.paramvalueInt params Lim = _
    unfold ParseSelect.paramvalueInt
    cases params.get Lim <;> rfl
  · show ParseSelect.paramvalueInt params Off = _
    unfold ParseSelect.paramvalueInt
    cases params.get Off <;> rfl

/-- C11, evaluated at the failing input: for the parameter map with the select
expression `?` and the predicate `c EQ v`, `Sql` returns the text
`SELECT $1 WHERE c = $2` with the single argument `v`: two markers for one
argument, and the marker of `v` is `$2`. -/
theorem ParseSelect_Sql_select_marker :
    (ParseSelect [("SEL", ["?"]), ("1.COL", ["c"]), ("1.OPR", ["EQ"]),
      ("1.VAL", ["v"])]).Sql [] = ("SELECT $1 WHERE c = $2", ["v"]) := by
  decide

theorem OrderBy_string_ne_empty (c d : String) :
    (OrderBy.string ⟨c, d⟩ ≠ "") ↔ (c ≠ "" ∧ d ≠ "") := by
  unfold OrderBy.string
  by_cases hc : c = ""
  · simp [hc]
  · by_cases hd : d = ""
    · simp [hd]
    · simp only [hc, hd, or_self, if_false, ne_eq, not_false_eq_true, and_self, iff_true]
      exact String_append_ne_empty_left _ _ (String_append_ne_empty_left _ _ hc)

/-- The loop of the code over the values of an ORD key is the scan of the
specification. -/
theorem ParseSelect_orderLoop_cons (tok : String) (rest : List String) (st : OrderBy) :
    ParseSelect.orderLoop (tok :: rest) st =
      if tok = Ignore then none
      else if tok = Asc ∨ tok = Desc then
        (if OrderBy.string ⟨st.Column, tok⟩ ≠ "" then some ⟨st.Column, tok⟩
          else ParseSelect.orderLoop rest ⟨st.Column, tok⟩)
      else
        (if OrderBy.string ⟨tok, st.Order⟩ ≠ "" then some ⟨tok, st.Order⟩
          else ParseSelect.orderLoop rest ⟨tok, st.Order⟩) := by
  by_cases h1 : tok = Ignore
  · simp [ParseSelect.orderLoop, h1]
  · by_cases h2 : tok = Asc ∨ tok = Desc
    · simp only [ParseSelect.orderLoop, h1, h2, if_false, if_true]
    · simp only [ParseSelect.orderLoop, h1, h2, if_false]

/-- The loop of the code over the values of an ORD key is the scan of the
specification. -/
theorem ParseSelect_orderLoop_eq (values : List String) : ∀ column direction : String,
    ParseSelect.orderLoop values ⟨column, direction⟩ = scanOrder values column direction := by
  induction values with
  | nil => intro column direction; rfl
  | cons tok rest ih =>
    intro column direction
    rw [ParseSelect_orderLoop_cons, scanOrder]
    simp only [Ignore, Asc, Desc]
    by_cases h1 : tok = "IGNORE"
    · rw [if_pos h1, if_pos h1]
    · rw [if_neg h1, if_neg h1]
      by_cases h2 : tok = "ASC" ∨ tok = "DESC"
      · have ht : tok ≠ "" := by
          rcases h2 with h2 | h2 <;> rw [h2] <;> decide
        rw [if_pos h2, if_pos h2]
        by_cases hc : column = ""
        · rw [if_neg (by rw [OrderBy_string_ne_empty]; simp [hc]), if_neg (by simp [hc]), ih]
        · rw [if_pos ((OrderBy_string_ne_empty _ _).2 ⟨hc, ht⟩), if_pos hc]
      · rw [if_neg h2, if_neg h2]
        by_cases hc : tok ≠ "" ∧ direction ≠ ""
        · rw [if_pos ((OrderBy_string_ne_empty _ _).2 hc), if_pos hc]
        · rw [if_neg (fun h => hc ((OrderBy_string_ne_empty _ _).1 h)), if_neg hc, ih]

/-- An entry the loop stores is complete, and its direction is ASC or DESC
when the loop started without one. -/
theorem ParseSelect_orderLoop_some (values : List String) :
    ∀ (st ob : OrderBy), ParseSelect.orderLoop values st = some ob →
      ob.string ≠ "" ∧ ((st.Order = "" ∨ st.Order = Asc ∨ st.Order = Desc) →
        (ob.Order = Asc ∨ ob.Order = Desc)) := by
  induction values with
  | nil => intro st ob h; simp [ParseSelect.orderLoop] at h
  | cons tok rest ih =>
    intro st ob h
    rw [ParseSelect_orderLoop_cons] at h
    by_cases h1 : tok = Ignore
    · rw [if_pos h1] at h; exact absurd h (by simp)
    · rw [if_neg h1] at h
      by_cases h2 : tok = Asc ∨ tok = Desc
      · rw [if_pos h2] at h
        by_cases hs : OrderBy.string ⟨st.Column, tok⟩ ≠ ""
        · rw [if_pos hs] at h
          have h3 := Option.some.inj h
          subst h3
          exact ⟨hs, fun _ => h2⟩
        · rw [if_neg hs] at h
          have := ih ⟨st.Column, tok⟩ ob h
          exact ⟨this.1, fun _ => this.2 (Or.inr h2)⟩
      · rw [if_neg h2] at h
        by_cases hs : OrderBy.string ⟨tok, st.Order⟩ ≠ ""
        · rw [if_pos hs] at h
          have h3 := Option.some.inj h
          subst h3
          refine ⟨hs, fun hd => ?_⟩
          rcases hd with hd | hd
          · exact absurd hd ((OrderBy_string_ne_empty _ _).1 hs).2
          · exact hd
        · rw [if_neg hs] at h
          have := ih ⟨tok, st.Order⟩ ob h
          exact ⟨this.1, this.2⟩


/-! ## Lemmas on `ParseSelect`: the order list -/

theorem strings_splitChars_ne_nil (sep : Char) (s : List Char) :
    strings.splitChars sep s ≠ [] := by
  cases s with
  | nil => simp [strings.splitChars]
  | cons c rest =>
    rw [strings.splitChars]
    split_ifs
    · simp
    · split <;> simp

theorem strings_Split_ne_nil (s : String) (sep : Char) : strings.Split s sep ≠ [] := by
  simp [strings.Split, strings_splitChars_ne_nil]

theorem ParseSelect_step_order (params : ParamMap) (st : ParseSelect.State)
    (e : String × List String) :
    (ParseSelect.step params st e).orderbyKeys =
        st.orderbyKeys ++ (resolvedOrders [e]).map Prod.fst ∧
      (ParseSelect.step params st e).orderbyMap =
        (resolvedOrders [e]).foldl (fun m x => ParseSelect.setOrder m x.1 x.2)
          st.orderbyMap := by
  have hlen : ¬ (strings.Split e.1 '.').length = 0 := by
    intro h
    exact strings_Split_ne_nil _ _ (List.length_eq_zero.1 h)
  have hord : IsValidSuffix ord = true := by decide
  have hloop := ParseSelect_orderLoop_eq (dedup e.2) "" ""
  rw [dedup_eq_firstOccurrences] at hloop
  by_cases hs : (strings.Split e.1 '.').getLastD "" = ord
  · have hs2 : (strings.Split e.1 '.').getLastD "" = "ORD" := hs
    cases hsc : scanOrder (firstOccurrences e.2) "" "" with
    | none =>
      rw [hsc] at hloop
      have hr : resolvedOrders [e] = [] := by
        simp only [resolvedOrders, List.filterMap_cons, hs2, if_true, hsc, Option.map_none',
          List.filterMap_nil]
      rw [hr]
      simp [ParseSelect.step, hlen, hs, hord, dedup_eq_firstOccurrences, hloop,
        -List.getLastD_eq_getLast?]
    | some ob =>
      rw [hsc] at hloop
      have hr : resolvedOrders [e] = [(e.1, ob)] := by
        simp only [resolvedOrders, List.filterMap_cons, hs2, if_true, hsc, Option.map_some',
          List.filterMap_nil]
      rw [hr]
      simp [ParseSelect.step, hlen, hs, hord, dedup_eq_firstOccurrences, hloop,
        -List.getLastD_eq_getLast?]
  · have hs2 : ¬ (strings.Split e.1 '.').getLastD "" = "ORD" := hs
    have hr : resolvedOrders [e] = [] := by
      simp only [resolvedOrders, List.filterMap_cons, hs2, if_false, List.filterMap_nil]
    rw [hr]
    unfold ParseSelect.step
    simp only [hlen, if_false, hs, List.map_nil, List.append_nil, List.foldl_nil]
    split_ifs <;> simp

theorem resolvedOrders_cons (e : String × List String) (l : ParamMap) :
    resolvedOrders (e :: l) = resolvedOrders [e] ++ resolvedOrders l := by
  simp only [resolvedOrders, List.filterMap_cons, List.filterMap_nil]
  split <;> simp

theorem ParseSelect_fold_order (params : ParamMap) : ∀ (l : ParamMap) (st : ParseSelect.State),
    (l.foldl (ParseSelect.step params) st).orderbyKeys =
        st.orderbyKeys ++ (resolvedOrders l).map Prod.fst ∧
      (l.foldl (ParseSelect.step params) st).orderbyMap =
        (resolvedOrders l).foldl (fun m x => ParseSelect.setOrder m x.1 x.2)
          st.orderbyMap := by
  intro l
  induction l with
  | nil => intro st; simp [resolvedOrders]
  | cons e rest ih =>
    intro st
    obtain ⟨h1, h2⟩ := ParseSelect_step_order params st e
    obtain ⟨h3, h4⟩ := ih (ParseSelect.step params st e)
    rw [List.foldl_cons, h3, h4, h1, h2, resolvedOrders_cons e rest]
    simp

theorem String_beq_false (a b : String) (h : a ≠ b) : (a == b) = false := by
  simpa using h

theorem ParseSelect_setOrder_lookup (m : List (String × OrderBy)) (n k : String)
    (ob : OrderBy) :
    (ParseSelect.setOrder m n ob).lookup k = if k = n then some ob else m.lookup k := by
  induction m with
  | nil =>
    by_cases h : k = n
    · simp [ParseSelect.setOrder, List.lookup, h]
    · simp [ParseSelect.setOrder, List.lookup, h, String_beq_false _ _ h]
  | cons x rest ih =>
    obtain ⟨a, q⟩ := x
    by_cases ha : a = n
    · subst ha
      by_cases hk : k = a
      · simp [ParseSelect.setOrder, List.lookup, hk]
      · simp [ParseSelect.setOrder, List.lookup, hk, String_beq_false _ _ hk]
    · by_cases hk : k = a
      · subst hk
        have hkn : ¬ k = n := ha
        simp [ParseSelect.setOrder, List.lookup, ha, hkn]
      · simp [ParseSelect.setOrder, List.lookup, ha, hk, ih, String_beq_false _ _ hk]

theorem lookup_eq_none_of_not_mem {β : Type} (r : List (String × β)) (k : String)
    (h : k ∉ r.map Prod.fst) : r.lookup k = none := by
  induction r with
  | nil => rfl
  | cons x rest ih =>
    obtain ⟨a, q⟩ := x
    simp only [List.map_cons, List.mem_cons, not_or] at h
    simp [List.lookup, String_beq_false _ _ h.1, ih h.2]

theorem lookup_of_mem_nodup {β : Type} (r : List (String × β)) (k : String) (v : β)
    (hnd : (r.map Prod.fst).Nodup) (hm : (k, v) ∈ r) : r.lookup k = some v := by
  induction r with
  | nil => simp at hm
  | cons x rest ih =>
    obtain ⟨a, q⟩ := x
    simp only [List.map_cons, List.nodup_cons] at hnd
    rcases List.mem_cons.1 hm with h1 | h1
    · cases h1
      simp [List.lookup]
    · have hk : k ≠ a := by
        intro e
        exact hnd.1 (List.mem_map.2 ⟨(k, v), h1, e⟩)
      simp [List.lookup, String_beq_false _ _ hk, ih hnd.2 h1]

theorem ParseSelect_fold_setOrder_lookup (r : List (String × OrderBy))
    (hnd : (r.map Prod.fst).Nodup) : ∀ (m : List (String × OrderBy)) (k : String),
    (r.foldl (fun m x => ParseSelect.setOrder m x.1 x.2) m).lookup k =
      (r.lookup k).or (m.lookup k) := by
  induction r with
  | nil => intro m k; simp [List.lookup]
  | cons x rest ih =>
    intro m k
    obtain ⟨a, q⟩ := x
    simp only [List.map_cons, List.nodup_cons] at hnd
    rw [List.foldl_cons, ih hnd.2, ParseSelect_setOrder_lookup]
    by_cases hk : k = a
    · subst hk
      simp [List.lookup, lookup_eq_none_of_not_mem rest k hnd.1]
    · simp [List.lookup, hk, String_beq_false _ _ hk]

theorem ParseSelect_collect_eq (m : List (String × OrderBy)) : ∀ (keys : List String)
    (acc : List OrderBy),
    ParseSelect.collect m keys acc =
      acc ++ keys.filterMap (fun k =>
        if OrderBy.string ((m.lookup k).getD ⟨"", ""⟩) ≠ "" then
          some ((m.lookup k).getD ⟨"", ""⟩) else none) := by
  intro keys
  induction keys with
  | nil => intro acc; simp [ParseSelect.collect]
  | cons k rest ih =>
    intro acc
    by_cases h : OrderBy.string ((m.lookup k).getD ⟨"", ""⟩) ≠ ""
    · simp only [ParseSelect.collect, List.filterMap_cons]
      rw [if_pos h, if_pos h, ih]
      simp
    · simp only [ParseSelect.collect, List.filterMap_cons]
      rw [if_neg h, if_neg h, ih]


theorem resolvedOrders_keys_sublist (l : ParamMap) :
    ((resolvedOrders l).map Prod.fst).Sublist (l.map Prod.fst) := by
  induction l with
  | nil => simp [resolvedOrders]
  | cons e rest ih =>
    rw [resolvedOrders_cons]
    by_cases hs : (strings.Split e.1 '.').getLastD "" = "ORD"
    · cases hsc : scanOrder (firstOccurrences e.2) "" "" with
      | none =>
        have hr : resolvedOrders [e] = [] := by
          simp only [resolvedOrders, List.filterMap_cons, hs, if_true, hsc, Option.map_none',
            List.filterMap_nil]
        rw [hr]
        exact ih.cons _
      | some ob =>
        have hr : resolvedOrders [e] = [(e.1, ob)] := by
          simp only [resolvedOrders, List.filterMap_cons, hs, if_true, hsc, Option.map_some',
            List.filterMap_nil]
        rw [hr]
        exact ih.cons₂ _
    · have hr : resolvedOrders [e] = [] := by
        simp only [resolvedOrders, List.filterMap_cons, hs, if_false, List.filterMap_nil]
      rw [hr]
      exact ih.cons _

theorem resolvedOrders_mem (params : ParamMap) (k : String) (ob : OrderBy)
    (h : (k, ob) ∈ resolvedOrders params) :
    (∃ values, (k, values) ∈ params ∧ (strings.Split k '.').getLastD "" = "ORD" ∧
      scanOrder (firstOccurrences values) "" "" = some ob) ∧
    ob.Column ≠ "" ∧ (ob.Order = Asc ∨ ob.Order = Desc) ∧ ob.string ≠ "" := by
  simp only [resolvedOrders, List.mem_filterMap] at h
  obtain ⟨e, he, hf⟩ := h
  by_cases hs : (strings.Split e.1 '.').getLastD "" = "ORD"
  · rw [if_pos hs] at hf
    cases hsc : scanOrder (firstOccurrences e.2) "" "" with
    | none => rw [hsc] at hf; simp at hf
    | some ob2 =>
      rw [hsc] at hf
      simp only [Option.map_some', Option.some.injEq, Prod.mk.injEq] at hf
      obtain ⟨h1, h2⟩ := hf
      subst h1 h2
      have hl := ParseSelect_orderLoop_eq (firstOccurrences e.2) "" ""
      rw [hsc] at hl
      obtain ⟨h3, h4⟩ := ParseSelect_orderLoop_some _ _ _ hl
      have h5 := h4 (Or.inl rfl)
      obtain ⟨c, d⟩ := ob2
      exact ⟨⟨e.2, he, hs, hsc⟩, ((OrderBy_string_ne_empty c d).1 h3).1, h5, h3⟩
  · rw [if_neg hs] at hf
    simp at hf

theorem filterMap_eq_map_of_some {α β : Type} (g : α → Option β) (f : α → β) (l : List α)
    (h : ∀ x ∈ l, g x = some (f x)) : l.filterMap g = l.map f := by
  induction l with
  | nil => rfl
  | cons a rest ih =>
    rw [List.filterMap_cons, h a (by simp), List.map_cons,
      ih (fun x hx => h x (by simp [hx]))]

theorem mem_of_lookup_eq_some {β : Type} (r : List (String × β)) (k : String) (v : β)
    (h : r.lookup k = some v) : (k, v) ∈ r := by
  induction r with
  | nil => simp [List.lookup] at h
  | cons x rest ih =>
    obtain ⟨a, q⟩ := x
    by_cases hk : k = a
    · subst hk
      simp [List.lookup] at h
      simp [h]
    · simp only [List.lookup, String_beq_false _ _ hk] at h
      simp [ih h]

/-- The order list of `ParseSelect`: the resolved keys, sorted, each replaced
by its entry. -/
theorem ParseSelect_OrderBys_eq (params : ParamMap) (hnd : (params.map Prod.fst).Nodup) :
    (ParseSelect params).OrderBys =
      (sort.Strings ((resolvedOrders params).map Prod.fst)).map
        (fun k => ((resolvedOrders params).lookup k).getD ⟨"", ""⟩) := by
  have hrn : ((resolvedOrders params).map Prod.fst).Nodup :=
    hnd.sublist (resolvedOrders_keys_sublist params)
  obtain ⟨hk, hm⟩ := ParseSelect_fold_order params params ⟨.mk false [], [], []⟩
  show ParseSelect.collect _ (sort.Strings _) [] = _
  rw [hk, hm, ParseSelect_collect_eq, List.nil_append, List.nil_append]
  apply filterMap_eq_map_of_some
  intro k hkm
  have hk2 : k ∈ (resolvedOrders params).map Prod.fst :=
    (List.perm_insertionSort _ _).subset hkm
  obtain ⟨⟨k2, ob⟩, hmem, rfl⟩ := List.mem_map.1 hk2
  have hl := lookup_of_mem_nodup _ _ _ hrn hmem
  have hob := (resolvedOrders_mem params _ _ hmem).2.2.2
  rw [ParseSelect_fold_setOrder_lookup _ hrn, hl]
  simp [hob]

theorem sort_Strings_sorted (xs : List String) :
    (sort.Strings xs).Sorted (fun a b => a.data ≤ b.data) := by
  unfold sort.Strings
  exact @List.sorted_insertionSort _ (fun a b : String => a.data ≤ b.data) _
    ⟨fun a b => le_total a.data b.data⟩ ⟨fun a b c h1 h2 => le_trans h1 h2⟩ xs

theorem sort_Strings_perm (xs ys : List String) (h : xs.Perm ys) :
    sort.Strings xs = sort.Strings ys := by
  have h1 : (sort.Strings xs).Perm (sort.Strings ys) :=
    ((List.perm_insertionSort _ xs).trans h).trans (List.perm_insertionSort _ ys).symm
  exact @List.eq_of_perm_of_sorted _ (fun a b : String => a.data ≤ b.data)
    ⟨fun a b h1 h2 => String.ext (le_antisymm h1 h2)⟩ _ _ h1 (sort_Strings_sorted xs)
    (sort_Strings_sorted ys)

theorem lookup_perm_nodup {β : Type} (r1 r2 : List (String × β)) (k : String)
    (hp : r1.Perm r2) (hnd : (r1.map Prod.fst).Nodup) : r1.lookup k = r2.lookup k := by
  have hnd2 : (r2.map Prod.fst).Nodup := (hp.map Prod.fst).nodup_iff.1 hnd
  cases h1 : r1.lookup k with
  | none =>
    cases h2 : r2.lookup k with
    | none => rfl
    | some v =>
      have hm : (k, v) ∈ r1 := hp.symm.subset (mem_of_lookup_eq_some _ _ _ h2)
      rw [lookup_of_mem_nodup _ _ _ hnd hm] at h1
      exact absurd h1 (by simp)
  | some v =>
    have hm : (k, v) ∈ r2 := hp.subset (mem_of_lookup_eq_some _ _ _ h1)
    rw [lookup_of_mem_nodup _ _ _ hnd2 hm]


theorem resolvedOrders_lookup_entry (params : ParamMap)
    (hnd : (params.map Prod.fst).Nodup) (e : String × OrderBy)
    (he : e ∈ resolvedOrders params) :
    (e.1, ((resolvedOrders params).lookup e.1).getD ⟨"", ""⟩) = e := by
  have hrn : ((resolvedOrders params).map Prod.fst).Nodup :=
    hnd.sublist (resolvedOrders_keys_sublist params)
  obtain ⟨k, ob⟩ := e
  simp [lookup_of_mem_nodup _ _ _ hrn he]

/-- C14, counterexample: for the key 1.ORD with the values a, (empty), a, ASC
the scan of the value list in order ends with the column a and the direction
ASC set, and the order list of `ParseSelect` holds no entry for the key (the
code scans the deduplicated list a, (empty), ASC, which ends with an empty
column); for the values (empty), a, (empty), ASC the scan of the value list
ends with an empty column, and the order list holds the entry (a, ASC). -/
theorem ParseSelect_order_list_empty_token :
    scanOrder ["a", "", "a", "ASC"] "" "" = some ⟨"a", "ASC"⟩ ∧
    (ParseSelect [("1.ORD", ["a", "", "a", "ASC"])]).OrderBys = [] ∧
    scanOrder ["", "a", "", "ASC"] "" "" = none ∧
    (ParseSelect [("1.ORD", ["", "a", "", "ASC"])]).OrderBys = [⟨"a", "ASC"⟩] := by
  decide

/-- C14 (amended): for every parameter map (its keys distinct), the order
list of `ParseSelect` holds exactly one entry for each ORD-suffixed key whose
scan of the value list, after deduplication in first-occurrence order, ended
with both a column and a direction set, and no other entry (it is the list of
the second components of a rearrangement of those key-entry pairs), listed in
ascending order of the source key string; every other enumeration of the map
gives the same list; every listed entry has a non-empty column and a direction
equal to ASC or DESC; and for the keys 1.ORD = [nyeh], 2.ORD = [esc, ASC],
3.ORD = [DESC, dasc] the list is [(esc, ASC), (dasc, DESC)]. -/
theorem ParseSelect_order_list (params : ParamMap) (hnd : (params.map Prod.fst).Nodup) :
    (∃ l : List (String × OrderBy), l.Perm (resolvedOrders params) ∧
      (l.map Prod.fst).Sorted (fun a b => a.data ≤ b.data) ∧
      (ParseSelect params).OrderBys = l.map Prod.snd) ∧
    (∀ params2 : ParamMap, params2.Perm params →
      (ParseSelect params2).OrderBys = (ParseSelect params).OrderBys) ∧
    (∀ ob ∈ (ParseSelect params).OrderBys,
      ob.Column ≠ "" ∧ (ob.Order = Asc ∨ ob.Order = Desc)) ∧
    (ParseSelect [("1.ORD", ["nyeh"]), ("2.ORD", ["esc", "ASC"]),
      ("3.ORD", ["DESC", "dasc"])]).OrderBys = [⟨"esc", "ASC"⟩, ⟨"dasc", "DESC"⟩] := by
  have hrn : ((resolvedOrders params).map Prod.fst).Nodup :=
    hnd.sublist (resolvedOrders_keys_sublist params)
  refine ⟨?_, ?_, ?_, by decide⟩
  · refine ⟨(sort.Strings ((resolvedOrders params).map Prod.fst)).map
      (fun k => (k, ((resolvedOrders params).lookup k).getD ⟨"", ""⟩)), ?_, ?_, ?_⟩
    · have h1 : (sort.Strings ((resolvedOrders params).map Prod.fst)).Perm
          ((resolvedOrders params).map Prod.fst) := List.perm_insertionSort _ _
      have h2 := h1.map (fun k => (k, ((resolvedOrders params).lookup k).getD ⟨"", ""⟩))
      refine h2.trans ?_
      rw [List.map_map]
      have h3 : List.map ((fun k => (k, ((resolvedOrders params).lookup k).getD ⟨"", ""⟩)) ∘
          Prod.fst) (resolvedOrders params) = List.map (fun e => e) (resolvedOrders params) := by
        apply List.map_congr_left
        intro e he
        exact resolvedOrders_lookup_entry params hnd e he
      rw [h3, List.map_id']
    · rw [List.map_map]
      have : (Prod.fst ∘ fun k => (k, ((resolvedOrders params).lookup k).getD
          (⟨"", ""⟩ : OrderBy))) = fun k => k := rfl
      rw [this, List.map_id']
      exact sort_Strings_sorted _
    · rw [ParseSelect_OrderBys_eq params hnd, List.map_map]
      rfl
  · intro params2 hp
    have hnd2 : (params2.map Prod.fst).Nodup := (hp.map Prod.fst).nodup_iff.2 hnd
    have hr : (resolvedOrders params2).Perm (resolvedOrders params) := hp.filterMap _
    have hrn2 : ((resolvedOrders params2).map Prod.fst).Nodup :=
      hnd2.sublist (resolvedOrders_keys_sublist params2)
    rw [ParseSelect_OrderBys_eq params hnd, ParseSelect_OrderBys_eq params2 hnd2,
      sort_Strings_perm _ _ (hr.map Prod.fst)]
    apply List.map_congr_left
    intro k _
    rw [lookup_perm_nodup _ _ k hr hrn2]
  · intro ob hob
    rw [ParseSelect_OrderBys_eq params hnd] at hob
    obtain ⟨k, hk, hko⟩ := List.mem_map.1 hob
    have hk2 : k ∈ (resolvedOrders params).map Prod.fst :=
      (List.perm_insertionSort _ _).subset hk
    obtain ⟨⟨k2, ob2⟩, hmem, rfl⟩ := List.mem_map.1 hk2
    rw [lookup_of_mem_nodup _ _ _ hrn hmem] at hko
    simp only [Option.getD_some] at hko
    subst hko
    have := resolvedOrders_mem params _ _ hmem
    exact ⟨this.2.1, this.2.2.1⟩

/-- The keys of the package's test, enumerated in another order, on which C14
applies. -/
theorem ParseSelect_order_list_witness :
    (List.map Prod.fst [("3.ORD", ["DESC", "dasc"]), ("1.ORD", ["nyeh"]),
      ("2.ORD", ["esc", "ASC"])]).Nodup ∧
    (ParseSelect [("3.ORD", ["DESC", "dasc"]), ("1.ORD", ["nyeh"]),
      ("2.ORD", ["esc", "ASC"])]).OrderBys = [⟨"esc", "ASC"⟩, ⟨"dasc", "DESC"⟩] ∧
    ∀ ob ∈ (ParseSelect [("3.ORD", ["DESC", "dasc"]), ("1.ORD", ["nyeh"]),
      ("2.ORD", ["esc", "ASC"])]).OrderBys,
      ob.Column ≠ "" ∧ (ob.Order = Asc ∨ ob.Order = Desc) :=
  ⟨by decide, by decide,
    (ParseSelect_order_list [("3.ORD", ["DESC", "dasc"]), ("1.ORD", ["nyeh"]),
      ("2.ORD", ["esc", "ASC"])] (by decide)).2.2.1⟩

/-- C15, counterexample: for the key 1.ORD with the values a, b, a, ASC the
entry `ParseSelect` resolves is (b, ASC), while the scan of the value list in
order gives (a, ASC): the code scans the deduplicated list a, b, ASC. -/
theorem ParseSelect_order_duplicate_token :
    (ParseSelect [("1.ORD", ["a", "b", "a", "ASC"])]).OrderBys = [⟨"b", "ASC"⟩] ∧
    scanOrder ["a", "b", "a", "ASC"] "" "" = some ⟨"a", "ASC"⟩ := by
  decide

/-- C15 (amended): for every ORD-suffixed key of a parameter map (its keys
distinct), the entry `ParseSelect` resolves for it is the result of scanning
the key's value list, deduplicated in first-occurrence order, in order: the
first token equal to IGNORE met before the entry is complete aborts the key
with no entry; otherwise a token equal to ASC or DESC sets the direction and
any other token sets the column; and as soon as both a non-empty column and a
direction are set the entry is fixed and the remaining tokens are not read.
The loop of the code returns that result, a map with this key alone has it as
its whole order list, and in general it is in the order list. -/
theorem ParseSelect_order_entry (params : ParamMap) (hnd : (params.map Prod.fst).Nodup)
    (name : String) (values : List String) (hmem : (name, values) ∈ params)
    (hs : (strings.Split name '.').getLastD "" = ord) :
    ParseSelect.orderLoop (dedup values) ⟨"", ""⟩ =
      scanOrder (firstOccurrences values) "" "" ∧
    (ParseSelect [(name, values)]).OrderBys =
      (scanOrder (firstOccurrences values) "" "").toList ∧
    (∀ ob, scanOrder (firstOccurrences values) "" "" = some ob →
      ob ∈ (ParseSelect params).OrderBys) := by
  have hs2 : (strings.Split name '.').getLastD "" = "ORD" := hs
  refine ⟨?_, ?_, ?_⟩
  · rw [dedup_eq_firstOccurrences, ParseSelect_orderLoop_eq]
  · rw [ParseSelect_OrderBys_eq [(name, values)] (by simp)]
    cases hsc : scanOrder (firstOccurrences values) "" "" with
    | none =>
      have hr : resolvedOrders [(name, values)] = [] := by
        simp only [resolvedOrders, List.filterMap_cons, hs2, if_true, hsc, Option.map_none',
          List.filterMap_nil]
      rw [hr]
      rfl
    | some ob =>
      have hr : resolvedOrders [(name, values)] = [(name, ob)] := by
        simp only [resolvedOrders, List.filterMap_cons, hs2, if_true, hsc, Option.map_some',
          List.filterMap_nil]
      rw [hr]
      simp [sort.Strings, List.lookup]
  · intro ob hsc
    have hrn : ((resolvedOrders params).map Prod.fst).Nodup :=
      hnd.sublist (resolvedOrders_keys_sublist params)
    have hr : (name, ob) ∈ resolvedOrders params := by
      simp only [resolvedOrders, List.mem_filterMap]
      exact ⟨(name, values), hmem, by simp only [hs2, if_true, hsc, Option.map_some']⟩
    rw [ParseSelect_OrderBys_eq params hnd]
    apply List.mem_map.2
    refine ⟨name, ?_, ?_⟩
    · exact (List.perm_insertionSort _ _).symm.subset (List.mem_map.2 ⟨(name, ob), hr, rfl⟩)
    · rw [lookup_of_mem_nodup _ _ _ hrn hr]
      rfl

/-- The key with a repeated column token on which C15 (amended) applies. -/
theorem ParseSelect_order_entry_witness :
    (List.map Prod.fst [("1.ORD", ["a", "b", "a", "ASC"])]).Nodup ∧
    (strings.Split "1.ORD" '.').getLastD "" = ord ∧
    firstOccurrences ["a", "b", "a", "ASC"] = ["a", "b", "ASC"] ∧
    (ParseSelect [("1.ORD", ["a", "b", "a", "ASC"])]).OrderBys = [⟨"b", "ASC"⟩] :=
  ⟨by decide, by decide, by decide,
    ((ParseSelect_order_entry [("1.ORD", ["a", "b", "a", "ASC"])] (by decide) "1.ORD"
      ["a", "b", "a", "ASC"] (by decide) (by decide)).2.1).trans (by decide)⟩



/-! ## Lemmas on `ParseSelect`: the predicate tree -/

theorem PredGrp_getPred_setPred_eq (preds : List (String × Option Pred)) (key : String)
    (pred : Pred) : PredGrp.getPred (PredGrp.setPred preds key pred) key = some pred := by
  induction preds with
  | nil => simp [PredGrp.setPred, PredGrp.getPred, List.lookup]
  | cons x rest ih =>
    obtain ⟨k, q⟩ := x
    by_cases hk : k = key
    · subst hk
      simp [PredGrp.setPred, PredGrp.getPred, List.lookup]
    · have hk2 : key ≠ k := fun e => hk e.symm
      simp only [PredGrp.getPred] at ih
      simp [PredGrp.setPred, PredGrp.getPred, List.lookup, hk, String_beq_false _ _ hk2, ih]

theorem PredGrp_getPred_setPred_ne (preds : List (String × Option Pred)) (key other : String)
    (pred : Pred) (h : other ≠ key) :
    PredGrp.getPred (PredGrp.setPred preds key pred) other = PredGrp.getPred preds other := by
  induction preds with
  | nil => simp [PredGrp.setPred, PredGrp.getPred, List.lookup, String_beq_false _ _ h]
  | cons x rest ih =>
    obtain ⟨k, q⟩ := x
    simp only [PredGrp.getPred] at ih
    by_cases hk : k = key
    · subst hk
      simp [PredGrp.setPred, PredGrp.getPred, List.lookup, String_beq_false _ _ h]
    · by_cases ho : other = k
      · subst ho
        simp [PredGrp.setPred, PredGrp.getPred, List.lookup, hk]
      · simp [PredGrp.setPred, PredGrp.getPred, List.lookup, hk, String_beq_false _ _ ho, ih]

theorem ParseSelect_descend_single (suffix value : String) (values : List String)
    (pfx : String) (or : Bool) (preds : List (String × Option Pred)) :
    ParseSelect.descend suffix value values [pfx] (.mk or preds) =
      .mk or (PredGrp.setPred preds pfx (ParseSelect.assign suffix value values
        ((PredGrp.getPred preds pfx).getD (.mk "" "" "" [] false none)))) := by
  cases h : PredGrp.getPred preds pfx <;> simp [ParseSelect.descend, h]

theorem ParseSelect_descend_cons (suffix value : String) (values : List String)
    (pfx t : String) (rest : List String) (or : Bool) (preds : List (String × Option Pred)) :
    ParseSelect.descend suffix value values (pfx :: t :: rest) (.mk or preds) =
      .mk or (PredGrp.setPred preds pfx
        (.mk ((PredGrp.getPred preds pfx).getD (.mk "" "" "" [] false none)).Column
          ((PredGrp.getPred preds pfx).getD (.mk "" "" "" [] false none)).Operator
          ((PredGrp.getPred preds pfx).getD (.mk "" "" "" [] false none)).Value
          ((PredGrp.getPred preds pfx).getD (.mk "" "" "" [] false none)).Values
          true
          (some (ParseSelect.descend suffix value values (t :: rest)
            ((((PredGrp.getPred preds pfx).getD (.mk "" "" "" [] false none)).PredGrp).getD
              (.mk false []))))))  := by
  cases h : PredGrp.getPred preds pfx with
  | none => simp [ParseSelect.descend, h, Pred.Column, Pred.Operator, Pred.Value, Pred.Values,
      Pred.PredGrp]
  | some p =>
    obtain ⟨c, o, v, vs, n, g⟩ := p
    cases g <;> simp [ParseSelect.descend, h, Pred.Column, Pred.Operator, Pred.Value,
      Pred.Values, Pred.PredGrp]

theorem ParseSelect_descend_Or (suffix value : String) (values : List String)
    (path : List String) (g : PredGrp) :
    (ParseSelect.descend suffix value values path g).Or = g.Or := by
  obtain ⟨or, preds⟩ := g
  match path with
  | [] => rfl
  | [pfx] => rw [ParseSelect_descend_single]; rfl
  | pfx :: t :: rest => rw [ParseSelect_descend_cons]; rfl


theorem PredGrp_allEntries_setPred (f : Pred → Bool) (preds : List (String × Option Pred))
    (key : String) (pred : Pred) (h1 : PredGrp.allEntries f preds = true)
    (h2 : Pred.all f pred = true) :
    PredGrp.allEntries f (PredGrp.setPred preds key pred) = true := by
  induction preds with
  | nil => simp [PredGrp.setPred, PredGrp.allEntries, h2]
  | cons x rest ih =>
    obtain ⟨k, q⟩ := x
    by_cases hk : k = key
    · cases q with
      | none =>
        simp only [PredGrp.allEntries] at h1
        simp [PredGrp.setPred, hk, PredGrp.allEntries, h1, h2]
      | some p =>
        simp only [PredGrp.allEntries, Bool.and_eq_true] at h1
        simp [PredGrp.setPred, hk, PredGrp.allEntries, h1.2, h2]
    · cases q with
      | none =>
        simp only [PredGrp.allEntries] at h1
        simp [PredGrp.setPred, hk, PredGrp.allEntries, ih h1]
      | some p =>
        simp only [PredGrp.allEntries, Bool.and_eq_true] at h1
        simp [PredGrp.setPred, hk, PredGrp.allEntries, h1.1, ih h1.2]

theorem PredGrp_allEntries_getPred (f : Pred → Bool) (preds : List (String × Option Pred))
    (key : String) (pred : Pred) (h1 : PredGrp.allEntries f preds = true)
    (h2 : PredGrp.getPred preds key = some pred) : Pred.all f pred = true := by
  induction preds with
  | nil => simp [PredGrp.getPred, List.lookup] at h2
  | cons x rest ih =>
    obtain ⟨k, q⟩ := x
    by_cases hk : key = k
    · subst hk
      simp only [PredGrp.getPred, List.lookup, beq_self_eq_true, Option.getD_some] at h2
      subst h2
      simp only [PredGrp.allEntries, Bool.and_eq_true] at h1
      exact h1.1
    · simp only [PredGrp.getPred, List.lookup, String_beq_false _ _ hk] at h2
      cases q with
      | none =>
        simp only [PredGrp.allEntries] at h1
        exact ih h1 h2
      | some p =>
        simp only [PredGrp.allEntries, Bool.and_eq_true] at h1
        exact ih h1.2 h2

/-- An invariant of the nodes that holds of the empty node, is kept by the
assignment at the last segment and holds of every node the loop passes
through, is kept by the loop over the segments of a key. -/
theorem ParseSelect_descend_all (f : Pred → Bool) (suffix value : String)
    (values : List String)
    (hzero : f (.mk "" "" "" [] false none) = true)
    (hassign : ∀ p, Pred.all f p = true →
      Pred.all f (ParseSelect.assign suffix value values p) = true)
    (hpass : ∀ c o v vs g, f (.mk c o v vs true (some g)) = true) :
    ∀ (path : List String) (g : PredGrp), PredGrp.all f g = true →
      PredGrp.all f (ParseSelect.descend suffix value values path g) = true := by
  intro path
  induction path with
  | nil => intro g h; exact h
  | cons pfx rest ih =>
    intro g h
    obtain ⟨or, preds⟩ := g
    simp only [PredGrp.all] at h
    have hbase : Pred.all f ((PredGrp.getPred preds pfx).getD (.mk "" "" "" [] false none)) =
        true := by
      cases hg : PredGrp.getPred preds pfx with
      | none => simp [Pred.all, hzero]
      | some p => exact PredGrp_allEntries_getPred f preds pfx p h hg
    cases rest with
    | nil =>
      rw [ParseSelect_descend_single]
      simp only [PredGrp.all]
      exact PredGrp_allEntries_setPred f _ _ _ h (hassign _ hbase)
    | cons t r =>
      rw [ParseSelect_descend_cons]
      simp only [PredGrp.all]
      apply PredGrp_allEntries_setPred f _ _ _ h
      simp only [Pred.all, hpass, Bool.true_and]
      apply ih
      generalize (PredGrp.getPred preds pfx).getD (.mk "" "" "" [] false none) = base at hbase
      obtain ⟨c, o, v, vs, n, g⟩ := base
      cases g with
      | none => simp [Pred.PredGrp, PredGrp.all, PredGrp.allEntries]
      | some g0 =>
        simp only [Pred.all, Bool.and_eq_true] at hbase
        simpa [Pred.PredGrp] using hbase.2

theorem ParseSelect_step_Where (params : ParamMap) (st : ParseSelect.State)
    (e : String × List String) :
    (ParseSelect.step params st e).Where =
      if (strings.Split e.1 '.').getLastD "" = col ∨ (strings.Split e.1 '.').getLastD "" = opr ∨
          (strings.Split e.1 '.').getLastD "" = val ∨ (strings.Split e.1 '.').getLastD "" = aor then
        ParseSelect.descend ((strings.Split e.1 '.').getLastD "")
          (ParseSelect.paramvalue params e.1) (dedup e.2) (strings.Split e.1 '.').dropLast
          st.Where
      else st.Where := by
  have hlen : ¬ (strings.Split e.1 '.').length = 0 := by
    intro h
    exact strings_Split_ne_nil _ _ (List.length_eq_zero.1 h)
  unfold ParseSelect.step
  simp only [hlen, if_false]
  generalize (strings.Split e.1 '.').getLastD "" = sfx
  by_cases h4 : sfx = col ∨ sfx = opr ∨ sfx = val ∨ sfx = aor
  · have hv : IsValidSuffix sfx = true := by
      rcases h4 with h | h | h | h <;> rw [h] <;> decide
    have ho : ¬ sfx = ord := by
      rcases h4 with h | h | h | h <;> rw [h] <;> decide
    simp only [hv, not_true_eq_false, if_false, ho, h4, if_true]
  · rw [if_neg h4]
    split_ifs
    all_goals first
      | rfl
      | (cases ParseSelect.orderLoop (dedup e.2) ⟨"", ""⟩ <;> rfl)


theorem ParseSelect_assign_eq (suffix value : String) (values : List String)
    (c o v : String) (vs : List String) (n : Bool) (g : Option PredGrp) :
    ParseSelect.assign suffix value values (.mk c o v vs n g) =
      if suffix = col then .mk value o v vs n g
      else if suffix = opr then .mk c value v vs n g
      else if suffix = val then .mk c o value values n g
      else if suffix = aor then
        .mk c o v vs n (some (.mk (value == Or) ((g.map PredGrp.Preds).getD [])))
      else .mk c o v vs n g := by
  cases g with
  | none => rfl
  | some g0 =>
    obtain ⟨or0, preds0⟩ := g0
    rfl

theorem Pred_all_mk (f : Pred → Bool) (c o v : String) (vs : List String) (n : Bool)
    (g : Option PredGrp) :
    Pred.all f (.mk c o v vs n g) =
      (f (.mk c o v vs n g) && (g.map (PredGrp.all f)).getD true) := by
  cases g <;> rfl

theorem ParseSelect_assign_all_nestedOwnsChild (suffix value : String) (values : List String)
    (p : Pred) (h : Pred.all nestedOwnsChild p = true) :
    Pred.all nestedOwnsChild (ParseSelect.assign suffix value values p) = true := by
  obtain ⟨c, o, v, vs, n, g⟩ := p
  rw [ParseSelect_assign_eq]
  rw [Pred_all_mk, Bool.and_eq_true] at h
  obtain ⟨hn, hg⟩ := h
  split_ifs
  · rw [Pred_all_mk, Bool.and_eq_true]
    exact ⟨hn, hg⟩
  · rw [Pred_all_mk, Bool.and_eq_true]
    exact ⟨hn, hg⟩
  · rw [Pred_all_mk, Bool.and_eq_true]
    exact ⟨hn, hg⟩
  · rw [Pred_all_mk, Bool.and_eq_true]
    refine ⟨by simp [nestedOwnsChild, Pred.PredGrp], ?_⟩
    cases g with
    | none => rfl
    | some g0 =>
      obtain ⟨or0, preds0⟩ := g0
      simpa [PredGrp.all, PredGrp.Preds] using hg
  · rw [Pred_all_mk, Bool.and_eq_true]
    exact ⟨hn, hg⟩

theorem ParseSelect_fold_all_nestedOwnsChild (params : ParamMap) :
    ∀ (l : ParamMap) (st : ParseSelect.State),
      PredGrp.all nestedOwnsChild st.Where = true →
      PredGrp.all nestedOwnsChild (l.foldl (ParseSelect.step params) st).Where = true := by
  intro l
  induction l with
  | nil => intro st h; exact h
  | cons e rest ih =>
    intro st h
    rw [List.foldl_cons]
    apply ih
    rw [ParseSelect_step_Where]
    split_ifs
    · exact ParseSelect_descend_all nestedOwnsChild _ _ _ (by decide)
        (ParseSelect_assign_all_nestedOwnsChild _ _ _)
        (by intro c o v vs g; rfl) _ _ h
    · exact h

/-- C13, counterexample: in the tree built from the single key 4.AOR = [OR]
the node 4 owns a child group and is not marked nested, so the invariant
"nested if and only if it owns a child group" fails on that tree. -/
theorem ParseSelect_aor_creates_child :
    ((ParseSelect [("4.AOR", ["OR"])]).Where.bind (nodeAt ["4"])).map Pred.Nested =
      some false ∧
    ((ParseSelect [("4.AOR", ["OR"])]).Where.bind (nodeAt ["4"])).map
      (Option.isSome ∘ Pred.PredGrp) = some true ∧
    (ParseSelect [("4.AOR", ["OR"])]).Where.map (PredGrp.all nestedIffChild) = some false := by
  decide

/-- C13 (amended): in every predicate tree built by `ParseSelect` from any
parameter map, each predicate node satisfies: if its Nested flag is true, it
owns a non-nil child group. -/
theorem ParseSelect_nested_owns_child (params : ParamMap) :
    (ParseSelect params).Where.map (PredGrp.all nestedOwnsChild) = some true := by
  show some (PredGrp.all nestedOwnsChild _) = some true
  rw [ParseSelect_fold_all_nestedOwnsChild params params _ (by decide)]

/-! ## Lemmas on `ParseSelect`: the node a key addresses -/

theorem reaches_of_Preds_eq (P : Pred → Prop) (path : List String) (g1 g2 : PredGrp)
    (h : g1.Preds = g2.Preds) (hr : reaches P path g1) : reaches P path g2 := by
  match path with
  | [] => exact hr
  | [s] =>
    obtain ⟨node, h1, h2⟩ := hr
    exact ⟨node, by rw [← h]; exact h1, h2⟩
  | s :: t :: rest =>
    obtain ⟨node, child, h1, h2, h3, h4⟩ := hr
    exact ⟨node, child, by rw [← h]; exact h1, h2, h3, h4⟩

theorem ParseSelect_descend_form (suffix value : String) (values : List String)
    (pfx : String) (rest : List String) (or : Bool) (preds : List (String × Option Pred)) :
    ∃ x, ParseSelect.descend suffix value values (pfx :: rest) (.mk or preds) =
      .mk or (PredGrp.setPred preds pfx x) := by
  cases rest with
  | nil => exact ⟨_, ParseSelect_descend_single _ _ _ _ _ _⟩
  | cons t r => exact ⟨_, ParseSelect_descend_cons _ _ _ _ _ _ _ _⟩

/-- The loop over the segments of a key leads to the node the key addresses,
through nested nodes owning child groups, and leaves there what its assignment
establishes. -/
theorem reaches_descend_self (P : Pred → Prop) (suffix value : String) (values : List String)
    (hP : ∀ node, P (ParseSelect.assign suffix value values node)) :
    ∀ (path : List String), path ≠ [] → ∀ g : PredGrp,
      reaches P path (ParseSelect.descend suffix value values path g) := by
  intro path
  induction path with
  | nil => intro h; exact absurd rfl h
  | cons pfx rest ih =>
    intro _ g
    obtain ⟨or, preds⟩ := g
    cases rest with
    | nil =>
      rw [ParseSelect_descend_single]
      exact ⟨_, PredGrp_getPred_setPred_eq _ _ _, hP _⟩
    | cons t r =>
      rw [ParseSelect_descend_cons]
      exact ⟨_, _, PredGrp_getPred_setPred_eq _ _ _, rfl, rfl, ih (by simp) _⟩

theorem ParseSelect_assign_Nested (suffix value : String) (values : List String)
    (node : Pred) : (ParseSelect.assign suffix value values node).Nested = node.Nested := by
  obtain ⟨c, o, v, vs, n, g⟩ := node
  rw [ParseSelect_assign_eq]
  split_ifs <;> rfl

theorem ParseSelect_assign_PredGrp (suffix value : String) (values : List String)
    (node : Pred) (child : PredGrp) (h : node.PredGrp = some child) :
    ∃ child2, (ParseSelect.assign suffix value values node).PredGrp = some child2 ∧
      child.Preds = child2.Preds := by
  obtain ⟨c, o, v, vs, n, g⟩ := node
  simp only [Pred.PredGrp] at h
  subst h
  rw [ParseSelect_assign_eq]
  split_ifs
  · exact ⟨child, rfl, rfl⟩
  · exact ⟨child, rfl, rfl⟩
  · exact ⟨child, rfl, rfl⟩
  · exact ⟨_, rfl, rfl⟩
  · exact ⟨child, rfl, rfl⟩

/-- What a key has established at its node is kept by the loop over the
segments of another key, provided the assignment of that other key keeps it
when both address the same node, and marking the node nested with a child
group of the same connective keeps it. -/
theorem reaches_descend_other (P : Pred → Prop) (suffix value : String)
    (values : List String)
    (hpass : ∀ (node : Pred) (child : PredGrp), P node →
      child.Or = (node.PredGrp.getD (.mk false [])).Or →
      P (.mk node.Column node.Operator node.Value node.Values true (some child))) :
    ∀ (path path2 : List String) (g : PredGrp),
      (path2 = path → ∀ node, P node → P (ParseSelect.assign suffix value values node)) →
      reaches P path g → reaches P path (ParseSelect.descend suffix value values path2 g) := by
  intro path
  induction path with
  | nil => intro path2 g _ hr; exact absurd hr (by simp [reaches])
  | cons pfx rest ih =>
    intro path2 g hassign hr
    cases path2 with
    | nil => exact hr
    | cons pfx2 rest2 =>
      obtain ⟨or, preds⟩ := g
      by_cases hp : pfx = pfx2
      · subst hp
        cases rest with
        | nil =>
          obtain ⟨node, h1, h2⟩ := hr
          simp only [PredGrp.Preds] at h1
          cases rest2 with
          | nil =>
            rw [ParseSelect_descend_single, h1]
            exact ⟨_, PredGrp_getPred_setPred_eq _ _ _, hassign rfl _ h2⟩
          | cons t2 r2 =>
            rw [ParseSelect_descend_cons, h1]
            refine ⟨_, PredGrp_getPred_setPred_eq _ _ _, ?_⟩
            exact hpass node _ h2 (ParseSelect_descend_Or _ _ _ _ _)
        | cons t r =>
          obtain ⟨node, child, h1, h2, h3, h4⟩ := hr
          simp only [PredGrp.Preds] at h1
          cases rest2 with
          | nil =>
            rw [ParseSelect_descend_single, h1]
            obtain ⟨child2, h5, h6⟩ := ParseSelect_assign_PredGrp suffix value values node child h3
            refine ⟨_, child2, PredGrp_getPred_setPred_eq _ _ _, ?_, h5, ?_⟩
            · rw [ParseSelect_assign_Nested]; exact h2
            · exact reaches_of_Preds_eq P _ child child2 h6 h4
          | cons t2 r2 =>
            rw [ParseSelect_descend_cons, h1]
            refine ⟨_, _, PredGrp_getPred_setPred_eq _ _ _, rfl, rfl, ?_⟩
            simp only [Option.getD_some, h3]
            apply ih
            · intro he
              exact hassign (by rw [he])
            · exact h4
      · obtain ⟨x, hx⟩ := ParseSelect_descend_form suffix value values pfx2 rest2 or preds
        rw [hx]
        cases rest with
        | nil =>
          obtain ⟨node, h1, h2⟩ := hr
          exact ⟨node, by
            simp only [PredGrp.Preds] at h1 ⊢
            rw [PredGrp_getPred_setPred_ne _ _ _ _ hp]; exact h1, h2⟩
        | cons t r =>
          obtain ⟨node, child, h1, h2, h3, h4⟩ := hr
          exact ⟨node, child, by
            simp only [PredGrp.Preds] at h1 ⊢
            rw [PredGrp_getPred_setPred_ne _ _ _ _ hp]; exact h1, h2, h3, h4⟩


theorem strings_splitChars_injective (sep : Char) : ∀ (a b : List Char),
    strings.splitChars sep a = strings.splitChars sep b → a = b := by
  intro a
  induction a with
  | nil =>
    intro b h
    cases b with
    | nil => rfl
    | cons d rb =>
      exfalso
      simp only [strings.splitChars] at h
      by_cases hd : d = sep
      · simp only [hd, if_true] at h
        injection h with _ h2
        exact strings_splitChars_ne_nil sep rb h2.symm
      · simp only [hd, if_false] at h
        cases hs : strings.splitChars sep rb with
        | nil => exact strings_splitChars_ne_nil sep rb hs
        | cons x t => rw [hs] at h; simp at h
  | cons c ra ih =>
    intro b h
    cases b with
    | nil =>
      exfalso
      simp only [strings.splitChars] at h
      by_cases hc : c = sep
      · simp only [hc, if_true] at h
        injection h with _ h2
        exact strings_splitChars_ne_nil sep ra h2
      · simp only [hc, if_false] at h
        cases hs : strings.splitChars sep ra with
        | nil => exact strings_splitChars_ne_nil sep ra hs
        | cons x t => rw [hs] at h; simp at h
    | cons d rb =>
      simp only [strings.splitChars] at h
      by_cases hc : c = sep <;> by_cases hd : d = sep
      · simp only [hc, hd, if_true] at h
        injection h with _ h2
        rw [hc, hd, ih rb h2]
      · simp only [hc, hd, if_true, if_false] at h
        cases hs : strings.splitChars sep rb with
        | nil => exact absurd hs (strings_splitChars_ne_nil sep rb)
        | cons x t => rw [hs] at h; simp at h
      · simp only [hc, hd, if_true, if_false] at h
        cases hs : strings.splitChars sep ra with
        | nil => exact absurd hs (strings_splitChars_ne_nil sep ra)
        | cons x t => rw [hs] at h; simp at h
      · simp only [hc, hd, if_false] at h
        cases hs : strings.splitChars sep ra with
        | nil => exact absurd hs (strings_splitChars_ne_nil sep ra)
        | cons x t =>
          cases hs2 : strings.splitChars sep rb with
          | nil => exact absurd hs2 (strings_splitChars_ne_nil sep rb)
          | cons x2 t2 =>
            rw [hs, hs2] at h
            simp only [List.cons.injEq] at h
            obtain ⟨⟨h1, h2⟩, h3⟩ := h
            rw [h1, ih rb (by rw [hs, hs2, h2, h3])]

/-- A key is determined by its segments. -/
theorem strings_Split_injective (sep : Char) (a b : String)
    (h : strings.Split a sep = strings.Split b sep) : a = b := by
  unfold strings.Split at h
  have hinj : Function.Injective String.mk := by
    intro x y hxy
    injection hxy
  have h2 := List.map_injective_iff.2 hinj h
  exact String.ext (strings_splitChars_injective sep _ _ h2)

theorem List_eq_dropLast_append_getLastD (xs : List String) (h : xs ≠ []) :
    xs = xs.dropLast ++ [xs.getLastD ""] := by
  induction xs with
  | nil => exact absurd rfl h
  | cons x rest ih =>
    cases rest with
    | nil => rfl
    | cons y r =>
      have := ih (by simp)
      simp only [List.dropLast_cons₂, List.cons_append, List.cons.injEq, true_and]
      simpa [List.getLastD, -List.getLastD_eq_getLast?] using this

theorem ParseSelect_paramvalue_eq (params : ParamMap) (hnd : (params.map Prod.fst).Nodup)
    (name : String) (values : List String) (hmem : (name, values) ∈ params) :
    ParseSelect.paramvalue params name = values.headD "" := by
  unfold ParseSelect.paramvalue ParamMap.get
  rw [lookup_of_mem_nodup params name values hnd hmem]
  cases values <;> rfl

theorem addressed_assign_self (suffix : String) (values : List String)
    (hsfx : suffix = col ∨ suffix = opr ∨ suffix = val ∨ suffix = aor) (node : Pred) :
    addressed suffix values
      (ParseSelect.assign suffix (values.headD "") (dedup values) node) := by
  obtain ⟨c, o, v, vs, n, g⟩ := node
  rw [ParseSelect_assign_eq, dedup_eq_firstOccurrences]
  rcases hsfx with h | h | h | h
  · subst h
    refine ⟨fun _ => rfl, fun h => absurd h (by decide), fun h => absurd h (by decide),
      fun h => absurd h (by decide)⟩
  · subst h
    refine ⟨fun h => absurd h (by decide), fun _ => rfl, fun h => absurd h (by decide),
      fun h => absurd h (by decide)⟩
  · subst h
    refine ⟨fun h => absurd h (by decide), fun h => absurd h (by decide), fun _ => ⟨rfl, rfl⟩,
      fun h => absurd h (by decide)⟩
  · subst h
    refine ⟨fun h => absurd h (by decide), fun h => absurd h (by decide),
      fun h => absurd h (by decide), fun _ => ⟨_, rfl, ?_⟩⟩
    simp [PredGrp.Or]

theorem addressed_assign_other (suffix : String) (values : List String)
    (suffix2 value2 : String) (values2 : List String) (hne : suffix2 ≠ suffix)
    (node : Pred) (h : addressed suffix values node) :
    addressed suffix values (ParseSelect.assign suffix2 value2 values2 node) := by
  obtain ⟨c, o, v, vs, n, g⟩ := node
  obtain ⟨h1, h2, h3, h4⟩ := h
  rw [ParseSelect_assign_eq]
  split_ifs with e1 e2 e3 e4
  · exact ⟨fun e => absurd (e1.trans e.symm) hne, h2, h3, h4⟩
  · exact ⟨h1, fun e => absurd (e2.trans e.symm) hne, h3, h4⟩
  · exact ⟨h1, h2, fun e => absurd (e3.trans e.symm) hne, h4⟩
  · exact ⟨h1, h2, h3, fun e => absurd (e4.trans e.symm) hne⟩
  · exact ⟨h1, h2, h3, h4⟩

theorem addressed_pass (suffix : String) (values : List String) (node : Pred)
    (child : PredGrp) (h : addressed suffix values node)
    (hor : child.Or = (node.PredGrp.getD (.mk false [])).Or) :
    addressed suffix values
      (.mk node.Column node.Operator node.Value node.Values true (some child)) := by
  obtain ⟨c, o, v, vs, n, g⟩ := node
  obtain ⟨h1, h2, h3, h4⟩ := h
  refine ⟨h1, h2, h3, fun e => ?_⟩
  obtain ⟨c0, hc0, hc1⟩ := h4 e
  simp only [Pred.PredGrp] at hc0 hor
  subst hc0
  refine ⟨child, rfl, ?_⟩
  rw [hor]
  exact hc1

/-- What a key has left at the node it addresses survives the rounds of the
loop for the other keys. -/
theorem ParseSelect_fold_reaches (params : ParamMap) (name suffix : String)
    (values path : List String) (hsplit : strings.Split name '.' = path ++ [suffix]) :
    ∀ (l : List (String × List String)) (st : ParseSelect.State),
      (∀ e ∈ l, e.1 ≠ name) →
      reaches (addressed suffix values) path st.Where →
      reaches (addressed suffix values) path (l.foldl (ParseSelect.step params) st).Where := by
  intro l
  induction l with
  | nil => intro st _ h; exact h
  | cons e rest ih =>
    intro st hne h
    rw [List.foldl_cons]
    apply ih _ (fun x hx => hne x (List.mem_cons_of_mem _ hx))
    rw [ParseSelect_step_Where]
    split_ifs with h4
    · apply reaches_descend_other _ _ _ _ (fun node child hn hor =>
        addressed_pass suffix values node child hn hor)
      · intro hp node hn
        apply addressed_assign_other _ _ _ _ _ _ node hn
        intro hs
        apply hne e (List.mem_cons_self _ _)
        apply strings_Split_injective '.'
        rw [hsplit, List_eq_dropLast_append_getLastD _ (strings_Split_ne_nil e.1 '.'), hp, hs]
      · exact h
    · exact h

/-- C12: for every parameter map (its keys distinct, as in a Go map) and every
key of it whose segments are a non-empty path followed by COL, OPR, VAL or AOR,
the tree of ParseSelect has a node at that path, every node at a proper initial
part of the path is marked nested and owns the child group the path goes on in,
and the node at the path has, for COL, the first value as Column; for OPR, the
first value as Operator; for VAL, the first value as Value and the values in
first-occurrence order without repetition as Values; for AOR, a child group
whose Or flag is true exactly when the first value is OR. -/
theorem ParseSelect_tree_path (params : ParamMap) (hnd : (params.map Prod.fst).Nodup)
    (name : String) (values : List String) (hmem : (name, values) ∈ params)
    (path : List String) (suffix : String)
    (hsplit : strings.Split name '.' = path ++ [suffix]) (hpath : path ≠ [])
    (hsfx : suffix = col ∨ suffix = opr ∨ suffix = val ∨ suffix = aor) :
    ∃ tree, (ParseSelect params).Where = some tree ∧
      reaches (addressed suffix values) path tree := by
  refine ⟨_, rfl, ?_⟩
  obtain ⟨l1, l2, hl⟩ := List.append_of_mem hmem
  have hval := ParseSelect_paramvalue_eq params hnd name values hmem
  have hne : ∀ e ∈ l2, e.1 ≠ name := by
    intro e he hen
    rw [hl, List.map_append, List.map_cons] at hnd
    have h2 := (List.nodup_append.1 hnd).2.1
    exact (List.nodup_cons.1 h2).1 (List.mem_map.2 ⟨e, he, hen⟩)
  have hdrop : (strings.Split name '.').dropLast = path := by
    rw [hsplit, List.dropLast_concat]
  have hlast : (strings.Split name '.').getLastD "" = suffix := by
    rw [hsplit]
    simp
  generalize hp : ParseSelect.step params = stepf at *
  rw [hl, List.foldl_append, List.foldl_cons]
  rw [← hp]
  apply ParseSelect_fold_reaches params name suffix values path hsplit l2 _ hne
  rw [ParseSelect_step_Where]
  simp only [hlast, hdrop, hsfx, if_true, hval]
  exact reaches_descend_self _ _ _ _ (addressed_assign_self suffix values hsfx) path hpath _

theorem ParseSelect_tree_path_witness :
    ∃ tree, (ParseSelect [("4.1.COL", ["c", "d"]), ("4.AOR", ["OR"])]).Where = some tree ∧
      reaches (addressed "COL" ["c", "d"]) ["4", "1"] tree :=
  ParseSelect_tree_path [("4.1.COL", ["c", "d"]), ("4.AOR", ["OR"])] (by decide) "4.1.COL"
    ["c", "d"] (by decide) ["4", "1"] "COL" (by decide) (by decide) (by decide)

/-! ## The markers of a predicate clause -/

theorem countMarkers_append (n : Nat) : ∀ (pre rest : List Char),
    pre.length ≤ n → (∀ r, rest ≠ '?' :: r) →
    countMarkers (pre ++ rest) = countMarkers pre + countMarkers rest := by
  induction n with
  | zero =>
    intro pre rest hl _
    have : pre = [] := List.length_eq_zero.1 (Nat.le_zero.1 hl)
    subst this
    simp [countMarkers]
  | succ n ih =>
    intro pre rest hl hr
    match pre with
    | [] => simp [countMarkers]
    | [c] =>
      by_cases hc : c = '?'
      · subst hc
        rw [List.singleton_append, countMarkers_marker rest hr]
        simp [countMarkers, Nat.add_comm]
      · rw [List.singleton_append, countMarkers_cons_ne c rest hc]
        simp [countMarkers, hc]
    | c :: d :: tl =>
      by_cases hc : c = '?'
      · subst hc
        by_cases hd : d = '?'
        · subst hd
          have h2 : tl.length ≤ n := by simp at hl; omega
          rw [List.cons_append, List.cons_append, countMarkers_escape, countMarkers_escape,
            ih tl rest h2 hr]
        · have h2 : (d :: tl).length ≤ n := by simp at hl ⊢; omega
          have hm : ∀ r, d :: tl ≠ '?' :: r := by
            intro r e
            injection e with e1 _
            exact hd e1
          have hm2 : ∀ r, d :: tl ++ rest ≠ '?' :: r := by
            intro r e
            injection e with e1 _
            exact hd e1
          rw [List.cons_append, countMarkers_marker _ hm2, countMarkers_marker _ hm,
            ih (d :: tl) rest h2 hr]
          omega
      · have h2 : (d :: tl).length ≤ n := by simp at hl ⊢; omega
        rw [List.cons_append, countMarkers_cons_ne c _ hc, countMarkers_cons_ne c _ hc,
          ih (d :: tl) rest h2 hr]

theorem countMarkers_leaf (column operator value : String) (values : List String) :
    countMarkers
        (stringifyPred.leaf (strings.ReplaceAll column "?" "??") operator value values).1.data =
      (stringifyPred.leaf (strings.ReplaceAll column "?" "??") operator value values).2.length := by
  have h1 : ∀ tail : String, countMarkers (strings.ReplaceAll column "?" "??" ++ tail).data =
      countMarkers tail.data := by
    intro tail
    rw [String.data_append, strings_ReplaceAll_marker, countMarkers_escaped]
  unfold stringifyPred.leaf
  by_cases h0 : strings.ReplaceAll column "?" "??" = ""
  · rw [if_pos h0]; rfl
  rw [if_neg h0]
  by_cases hEq : operator = Eq
  · rw [if_pos hEq, h1]; rfl
  rw [if_neg hEq]
  by_cases hNe : operator = Ne
  · rw [if_pos hNe, h1]; rfl
  rw [if_neg hNe]
  by_cases hIn : operator = In
  · rw [if_pos hIn]
    simp only [stringifyPred_inLoop_eq, List.nil_append, String.append_assoc]
    rw [h1, String.data_append, countMarkers_append_left _ _ (by decide), String.data_append,
      countMarkers_join_markers _ _
        (by intro r e; exact absurd (List.cons.inj e).1 (by decide))]
    simp [countMarkers]
  rw [if_neg hIn]
  by_cases hGt : operator = Gt
  · rw [if_pos hGt, h1]; rfl
  rw [if_neg hGt]
  by_cases hGe : operator = Ge
  · rw [if_pos hGe, h1]; rfl
  rw [if_neg hGe]
  by_cases hLt : operator = Lt
  · rw [if_pos hLt, h1]; rfl
  rw [if_neg hLt]
  by_cases hLe : operator = Le
  · rw [if_pos hLe, h1]; rfl
  rw [if_neg hLe]
  by_cases hNull : operator = Null
  · rw [if_pos hNull, h1]; rfl
  rw [if_neg hNull]
  by_cases hNotNull : operator = NotNull
  · rw [if_pos hNotNull, h1]; rfl
  rw [if_neg hNotNull]
  by_cases hLike : operator = Like
  · rw [if_pos hLike, h1]; rfl
  rw [if_neg hLike]
  by_cases hILike : operator = ILike
  · rw [if_pos hILike, h1]; rfl
  rw [if_neg hILike]
  by_cases hBetween : operator = Between
  · rw [if_pos hBetween]
    match values with
    | [] => rfl
    | [_] => rfl
    | smaller :: greater :: _ =>
      show countMarkers (strings.ReplaceAll column "?" "??" ++ " BETWEEN ? AND ?").data = 2
      rw [h1]; rfl
  rw [if_neg hBetween]
  rfl


theorem countMarkers_join (sep : String) (c : Char) (tl : List Char)
    (hsep : sep.data = c :: tl) (hq : '?' ∉ sep.data) :
    ∀ frs : List (String × List String),
      (∀ f ∈ frs, countMarkers f.1.data = f.2.length) →
      countMarkers (strings.Join (frs.map Prod.fst) sep).data = (frs.flatMap Prod.snd).length := by
  intro frs
  induction frs with
  | nil => intro _; rfl
  | cons a rest ih =>
    intro h
    cases rest with
    | nil =>
      simp only [List.map_cons, List.map_nil, strings.Join, List.flatMap_cons, List.flatMap_nil,
        List.append_nil]
      exact h a (List.mem_cons_self _ _)
    | cons b r =>
      have hb := ih (fun f hf => h f (List.mem_cons_of_mem _ hf))
      have hstart : ∀ q, sep.data ++ (strings.Join (List.map Prod.fst (b :: r)) sep).data ≠
          '?' :: q := by
        intro q e
        rw [hsep] at e hq
        exact hq (by rw [(List.cons.inj e).1]; exact List.mem_cons_self _ _)
      have hJ : strings.Join (List.map Prod.fst (a :: b :: r)) sep =
          a.1 ++ sep ++ strings.Join (List.map Prod.fst (b :: r)) sep := rfl
      rw [hJ, String.data_append, String.data_append, List.append_assoc,
        countMarkers_append _ _ _ (le_refl _) hstart, countMarkers_append_left _ _ hq,
        h a (List.mem_cons_self _ _), hb]
      simp only [List.flatMap_cons, List.length_append]

mutual
theorem countMarkers_stringifyPred_body : ∀ p : Pred,
    countMarkers (stringifyPred.body p).1.1.data = (stringifyPred.body p).1.2.length
  | .mk column operator value values false grp =>
    countMarkers_leaf column (strings.TrimSpace operator) value (dedup values)
  | .mk column operator value values true none => rfl
  | .mk column operator value values true (some g) => by
    have h := countMarkers_stringifyWhere_body g
    have e : (stringifyPred.body (.mk column operator value values true (some g))).1 =
        ("(" ++ (stringifyWhere.body g).1.1 ++ ")", (stringifyWhere.body g).1.2) :=
      stringifyPred_nested_eq column operator value values (some g)
    rw [e]
    show countMarkers ("(" ++ (stringifyWhere.body g).1.1 ++ ")").data =
      (stringifyWhere.body g).1.2.length
    rw [String.data_append, String.data_append, List.append_assoc,
      countMarkers_append_left "(".data _ (by decide),
      countMarkers_append _ _ ")".data (le_refl _)
        (by intro r e; exact absurd (List.cons.inj e).1 (by decide)), h]
    rfl
theorem countMarkers_stringifyWhere_body : ∀ g : PredGrp,
    countMarkers (stringifyWhere.body g).1.1.data = (stringifyWhere.body g).1.2.length
  | .mk or preds => by
    have h := countMarkers_stringifyWhere_entries preds
    have hg := stringifyWhere_group or preds
    have hg2 : (stringifyWhere.body (.mk or preds)).1 = (stringifyWhere (some (.mk or preds))).1 :=
      rfl
    rw [hg2, hg]
    cases or with
    | true =>
      exact countMarkers_join " OR " ' ' _ rfl (by decide) _ (by
        intro f hf
        obtain ⟨e, he, hfe⟩ := List.mem_map.1 (List.mem_filter.1 hf).1
        rw [← hfe]
        exact h e he)
    | false =>
      exact countMarkers_join " AND " ' ' _ rfl (by decide) _ (by
        intro f hf
        obtain ⟨e, he, hfe⟩ := List.mem_map.1 (List.mem_filter.1 hf).1
        rw [← hfe]
        exact h e he)
theorem countMarkers_stringifyWhere_entries : ∀ preds : List (String × Option Pred),
    ∀ e ∈ preds, countMarkers (stringifyPred e.2).1.1.data = (stringifyPred e.2).1.2.length
  | [] => by
    intro e he
    exact absurd he (List.not_mem_nil _)
  | (_, none) :: rest => by
    intro e he
    rcases List.mem_cons.1 he with h1 | h1
    · rw [h1]; rfl
    · exact countMarkers_stringifyWhere_entries rest e h1
  | (_, some p) :: rest => by
    intro e he
    rcases List.mem_cons.1 he with h1 | h1
    · rw [h1]
      exact countMarkers_stringifyPred_body p
    · exact countMarkers_stringifyWhere_entries rest e h1
end


/-! ## Lemmas on the listing of a tree in key order -/

theorem PredGrp_upsert_upsert (l : List (String × Option Pred)) (k : String)
    (v w : Option Pred) :
    PredGrp.upsert (PredGrp.upsert l k v) k w = PredGrp.upsert l k w := by
  induction l with
  | nil => simp [PredGrp.upsert]
  | cons x rest ih =>
    obtain ⟨k0, p0⟩ := x
    by_cases h1 : k = k0
    · simp [PredGrp.upsert, h1]
    · by_cases h2 : k.data ≤ k0.data
      · simp [PredGrp.upsert, h1, h2]
      · simp [PredGrp.upsert, h1, h2, ih]

theorem String_data_le_antisymm (a b : String) (h1 : a.data ≤ b.data) (h2 : b.data ≤ a.data) :
    a = b :=
  String.ext (le_antisymm h1 h2)

theorem PredGrp_upsert_comm (l : List (String × Option Pred)) (k k2 : String)
    (v w : Option Pred) (h : k ≠ k2) :
    PredGrp.upsert (PredGrp.upsert l k v) k2 w = PredGrp.upsert (PredGrp.upsert l k2 w) k v := by
  have h' : k2 ≠ k := fun e => h e.symm
  induction l with
  | nil =>
    by_cases hle : k.data ≤ k2.data
    · have hle2 : ¬ k2.data ≤ k.data := fun e => h (String_data_le_antisymm _ _ hle e)
      simp [PredGrp.upsert, h, h', hle, hle2]
    · have hle2 : k2.data ≤ k.data := (le_total _ _).resolve_left hle
      simp [PredGrp.upsert, h, h', hle, hle2]
  | cons x rest ih =>
    obtain ⟨k0, p0⟩ := x
    by_cases h1 : k = k0
    · subst h1
      by_cases h3 : k2.data ≤ k.data
      · have h4 : ¬ k.data ≤ k2.data := fun e => h (String_data_le_antisymm _ _ e h3)
        simp [PredGrp.upsert, h, h', h3, h4]
      · simp [PredGrp.upsert, h, h', h3]
    · by_cases h2 : k2 = k0
      · subst h2
        by_cases h3 : k.data ≤ k2.data
        · have h4 : ¬ k2.data ≤ k.data := fun e => h (String_data_le_antisymm _ _ h3 e)
          simp [PredGrp.upsert, h, h', h3, h4]
        · simp [PredGrp.upsert, h, h', h3]
      · by_cases h3 : k.data ≤ k0.data
        · by_cases h4 : k2.data ≤ k0.data
          · by_cases hle : k.data ≤ k2.data
            · have hle2 : ¬ k2.data ≤ k.data := fun e => h (String_data_le_antisymm _ _ hle e)
              simp [PredGrp.upsert, h, h', h1, h2, h3, h4, hle, hle2]
            · have hle2 : k2.data ≤ k.data := (le_total _ _).resolve_left hle
              simp [PredGrp.upsert, h, h', h1, h2, h3, h4, hle, hle2]
          · have hle2 : ¬ k2.data ≤ k.data := fun e => h4 (le_trans e h3)
            simp [PredGrp.upsert, h, h', h1, h2, h3, h4, hle2]
        · by_cases h4 : k2.data ≤ k0.data
          · have hle : ¬ k.data ≤ k2.data := fun e => h3 (le_trans e h4)
            simp [PredGrp.upsert, h, h', h1, h2, h3, h4, hle]
          · simp [PredGrp.upsert, h, h', h1, h2, h3, h4, ih]

theorem PredGrp_lookup_upsert_eq (l : List (String × Option Pred)) (k : String)
    (v : Option Pred) : (PredGrp.upsert l k v).lookup k = some v := by
  induction l with
  | nil => simp [PredGrp.upsert, List.lookup]
  | cons x rest ih =>
    obtain ⟨k0, p0⟩ := x
    by_cases h1 : k = k0
    · simp [PredGrp.upsert, h1, List.lookup]
    · by_cases h2 : k.data ≤ k0.data
      · simp [PredGrp.upsert, h1, h2, List.lookup]
      · simp [PredGrp.upsert, h1, h2, List.lookup, String_beq_false _ _ h1, ih]

theorem PredGrp_lookup_upsert_ne (l : List (String × Option Pred)) (k k2 : String)
    (v : Option Pred) (h : k2 ≠ k) : (PredGrp.upsert l k v).lookup k2 = l.lookup k2 := by
  induction l with
  | nil => simp [PredGrp.upsert, List.lookup, String_beq_false _ _ h]
  | cons x rest ih =>
    obtain ⟨k0, p0⟩ := x
    by_cases h1 : k = k0
    · subst h1
      simp [PredGrp.upsert, List.lookup, String_beq_false _ _ h]
    · by_cases h2 : k.data ≤ k0.data
      · simp [PredGrp.upsert, h1, h2, List.lookup, String_beq_false _ _ h]
      · by_cases h3 : k2 = k0
        · simp [PredGrp.upsert, h1, h2, List.lookup, h3]
        · simp [PredGrp.upsert, h1, h2, List.lookup, String_beq_false _ _ h3, ih]

theorem Pred_canon_mk (c o v : String) (vs : List String) (n : Bool) (g : Option PredGrp) :
    Pred.canon (.mk c o v vs n g) = .mk c o v vs n (g.map PredGrp.canon) := by
  cases g <;> rfl

theorem PredGrp_canon_mk (or : Bool) (preds : List (String × Option Pred)) :
    PredGrp.canon (.mk or preds) = .mk or (PredGrp.canonEntries preds) := rfl

theorem PredGrp_canonEntries_cons (k : String) (p : Option Pred)
    (rest : List (String × Option Pred)) :
    PredGrp.canonEntries ((k, p) :: rest) =
      PredGrp.upsert (PredGrp.canonEntries rest) k (p.map Pred.canon) := by
  cases p <;> rfl

theorem PredGrp_canonEntries_setPred (ps : List (String × Option Pred)) (k : String)
    (p : Pred) :
    PredGrp.canonEntries (PredGrp.setPred ps k p) =
      PredGrp.upsert (PredGrp.canonEntries ps) k (some (Pred.canon p)) := by
  induction ps with
  | nil => rfl
  | cons x rest ih =>
    obtain ⟨k0, p0⟩ := x
    by_cases h1 : k0 = k
    · subst h1
      simp only [PredGrp.setPred, if_true, PredGrp_canonEntries_cons, Option.map_some',
        PredGrp_upsert_upsert]
    · have h2 : k ≠ k0 := fun e => h1 e.symm
      simp only [PredGrp.setPred, h1, if_false, PredGrp_canonEntries_cons, ih]
      exact PredGrp_upsert_comm _ _ _ _ _ h2

theorem PredGrp_lookup_canonEntries (ps : List (String × Option Pred)) (k : String) :
    (PredGrp.canonEntries ps).lookup k = (ps.lookup k).map (Option.map Pred.canon) := by
  induction ps with
  | nil => rfl
  | cons x rest ih =>
    obtain ⟨k0, p0⟩ := x
    rw [PredGrp_canonEntries_cons]
    by_cases h1 : k = k0
    · subst h1
      simp [PredGrp_lookup_upsert_eq, List.lookup]
    · rw [PredGrp_lookup_upsert_ne _ _ _ _ h1, ih]
      simp [List.lookup, String_beq_false _ _ h1]

theorem PredGrp_getPred_canonEntries (ps : List (String × Option Pred)) (k : String) :
    PredGrp.getPred (PredGrp.canonEntries ps) k = (PredGrp.getPred ps k).map Pred.canon := by
  unfold PredGrp.getPred
  rw [PredGrp_lookup_canonEntries]
  cases ps.lookup k <;> rfl


/-! ## Lemmas on `ParseSelect`: independence of the enumeration order -/

theorem ParseSelect_descend_visit (suffix value : String) (values : List String)
    (pfx : String) (rest : List String) (or : Bool) (preds : List (String × Option Pred)) :
    ParseSelect.descend suffix value values (pfx :: rest) (.mk or preds) =
      .mk or (PredGrp.setPred preds pfx (ParseSelect.visit suffix value values rest
        ((PredGrp.getPred preds pfx).getD (.mk "" "" "" [] false none)))) := by
  cases rest with
  | nil => exact ParseSelect_descend_single _ _ _ _ _ _
  | cons t r => exact ParseSelect_descend_cons _ _ _ _ _ _ _ _

theorem ParseSelect_descend_Preds (suffix value : String) (values : List String)
    (path : List String) (hp : path ≠ []) (b1 b2 : Bool) (preds : List (String × Option Pred)) :
    ParseSelect.descend suffix value values path (.mk b1 preds) =
      .mk b1 (ParseSelect.descend suffix value values path (.mk b2 preds)).Preds := by
  cases path with
  | nil => exact absurd rfl hp
  | cons pfx rest => rw [ParseSelect_descend_visit, ParseSelect_descend_visit]; rfl

theorem Pred_canon_fields (p : Pred) :
    (Pred.canon p).Column = p.Column ∧ (Pred.canon p).Operator = p.Operator ∧
    (Pred.canon p).Value = p.Value ∧ (Pred.canon p).Values = p.Values ∧
    (Pred.canon p).Nested = p.Nested ∧ (Pred.canon p).PredGrp = p.PredGrp.map PredGrp.canon := by
  obtain ⟨c, o, v, vs, n, g⟩ := p
  rw [Pred_canon_mk]
  exact ⟨rfl, rfl, rfl, rfl, rfl, rfl⟩

theorem Pred_canon_assign (suffix value : String) (values : List String) (p : Pred) :
    Pred.canon (ParseSelect.assign suffix value values p) =
      ParseSelect.assign suffix value values (Pred.canon p) := by
  obtain ⟨c, o, v, vs, n, g⟩ := p
  rw [Pred_canon_mk, ParseSelect_assign_eq, ParseSelect_assign_eq]
  split_ifs
  · rw [Pred_canon_mk]
  · rw [Pred_canon_mk]
  · rw [Pred_canon_mk]
  · rw [Pred_canon_mk]
    cases g with
    | none => rfl
    | some g0 =>
      obtain ⟨or0, preds0⟩ := g0
      rfl
  · rw [Pred_canon_mk]

theorem Pred_canon_getD (o1 o2 : Option Pred) (h : o1.map Pred.canon = o2.map Pred.canon) :
    Pred.canon (o1.getD (.mk "" "" "" [] false none)) =
      Pred.canon (o2.getD (.mk "" "" "" [] false none)) := by
  cases o1 <;> cases o2 <;> simp at h ⊢
  exact h

theorem PredGrp_canon_getD (o1 o2 : Option PredGrp)
    (h : o1.map PredGrp.canon = o2.map PredGrp.canon) :
    PredGrp.canon (o1.getD (.mk false [])) = PredGrp.canon (o2.getD (.mk false [])) := by
  cases o1 <;> cases o2 <;> simp at h ⊢
  exact h

/-- The round of the loop at one predicate gives the same predicate, as a Go
value, on two predicates that are the same Go value, if the loop over the
remaining segments does so on groups. -/
theorem ParseSelect_visit_canon_congr (suffix value : String) (values : List String)
    (rest : List String)
    (ih : ∀ g1 g2 : PredGrp, PredGrp.canon g1 = PredGrp.canon g2 →
      PredGrp.canon (ParseSelect.descend suffix value values rest g1) =
        PredGrp.canon (ParseSelect.descend suffix value values rest g2))
    (x1 x2 : Pred) (h : Pred.canon x1 = Pred.canon x2) :
    Pred.canon (ParseSelect.visit suffix value values rest x1) =
      Pred.canon (ParseSelect.visit suffix value values rest x2) := by
  cases rest with
  | nil =>
    show Pred.canon (ParseSelect.assign _ _ _ x1) = Pred.canon (ParseSelect.assign _ _ _ x2)
    rw [Pred_canon_assign, Pred_canon_assign, h]
  | cons t r =>
    have f1 := Pred_canon_fields x1
    have f2 := Pred_canon_fields x2
    rw [h] at f1
    obtain ⟨a1, a2, a3, a4, _, a6⟩ := f1
    obtain ⟨b1, b2, b3, b4, _, b6⟩ := f2
    show Pred.canon (.mk x1.Column x1.Operator x1.Value x1.Values true _) =
      Pred.canon (.mk x2.Column x2.Operator x2.Value x2.Values true _)
    rw [Pred_canon_mk, Pred_canon_mk, ← a1, ← a2, ← a3, ← a4, b1, b2, b3, b4]
    simp only [Option.map_some']
    rw [ih _ _ (PredGrp_canon_getD _ _ (a6.symm.trans b6))]

theorem ParseSelect_descend_canon_congr (suffix value : String) (values : List String) :
    ∀ (path : List String) (g1 g2 : PredGrp), PredGrp.canon g1 = PredGrp.canon g2 →
      PredGrp.canon (ParseSelect.descend suffix value values path g1) =
        PredGrp.canon (ParseSelect.descend suffix value values path g2) := by
  intro path
  induction path with
  | nil => intro g1 g2 h; exact h
  | cons pfx rest ih =>
    intro g1 g2 h
    obtain ⟨or1, ps1⟩ := g1
    obtain ⟨or2, ps2⟩ := g2
    rw [PredGrp_canon_mk, PredGrp_canon_mk] at h
    injection h with hor hps
    subst hor
    have hb : (PredGrp.getPred ps1 pfx).map Pred.canon = (PredGrp.getPred ps2 pfx).map Pred.canon := by
      rw [← PredGrp_getPred_canonEntries, ← PredGrp_getPred_canonEntries, hps]
    rw [ParseSelect_descend_visit, ParseSelect_descend_visit, PredGrp_canon_mk, PredGrp_canon_mk,
      PredGrp_canonEntries_setPred, PredGrp_canonEntries_setPred, hps,
      ParseSelect_visit_canon_congr suffix value values rest ih _ _ (Pred_canon_getD _ _ hb)]

theorem ParseSelect_assign_comm (s1 v1 : String) (vs1 : List String) (s2 v2 : String)
    (vs2 : List String) (h : s1 ≠ s2) (p : Pred) :
    ParseSelect.assign s1 v1 vs1 (ParseSelect.assign s2 v2 vs2 p) =
      ParseSelect.assign s2 v2 vs2 (ParseSelect.assign s1 v1 vs1 p) := by
  have d1 : ¬ col = opr := by decide
  have d2 : ¬ col = val := by decide
  have d3 : ¬ col = aor := by decide
  have d4 : ¬ opr = val := by decide
  have d5 : ¬ opr = aor := by decide
  have d6 : ¬ val = aor := by decide
  have d7 : ¬ opr = col := by decide
  have d8 : ¬ val = col := by decide
  have d9 : ¬ aor = col := by decide
  have d10 : ¬ val = opr := by decide
  have d11 : ¬ aor = opr := by decide
  have d12 : ¬ aor = val := by decide
  obtain ⟨c, o, v, vs, n, g⟩ := p
  by_cases a1 : s1 = col
  · subst a1
    by_cases b2 : s2 = opr
    · subst b2; simp [ParseSelect_assign_eq, d1, d7]
    · by_cases b3 : s2 = val
      · subst b3; simp [ParseSelect_assign_eq, d2, d8, d10]
      · by_cases b4 : s2 = aor
        · subst b4; simp [ParseSelect_assign_eq, d3, d9, d11, d12]
        · have b1 : ¬ s2 = col := fun e => h e.symm
          simp [ParseSelect_assign_eq, b1, b2, b3, b4]
  · by_cases a2 : s1 = opr
    · subst a2
      by_cases b1 : s2 = col
      · subst b1; simp [ParseSelect_assign_eq, d1, d7]
      · by_cases b3 : s2 = val
        · subst b3; simp [ParseSelect_assign_eq, d4, d8, d10, d7]
        · by_cases b4 : s2 = aor
          · subst b4; simp [ParseSelect_assign_eq, d5, d9, d11, d12, d7]
          · have b2 : ¬ s2 = opr := fun e => h e.symm
            simp [ParseSelect_assign_eq, b1, b2, b3, b4, d7]
    · by_cases a3 : s1 = val
      · subst a3
        by_cases b1 : s2 = col
        · subst b1; simp [ParseSelect_assign_eq, d2, d8, d10]
        · by_cases b2 : s2 = opr
          · subst b2; simp [ParseSelect_assign_eq, d4, d8, d10, d7]
          · by_cases b4 : s2 = aor
            · subst b4; simp [ParseSelect_assign_eq, d6, d9, d11, d12, d8, d10]
            · have b3 : ¬ s2 = val := fun e => h e.symm
              simp [ParseSelect_assign_eq, b1, b2, b3, b4, d8, d10]
      · by_cases a4 : s1 = aor
        · subst a4
          by_cases b1 : s2 = col
          · subst b1; simp [ParseSelect_assign_eq, d3, d9, d11, d12]
          · by_cases b2 : s2 = opr
            · subst b2; simp [ParseSelect_assign_eq, d5, d9, d11, d12, d7]
            · by_cases b3 : s2 = val
              · subst b3; simp [ParseSelect_assign_eq, d6, d9, d11, d12, d8, d10]
              · have b4 : ¬ s2 = aor := fun e => h e.symm
                simp [ParseSelect_assign_eq, b1, b2, b3, b4, d9, d11, d12]
        · have hid : ∀ q : Pred, ParseSelect.assign s1 v1 vs1 q = q := by
            intro q
            obtain ⟨c1, o1, w1, ws1, n1, g1⟩ := q
            simp [ParseSelect_assign_eq, a1, a2, a3, a4]
          rw [hid, hid]


theorem ParseSelect_visit_pass (suffix value : String) (values : List String) (t : String)
    (r : List String) (x : Pred) :
    ParseSelect.visit suffix value values (t :: r) x =
      .mk x.Column x.Operator x.Value x.Values true
        (some (ParseSelect.descend suffix value values (t :: r)
          (x.PredGrp.getD (.mk false [])))) := rfl

theorem ParseSelect_assign_pass (sa va : String) (vsa : List String) (sb vb : String)
    (vsb : List String) (t : String) (r : List String) (x : Pred) :
    ParseSelect.assign sa va vsa (ParseSelect.visit sb vb vsb (t :: r) x) =
      ParseSelect.visit sb vb vsb (t :: r) (ParseSelect.assign sa va vsa x) := by
  obtain ⟨c, o, v, vs, n, g⟩ := x
  rw [ParseSelect_visit_pass, ParseSelect_visit_pass, ParseSelect_assign_eq,
    ParseSelect_assign_eq]
  simp only [Pred.Column, Pred.Operator, Pred.Value, Pred.Values, Pred.PredGrp]
  split_ifs
  · rfl
  · rfl
  · rfl
  · simp only [Option.map_some', Option.getD_some, Pred.mk.injEq, true_and, Option.some.injEq]
    cases g with
    | none =>
      exact (ParseSelect_descend_Preds sb vb vsb (t :: r) (by simp) _ false []).symm
    | some g0 =>
      obtain ⟨or0, ps0⟩ := g0
      exact (ParseSelect_descend_Preds sb vb vsb (t :: r) (by simp) _ or0 ps0).symm
  · rfl

/-- The rounds of the loop for two different keys at one predicate give the
same predicate, as a Go value, in either order, if the loops over the
remaining segments do so on groups. -/
theorem ParseSelect_visit_canon_comm (sa va : String) (vsa : List String) (sb vb : String)
    (vsb : List String) (ra rb : List String) (hne : ra = rb → sa ≠ sb)
    (ih : ∀ g : PredGrp,
      PredGrp.canon (ParseSelect.descend sa va vsa ra (ParseSelect.descend sb vb vsb rb g)) =
        PredGrp.canon (ParseSelect.descend sb vb vsb rb (ParseSelect.descend sa va vsa ra g)))
    (x : Pred) :
    Pred.canon (ParseSelect.visit sa va vsa ra (ParseSelect.visit sb vb vsb rb x)) =
      Pred.canon (ParseSelect.visit sb vb vsb rb (ParseSelect.visit sa va vsa ra x)) := by
  cases ra with
  | nil =>
    cases rb with
    | nil =>
      show Pred.canon (ParseSelect.assign _ _ _ (ParseSelect.assign _ _ _ x)) =
        Pred.canon (ParseSelect.assign _ _ _ (ParseSelect.assign _ _ _ x))
      rw [ParseSelect_assign_comm _ _ _ _ _ _ (hne rfl)]
    | cons t r =>
      show Pred.canon (ParseSelect.assign _ _ _ (ParseSelect.visit _ _ _ (t :: r) x)) =
        Pred.canon (ParseSelect.visit _ _ _ (t :: r) (ParseSelect.assign _ _ _ x))
      rw [ParseSelect_assign_pass]
  | cons t r =>
    cases rb with
    | nil =>
      show Pred.canon (ParseSelect.visit _ _ _ (t :: r) (ParseSelect.assign _ _ _ x)) =
        Pred.canon (ParseSelect.assign _ _ _ (ParseSelect.visit _ _ _ (t :: r) x))
      rw [ParseSelect_assign_pass]
    | cons t2 r2 =>
      rw [ParseSelect_visit_pass sb, ParseSelect_visit_pass sa, ParseSelect_visit_pass sa,
        ParseSelect_visit_pass sb]
      simp only [Pred.Column, Pred.Operator, Pred.Value, Pred.Values, Pred.PredGrp,
        Option.getD_some, Pred_canon_mk, Option.map_some']
      rw [ih]

theorem ParseSelect_descend_canon_comm (sa va : String) (vsa : List String) (sb vb : String)
    (vsb : List String) :
    ∀ (pa pb : List String) (g : PredGrp), (pa = pb → sa ≠ sb) →
      PredGrp.canon (ParseSelect.descend sa va vsa pa (ParseSelect.descend sb vb vsb pb g)) =
        PredGrp.canon (ParseSelect.descend sb vb vsb pb (ParseSelect.descend sa va vsa pa g)) := by
  intro pa
  induction pa with
  | nil => intro pb g _; rfl
  | cons a ra ih =>
    intro pb g hne
    cases pb with
    | nil => rfl
    | cons b rb =>
      obtain ⟨or, ps⟩ := g
      rw [ParseSelect_descend_visit sb, ParseSelect_descend_visit sa,
        ParseSelect_descend_visit sa, ParseSelect_descend_visit sb]
      by_cases hab : a = b
      · subst hab
        have hne2 : ra = rb → sa ≠ sb := fun e => hne (by rw [e])
        rw [PredGrp_getPred_setPred_eq, PredGrp_getPred_setPred_eq]
        simp only [Option.getD_some, PredGrp_canon_mk, PredGrp_canonEntries_setPred,
          PredGrp_upsert_upsert]
        rw [ParseSelect_visit_canon_comm sa va vsa sb vb vsb ra rb hne2
          (fun g => ih rb g hne2)]
      · have hba : b ≠ a := fun e => hab e.symm
        rw [PredGrp_getPred_setPred_ne _ _ _ _ hab, PredGrp_getPred_setPred_ne _ _ _ _ hba]
        simp only [PredGrp_canon_mk, PredGrp_canonEntries_setPred]
        rw [PredGrp_upsert_comm _ _ _ _ _ hba]


theorem ParseSelect_step_canon_congr (params : ParamMap) (e : String × List String)
    (st1 st2 : ParseSelect.State) (h : PredGrp.canon st1.Where = PredGrp.canon st2.Where) :
    PredGrp.canon (ParseSelect.step params st1 e).Where =
      PredGrp.canon (ParseSelect.step params st2 e).Where := by
  rw [ParseSelect_step_Where, ParseSelect_step_Where]
  split_ifs
  · exact ParseSelect_descend_canon_congr _ _ _ _ _ _ h
  · exact h

theorem ParseSelect_step_canon_comm (params : ParamMap) (x y : String × List String)
    (hxy : x.1 ≠ y.1) (st : ParseSelect.State) :
    PredGrp.canon (ParseSelect.step params (ParseSelect.step params st x) y).Where =
      PredGrp.canon (ParseSelect.step params (ParseSelect.step params st y) x).Where := by
  rw [ParseSelect_step_Where params (ParseSelect.step params st x) y,
    ParseSelect_step_Where params st x,
    ParseSelect_step_Where params (ParseSelect.step params st y) x,
    ParseSelect_step_Where params st y]
  by_cases hx : (strings.Split x.1 '.').getLastD "" = col ∨
      (strings.Split x.1 '.').getLastD "" = opr ∨ (strings.Split x.1 '.').getLastD "" = val ∨
      (strings.Split x.1 '.').getLastD "" = aor
  · by_cases hy : (strings.Split y.1 '.').getLastD "" = col ∨
        (strings.Split y.1 '.').getLastD "" = opr ∨ (strings.Split y.1 '.').getLastD "" = val ∨
        (strings.Split y.1 '.').getLastD "" = aor
    · simp only [if_pos hx, if_pos hy]
      apply ParseSelect_descend_canon_comm
      intro hp hs
      apply hxy
      apply strings_Split_injective '.'
      calc strings.Split x.1 '.'
          = (strings.Split x.1 '.').dropLast ++ [(strings.Split x.1 '.').getLastD ""] :=
            List_eq_dropLast_append_getLastD _ (strings_Split_ne_nil x.1 '.')
        _ = (strings.Split y.1 '.').dropLast ++ [(strings.Split y.1 '.').getLastD ""] := by
            rw [hp, hs]
        _ = strings.Split y.1 '.' :=
            (List_eq_dropLast_append_getLastD _ (strings_Split_ne_nil y.1 '.')).symm
    · simp only [if_pos hx, if_neg hy]
  · simp only [if_neg hx]

theorem ParseSelect_fold_canon_congr (params : ParamMap) :
    ∀ (l : List (String × List String)) (st1 st2 : ParseSelect.State),
      PredGrp.canon st1.Where = PredGrp.canon st2.Where →
      PredGrp.canon (l.foldl (ParseSelect.step params) st1).Where =
        PredGrp.canon (l.foldl (ParseSelect.step params) st2).Where := by
  intro l
  induction l with
  | nil => intro st1 st2 h; exact h
  | cons e rest ih =>
    intro st1 st2 h
    rw [List.foldl_cons, List.foldl_cons]
    exact ih _ _ (ParseSelect_step_canon_congr params e st1 st2 h)

/-- The tree the rounds of the loop build over two enumerations of the same
entries is the same Go value. -/
theorem ParseSelect_fold_canon_perm (params : ParamMap) (l1 l2 : List (String × List String))
    (hp : l1.Perm l2) :
    (l1.map Prod.fst).Nodup → ∀ st1 st2 : ParseSelect.State,
      PredGrp.canon st1.Where = PredGrp.canon st2.Where →
      PredGrp.canon (l1.foldl (ParseSelect.step params) st1).Where =
        PredGrp.canon (l2.foldl (ParseSelect.step params) st2).Where := by
  induction hp with
  | nil => intro _ st1 st2 h; exact h
  | cons x _ ih =>
    intro hnd st1 st2 h
    rw [List.foldl_cons, List.foldl_cons]
    rw [List.map_cons, List.nodup_cons] at hnd
    exact ih hnd.2 _ _ (ParseSelect_step_canon_congr params x st1 st2 h)
  | swap x y l =>
    intro hnd st1 st2 h
    rw [List.foldl_cons, List.foldl_cons, List.foldl_cons, List.foldl_cons]
    apply ParseSelect_fold_canon_congr
    have hyx : y.1 ≠ x.1 := by
      rw [List.map_cons, List.map_cons, List.nodup_cons] at hnd
      intro e
      exact hnd.1 (by rw [e]; exact List.mem_cons_self _ _)
    rw [ParseSelect_step_canon_comm params y x hyx st1]
    exact ParseSelect_step_canon_congr params y _ _
      (ParseSelect_step_canon_congr params x st1 st2 h)
  | trans h1 _ ih1 ih2 =>
    intro hnd st1 st2 h
    have hnd2 := (h1.map Prod.fst).nodup_iff.1 hnd
    exact (ih1 hnd st1 st1 rfl).trans (ih2 hnd2 st1 st2 h)

theorem ParamMap_get_perm (p1 p2 : ParamMap) (hp : p1.Perm p2) (hnd : (p1.map Prod.fst).Nodup)
    (name : String) : p2.get name = p1.get name := by
  unfold ParamMap.get
  rw [lookup_perm_nodup p1 p2 name hp hnd]

theorem ParseSelect_step_perm (p1 p2 : ParamMap) (hp : p1.Perm p2)
    (hnd : (p1.map Prod.fst).Nodup) : ParseSelect.step p2 = ParseSelect.step p1 := by
  have hv : ParseSelect.paramvalue p2 = ParseSelect.paramvalue p1 := by
    funext name
    unfold ParseSelect.paramvalue
    rw [ParamMap_get_perm p1 p2 hp hnd]
  funext st e
  unfold ParseSelect.step
  rw [hv]

/-- C24: for every parameter map (its keys distinct) and any two enumerations
of it, `ParseSelect` builds the same query: the same select list, source,
order list, limit and offset, and the same predicate tree as a Go value, in
which a map has no order (the two trees are equal once the entries of every
`Preds` map are listed in ascending key order; in the lists of this model they
stand in the order the keys were created, which follows the enumeration). -/
theorem ParseSelect_enumeration_independent (params1 params2 : ParamMap)
    (hnd : (params1.map Prod.fst).Nodup) (hp : params1.Perm params2) :
    (ParseSelect params1).Select = (ParseSelect params2).Select ∧
    (ParseSelect params1).From = (ParseSelect params2).From ∧
    (ParseSelect params1).OrderBys = (ParseSelect params2).OrderBys ∧
    (ParseSelect params1).Limit = (ParseSelect params2).Limit ∧
    (ParseSelect params1).Offset = (ParseSelect params2).Offset ∧
    (ParseSelect params1).Where.map PredGrp.canon =
      (ParseSelect params2).Where.map PredGrp.canon := by
  have hg := ParamMap_get_perm params1 params2 hp hnd
  have hnd2 : (params2.map Prod.fst).Nodup := (hp.map Prod.fst).nodup_iff.1 hnd
  refine ⟨?_, ?_, ?_, ?_, ?_, ?_⟩
  · show dedup (removeEmptyStrings (params1.get Sel)) = dedup (removeEmptyStrings (params2.get Sel))
    rw [hg]
  · show ParseSelect.paramvalue params1 Frm = ParseSelect.paramvalue params2 Frm
    unfold ParseSelect.paramvalue
    rw [hg]
  · have hr : (resolvedOrders params1).Perm (resolvedOrders params2) := hp.filterMap _
    have hrn : ((resolvedOrders params1).map Prod.fst).Nodup :=
      hnd.sublist (resolvedOrders_keys_sublist params1)
    rw [ParseSelect_OrderBys_eq params1 hnd, ParseSelect_OrderBys_eq params2 hnd2,
      sort_Strings_perm _ _ (hr.map Prod.fst)]
    apply List.map_congr_left
    intro k _
    rw [lookup_perm_nodup _ _ k hr hrn]
  · show ParseSelect.paramvalueInt params1 Lim = ParseSelect.paramvalueInt params2 Lim
    unfold ParseSelect.paramvalueInt
    rw [hg]
  · show ParseSelect.paramvalueInt params1 Off = ParseSelect.paramvalueInt params2 Off
    unfold ParseSelect.paramvalueInt
    rw [hg]
  · show some (PredGrp.canon (params1.foldl (ParseSelect.step params1) _).Where) =
      some (PredGrp.canon (params2.foldl (ParseSelect.step params2) _).Where)
    rw [ParseSelect_step_perm params1 params2 hp hnd,
      ParseSelect_fold_canon_perm params1 params1 params2 hp hnd _ _ rfl]

/-- Two enumerations of one parameter map on which C24 applies: the two trees
list the keys of the root group in different orders (the order of creation),
and their listings in key order are equal. -/
theorem ParseSelect_enumeration_independent_witness :
    (List.map Prod.fst [("2.COL", ["b"]), ("4.AOR", ["OR"]), ("4.1.COL", ["a"]),
      ("1.ORD", ["x", "ASC"])]).Nodup ∧
    List.Perm [("2.COL", ["b"]), ("4.AOR", ["OR"]), ("4.1.COL", ["a"]), ("1.ORD", ["x", "ASC"])]
      [("1.ORD", ["x", "ASC"]), ("4.1.COL", ["a"]), ("4.AOR", ["OR"]), ("2.COL", ["b"])] ∧
    (ParseSelect [("2.COL", ["b"]), ("4.AOR", ["OR"]), ("4.1.COL", ["a"]),
      ("1.ORD", ["x", "ASC"])]).Where.map (fun g => g.Preds.map Prod.fst) = some ["2", "4"] ∧
    (ParseSelect [("1.ORD", ["x", "ASC"]), ("4.1.COL", ["a"]), ("4.AOR", ["OR"]),
      ("2.COL", ["b"])]).Where.map (fun g => g.Preds.map Prod.fst) = some ["4", "2"] ∧
    (ParseSelect [("2.COL", ["b"]), ("4.AOR", ["OR"]), ("4.1.COL", ["a"]),
      ("1.ORD", ["x", "ASC"])]).Where.map PredGrp.canon =
    (ParseSelect [("1.ORD", ["x", "ASC"]), ("4.1.COL", ["a"]), ("4.AOR", ["OR"]),
      ("2.COL", ["b"])]).Where.map PredGrp.canon :=
  ⟨by decide, by decide, by decide, by decide,
    (ParseSelect_enumeration_independent
      [("2.COL", ["b"]), ("4.AOR", ["OR"]), ("4.1.COL", ["a"]), ("1.ORD", ["x", "ASC"])]
      [("1.ORD", ["x", "ASC"]), ("4.1.COL", ["a"]), ("4.AOR", ["OR"]), ("2.COL", ["b"])]
      (by decide) (by decide)).2.2.2.2.2⟩

/-! ## The markers and the arguments of a predicate clause -/

theorem scanPlaceholders_join (sep : String) (c : Char) (tl : List Char)
    (hsep : sep.data = c :: tl) (hq : '?' ∉ sep.data) :
    ∀ (frs : List (String × List String)) (k : Nat),
      (∀ f ∈ frs, countMarkers f.1.data = f.2.length) →
      scanPlaceholders k (strings.Join (frs.map Prod.fst) sep).data =
        (strings.Join (numberFragments k frs) sep).data := by
  intro frs
  induction frs with
  | nil => intro k _; rfl
  | cons a rest ih =>
    intro k h
    cases rest with
    | nil => rfl
    | cons b r =>
      have hb := ih (k + a.2.length) (fun f hf => h f (List.mem_cons_of_mem _ hf))
      have hstart : ∀ q, sep.data ++ (strings.Join (List.map Prod.fst (b :: r)) sep).data ≠
          '?' :: q := by
        intro q e
        rw [hsep] at e hq
        exact hq (by rw [(List.cons.inj e).1]; exact List.mem_cons_self _ _)
      have hJ : strings.Join (List.map Prod.fst (a :: b :: r)) sep =
          a.1 ++ sep ++ strings.Join (List.map Prod.fst (b :: r)) sep := rfl
      have hN : strings.Join (numberFragments k (a :: b :: r)) sep =
          ⟨scanPlaceholders k a.1.data⟩ ++ sep ++
            strings.Join (numberFragments (k + a.2.length) (b :: r)) sep := rfl
      rw [hJ, hN, String.data_append, String.data_append, String.data_append,
        String.data_append, List.append_assoc,
        scanPlaceholders_append _ _ _ k (le_refl _) hstart,
        scanPlaceholders_append_left _ _ _ hq, h a (List.mem_cons_self _ _), hb,
        List.append_assoc]

/-- C25: for every predicate group (any nesting depth, any column strings),
the clause text returned by `stringifyWhere`, read left to right with `??`
counted as an escape, contains exactly as many non-escaped `?` markers as the
length of the argument list it returns, and so does the text of every
predicate; the arguments of a group are those of its non-empty fragments, in
the order in which the fragments stand in the text, so that in the numbered
text the markers of each fragment carry the numbers of the positions its
arguments have in the argument list. -/
theorem stringifyWhere_markers_match :
    (∀ grp : Option PredGrp,
      countMarkers (stringifyWhere grp).1.1.data = (stringifyWhere grp).1.2.length) ∧
    (∀ pred : Option Pred,
      countMarkers (stringifyPred pred).1.1.data = (stringifyPred pred).1.2.length) ∧
    (∀ (or : Bool) (preds : List (String × Option Pred)),
      (stringifyWhere (some (.mk or preds))).1.2 =
        ((preds.map (fun e => (stringifyPred e.2).1)).filter (fun f => f.1 ≠ "")).flatMap
          Prod.snd ∧
      ReplacePlaceholders (stringifyWhere (some (.mk or preds))).1.1 =
        strings.Join
          (numberFragments 0
            ((preds.map (fun e => (stringifyPred e.2).1)).filter (fun f => f.1 ≠ "")))
          (if or then " OR " else " AND ")) := by
  refine ⟨?_, ?_, ?_⟩
  · intro grp
    cases grp with
    | none => rfl
    | some g => exact countMarkers_stringifyWhere_body g
  · intro pred
    cases pred with
    | none => rfl
    | some p => exact countMarkers_stringifyPred_body p
  · intro or preds
    have hfr : ∀ f ∈ (preds.map (fun e => (stringifyPred e.2).1)).filter (fun f => f.1 ≠ ""),
        countMarkers f.1.data = f.2.length := by
      intro f hf
      obtain ⟨e, he, hfe⟩ := List.mem_map.1 (List.mem_filter.1 hf).1
      rw [← hfe]
      exact countMarkers_stringifyWhere_entries preds e he
    rw [stringifyWhere_group, ReplacePlaceholders_eq_scan]
    refine ⟨rfl, ?_⟩
    apply String.ext
    cases or with
    | true => exact scanPlaceholders_join " OR " ' ' _ rfl (by decide) _ 0 hfr
    | false => exact scanPlaceholders_join " AND " ' ' _ rfl (by decide) _ 0 hfr

/-! ## `Subst`, `ResolvePage` and `DBSelectWithStats` -/

theorem Subst_ends_with_terminator (query : String) (args : List Arg) :
    strings.HasSuffix (Subst query args) ";" = true := by
  unfold Subst
  simp only
  split_ifs with h
  · exact h
  · unfold strings.HasSuffix
    rw [List.isSuffixOf_iff_suffix, String.data_append]
    exact List.suffix_append _ _

/-- C21, evaluated at failing inputs: for the text `Sql` returns for an IN
list of ten values, `Subst` writes the literal of the first argument followed
by `0` at the marker `$10`, where the replacement of each marker by its own
argument has the literal of the tenth; and for a first argument that contains
`$2`, `Subst` replaces that `$2` inside the literal it has just put in.  For
a text with three markers and no `$` in an argument the two agree, and what
`Subst` returns always ends with `;`. -/
theorem Subst_marker_ten :
    (ParseSelect [("1.COL", ["c"]), ("1.OPR", ["IN"]),
        ("1.VAL", ["a", "b", "c", "d", "e", "f", "g", "h", "i", "j"])]).Sql [] =
      ("WHERE c IN ($1, $2, $3, $4, $5, $6, $7, $8, $9, $10)",
        ["a", "b", "c", "d", "e", "f", "g", "h", "i", "j"]) ∧
    Subst "WHERE c IN ($1, $2, $3, $4, $5, $6, $7, $8, $9, $10)"
        (["a", "b", "c", "d", "e", "f", "g", "h", "i", "j"].map Arg.str) =
      "WHERE c IN ('a', 'b', 'c', 'd', 'e', 'f', 'g', 'h', 'i', 'a'0);" ∧
    specSubst "WHERE c IN ($1, $2, $3, $4, $5, $6, $7, $8, $9, $10)"
        (["a", "b", "c", "d", "e", "f", "g", "h", "i", "j"].map Arg.str) =
      "WHERE c IN ('a', 'b', 'c', 'd', 'e', 'f', 'g', 'h', 'i', 'j');" ∧
    Subst "x = $1 AND y = $2" [.str "$2", .str "b"] = "x = ''b'' AND y = 'b';" ∧
    specSubst "x = $1 AND y = $2" [.str "$2", .str "b"] = "x = '$2' AND y = 'b';" ∧
    Subst "x = $1 AND y = $2 AND z = $3;" [.str "a", .int (-7), .nil] =
      "x = 'a' AND y = -7 AND z = NULL;" ∧
    specSubst "x = $1 AND y = $2 AND z = $3;" [.str "a", .int (-7), .nil] =
      "x = 'a' AND y = -7 AND z = NULL;" ∧
    (∀ (query : String) (args : List Arg), strings.HasSuffix (Subst query args) ";" = true) := by
  refine ⟨by decide, by decide, by decide, by decide, by decide, by decide, by decide,
    Subst_ends_with_terminator⟩


theorem ParamMap_lookup_set_eq (params : ParamMap) (key : String) (values : List String) :
    (params.set key values).lookup key = some values := by
  induction params with
  | nil => simp [ParamMap.set, List.lookup]
  | cons x rest ih =>
    obtain ⟨k, vs⟩ := x
    by_cases h : k = key
    · simp [ParamMap.set, h, List.lookup]
    · have h2 : key ≠ k := fun e => h e.symm
      simp [ParamMap.set, h, List.lookup, String_beq_false _ _ h2, ih]

theorem ParamMap_lookup_set_ne (params : ParamMap) (key other : String) (values : List String)
    (h : other ≠ key) : (params.set key values).lookup other = params.lookup other := by
  induction params with
  | nil => simp [ParamMap.set, List.lookup, String_beq_false _ _ h]
  | cons x rest ih =>
    obtain ⟨k, vs⟩ := x
    by_cases h1 : k = key
    · subst h1
      simp [ParamMap.set, List.lookup, String_beq_false _ _ h]
    · by_cases h2 : other = k
      · simp [ParamMap.set, h1, List.lookup, h2]
      · simp [ParamMap.set, h1, List.lookup, String_beq_false _ _ h2, ih]

theorem ResolvePage_raise_none (params : ParamMap) (name : String) (current : Int) :
    ResolvePage.raise params name current = none ↔ params.lookup name = some [] := by
  unfold ResolvePage.raise
  cases h : params.lookup name with
  | none => simp
  | some vs =>
    cases vs with
    | nil => simp
    | cons v rest => simp

theorem ResolvePage_raise_some (params : ParamMap) (name : String) (current r : Int)
    (hc : 0 ≤ current) (h : ResolvePage.raise params name current = some r) :
    r = max current (((params.get name).head?.map (fun v => (strconv.Atoi v).1)).getD 0) := by
  unfold ResolvePage.raise at h
  unfold ParamMap.get
  cases hl : params.lookup name with
  | none =>
    rw [hl] at h
    simp only [Option.some.injEq] at h
    simp [← h, hc]
  | some vs =>
    rw [hl] at h
    cases vs with
    | nil => simp at h
    | cons v rest =>
      simp only [Option.some.injEq] at h
      simp only [Option.getD_some, List.head?_cons, Option.map_some']
      rw [← h]
      split_ifs with hlt
      · exact (max_eq_right (le_of_lt hlt)).symm
      · exact (max_eq_left (not_lt.1 hlt)).symm

/-- C23, evaluated at failing inputs, with what the code does in general: for
a map in which LIM (or PAGE) is present with an empty value list `ResolvePage`
does not return, it indexes the empty list (`none`); the only other argument
for which it does not return is the nil map, to which it cannot assign.  When
it returns, OFF maps to the decimal form of limit times (page - 1) computed in
`int` (for the limit 2^62 and the page 3 that is -2^63), with limit the larger
of 5 and the parsed first value of LIM and page the larger of 1 and the parsed
first value of PAGE (the value `strconv.Atoi` returns, its error dropped; 0
for a missing key), and every other key maps to what it mapped to before. -/
theorem ResolvePage_empty_list_panics :
    ResolvePage (some [("LIM", [])]) = none ∧
    ResolvePage (some [("LIM", ["10"]), ("PAGE", [])]) = none ∧
    ResolvePage (some [("LIM", ["x"]), ("PAGE", ["0"]), ("OFF", ["7"])]) =
      some [("LIM", ["x"]), ("PAGE", ["0"]), ("OFF", ["0"])] ∧
    ResolvePage (some [("LIM", ["10"]), ("PAGE", ["3"])]) =
      some [("LIM", ["10"]), ("PAGE", ["3"]), ("OFF", ["20"])] ∧
    ResolvePage (some [("LIM", ["4611686018427387904"]), ("PAGE", ["3"])]) =
      some [("LIM", ["4611686018427387904"]), ("PAGE", ["3"]),
        ("OFF", ["-9223372036854775808"])] ∧
    ResolvePage none = none ∧
    ResolvePage (some []) = some [("OFF", ["0"])] ∧
    (∀ params : Option ParamMap, ResolvePage params = none ↔
      (params = none ∨ (params.getD []).lookup Lim = some [] ∨
        (params.getD []).lookup Page = some [])) ∧
    (∀ params out : ParamMap, ResolvePage (some params) = some out →
      out.lookup Off = some [strconv.Itoa (int64.wrap
        (max 5 (((params.get Lim).head?.map (fun v => (strconv.Atoi v).1)).getD 0) *
          int64.wrap
            (max 1 (((params.get Page).head?.map (fun v => (strconv.Atoi v).1)).getD 0) - 1)))] ∧
      ∀ key, key ≠ Off → out.lookup key = params.lookup key) := by
  refine ⟨by decide, by decide, by decide, by decide, by decide, by decide, by decide, ?_, ?_⟩
  · intro params
    unfold ResolvePage
    simp only
    cases h1 : ResolvePage.raise (params.getD []) Lim 5 with
    | none =>
      simp only [true_iff]
      exact Or.inr (Or.inl ((ResolvePage_raise_none _ _ _).1 h1))
    | some limit =>
      have hl : (params.getD []).lookup Lim ≠ some [] := by
        intro e
        rw [(ResolvePage_raise_none _ _ _).2 e] at h1
        exact Option.noConfusion h1
      cases h2 : ResolvePage.raise (params.getD []) Page 1 with
      | none =>
        simp only [true_iff]
        exact Or.inr (Or.inr ((ResolvePage_raise_none _ _ _).1 h2))
      | some page =>
        have hp : (params.getD []).lookup Page ≠ some [] := by
          intro e
          rw [(ResolvePage_raise_none _ _ _).2 e] at h2
          exact Option.noConfusion h2
        cases params with
        | none => simp
        | some m =>
          simp only [Option.getD_some] at hl hp
          simp [hl, hp]
  · intro params out h
    unfold ResolvePage at h
    simp only [Option.getD_some] at h
    cases h1 : ResolvePage.raise params Lim 5 with
    | none => rw [h1] at h; exact Option.noConfusion h
    | some limit =>
      cases h2 : ResolvePage.raise params Page 1 with
      | none => rw [h1, h2] at h; exact Option.noConfusion h
      | some page =>
        rw [h1, h2] at h
        simp only [Option.some.injEq] at h
        rw [← h, ← ResolvePage_raise_some params Lim 5 limit (by decide) h1,
          ← ResolvePage_raise_some params Page 1 page (by decide) h2]
        exact ⟨ParamMap_lookup_set_eq _ _ _, fun key hk => ParamMap_lookup_set_ne _ _ _ _ hk⟩

/-- A parameter map with values for LIM and PAGE on which the general part of
C23 applies. -/
theorem ResolvePage_empty_list_panics_witness :
    ResolvePage (some [("LIM", ["10"]), ("PAGE", ["3"])]) =
      some [("LIM", ["10"]), ("PAGE", ["3"]), ("OFF", ["20"])] ∧
    List.lookup Off [("LIM", ["10"]), ("PAGE", ["3"]), ("OFF", ["20"])] = some ["20"] :=
  ⟨by decide,
    ((ResolvePage_empty_list_panics.2.2.2.2.2.2.2.2 [("LIM", ["10"]), ("PAGE", ["3"])]
      [("LIM", ["10"]), ("PAGE", ["3"]), ("OFF", ["20"])] (by decide)).1).trans (by decide)⟩


/-! ## The arithmetic of `DBSelectWithStats` -/

theorem float64_bitLen_zero (fuel : Nat) : float64.bitLen fuel 0 = 0 := by
  cases fuel <;> simp [float64.bitLen]

theorem float64_bitLen_lt (fuel : Nat) : ∀ n : Nat, n < 2 ^ fuel →
    n < 2 ^ float64.bitLen fuel n := by
  induction fuel with
  | zero => intro n h; simpa [float64.bitLen] using h
  | succ fuel ih =>
    intro n h
    by_cases h0 : n = 0
    · subst h0; simp [float64.bitLen]
    · have h2 : n / 2 < 2 ^ fuel := by
        rw [Nat.div_lt_iff_lt_mul (by decide)]
        rw [pow_succ] at h
        exact h
      have h3 := ih (n / 2) h2
      simp only [float64.bitLen, h0, if_false, pow_succ]
      omega

theorem float64_bitLen_le (fuel : Nat) : ∀ n k : Nat, n < 2 ^ k →
    float64.bitLen fuel n ≤ k := by
  induction fuel with
  | zero => intro n k _; simp [float64.bitLen]
  | succ fuel ih =>
    intro n k h
    by_cases h0 : n = 0
    · subst h0; simp [float64.bitLen]
    · cases k with
      | zero => simp at h; exact absurd h h0
      | succ k =>
        have h2 : n / 2 < 2 ^ k := by
          rw [Nat.div_lt_iff_lt_mul (by decide)]
          rw [pow_succ] at h
          exact h
        have h3 := ih (n / 2) k h2
        simp only [float64.bitLen, h0, if_false]
        omega

theorem float64_bitLen_pos (fuel n : Nat) (h : 0 < n) : 0 < float64.bitLen (fuel + 1) n := by
  have h0 : n ≠ 0 := Nat.pos_iff_ne_zero.1 h
  simp [float64.bitLen, h0]

theorem float64_roundDiv_bounds (n b : Nat) :
    n / b ≤ float64.roundDiv n b ∧ float64.roundDiv n b ≤ n / b + 1 := by
  unfold float64.roundDiv
  split_ifs <;> omega

/-- Rounding the quotient to a multiple of `1 / 2 ^ s` and then taking the least
integer not below it gives the least integer not below the quotient, when the
divisor is below `2 ^ (s + 1)`. -/
theorem float64_roundDiv_ceil (a b s : Nat) (hb : 0 < b) (hs : 1 ≤ s) (hK : b < 2 ^ (s + 1)) :
    (float64.roundDiv (a * 2 ^ s) b + 2 ^ s - 1) / 2 ^ s = (a + b - 1) / b := by
  have h2P : 2 ≤ 2 ^ s := by
    calc 2 = 2 ^ 1 := rfl
      _ ≤ 2 ^ s := Nat.pow_le_pow_right (by decide) hs
  rw [pow_succ] at hK
  generalize 2 ^ s = P at *
  have hP : 0 < P := by omega
  have ha : b * (a / b) + a % b = a := Nat.div_add_mod a b
  have hrem : a % b < b := Nat.mod_lt _ hb
  generalize a / b = q at *
  generalize a % b = rem at *
  subst ha
  have hbnd := float64_roundDiv_bounds ((b * q + rem) * P) b
  by_cases h0 : rem = 0
  · subst h0
    have hn : (b * q + 0) * P = b * (q * P) := by ring
    have hF : (b * q + 0) * P / b = q * P := by rw [hn]; exact Nat.mul_div_cancel_left _ hb
    have hR : (b * q + 0) * P % b = 0 := by rw [hn]; exact Nat.mul_mod_right _ _
    have hm : float64.roundDiv ((b * q + 0) * P) b = q * P := by
      unfold float64.roundDiv
      rw [hR, hF]
      have : ¬ (2 * 0 > b ∨ 2 * 0 = b ∧ q * P % 2 = 1) := by omega
      rw [if_neg this]
    rw [hm]
    have e1 : (q * P + P - 1) / P = q := by
      apply Nat.div_eq_of_lt_le
      · omega
      · rw [Nat.succ_mul]; omega
    have e2 : (b * q + 0 + b - 1) / b = q := by
      apply Nat.div_eq_of_lt_le
      · rw [Nat.mul_comm]; omega
      · rw [Nat.succ_mul, Nat.mul_comm]; omega
    rw [e1, e2]
  · have hpos : 0 < rem := Nat.pos_of_ne_zero h0
    have e2 : (b * q + rem + b - 1) / b = q + 1 := by
      apply Nat.div_eq_of_lt_le
      · rw [Nat.succ_mul, Nat.mul_comm]; omega
      · rw [Nat.succ_mul, Nat.succ_mul, Nat.mul_comm]; omega
    rw [e2]
    -- the rounded quotient lies above `q * P` and not above `(q + 1) * P`
    have hup : (b * q + rem) * P / b < (q + 1) * P := by
      rw [Nat.div_lt_iff_lt_mul hb]
      have : (b * q + rem) * P < (b * q + b) * P := Nat.mul_lt_mul_of_pos_right (by omega) hP
      calc (b * q + rem) * P < (b * q + b) * P := this
        _ = (q + 1) * P * b := by ring
    have hlow : q * P + 1 ≤ float64.roundDiv ((b * q + rem) * P) b := by
      by_cases hge : b ≤ rem * P
      · have : q * P + 1 ≤ (b * q + rem) * P / b := by
          rw [Nat.le_div_iff_mul_le hb]
          calc (q * P + 1) * b = b * q * P + b := by ring
            _ ≤ b * q * P + rem * P := by omega
            _ = (b * q + rem) * P := by ring
        omega
      · have hlt : rem * P < b := Nat.lt_of_not_le hge
        have hn : (b * q + rem) * P = rem * P + b * (q * P) := by ring
        have hF : (b * q + rem) * P / b = q * P := by
          rw [hn, Nat.add_mul_div_left _ _ hb, Nat.div_eq_of_lt hlt, Nat.zero_add]
        have hR : (b * q + rem) * P % b = rem * P := by
          rw [hn, Nat.add_mul_mod_self_left, Nat.mod_eq_of_lt hlt]
        have h2 : 2 * P ≤ 2 * (rem * P) := by
          have : 1 * P ≤ rem * P := Nat.mul_le_mul_right P hpos
          omega
        unfold float64.roundDiv
        rw [hR, hF]
        have : 2 * (rem * P) > b ∨ 2 * (rem * P) = b ∧ q * P % 2 = 1 := Or.inl (by omega)
        rw [if_pos this]
    have hq1 : (q + 1) * P = q * P + P := by ring
    have hq2 : (q + 1 + 1) * P = q * P + P + P := by ring
    generalize float64.roundDiv ((b * q + rem) * P) b = m at *
    generalize (b * q + rem) * P / b = F at *
    apply Nat.div_eq_of_lt_le
    · rw [hq1]; omega
    · rw [hq2]; omega


theorem float64_ofInt_exact (n : Nat) (h : n < 2 ^ 53) : float64.ofInt (n : Int) = (n : Int) := by
  unfold float64.ofInt
  have hl := float64_bitLen_le 64 n 53 h
  have hn : ¬ ((n : Int) < 0) := by omega
  simp only [Int.natAbs_ofNat, hl, if_true, hn, if_false]

theorem float64_divExponent_le (a b : Nat) :
    float64.divExponent a b ≤ (float64.bitLen 64 a : Int) - (float64.bitLen 64 b : Int) - 52 := by
  unfold float64.divExponent
  simp only
  split_ifs <;> omega

theorem float64_divCeil_exact (a b : Nat) (ha : a < 2 ^ 53) (hb : 0 < b) (hb2 : b < 2 ^ 53) :
    float64.divCeil (a : Int) (b : Int) = (((a + b - 1) / b : Nat) : Int) := by
  unfold float64.divCeil
  have hb0 : ¬ ((b : Int) = 0) := by omega
  rw [if_neg hb0]
  by_cases ha0 : a = 0
  · subst ha0
    have : (0 + b - 1) / b = 0 := Nat.div_eq_of_lt (by omega)
    rw [this]
    simp
  · have ha0' : ¬ ((a : Int) = 0) := by omega
    rw [if_neg ha0']
    have hla := float64_bitLen_le 64 a 53 ha
    have hlb := float64_bitLen_le 64 b 53 hb2
    have hlb1 : 0 < float64.bitLen 64 b := float64_bitLen_pos 63 b hb
    have hblt : b < 2 ^ float64.bitLen 64 b :=
      float64_bitLen_lt 64 b (lt_trans hb2 (by norm_num))
    have hna : ¬ ((a : Int) < 0) := by omega
    have hnb : ¬ ((b : Int) < 0) := by omega
    have hexp := float64_divExponent_le a b
    simp only [Int.natAbs_ofNat, hna, hnb, decide_False, bne_self_eq_false]
    generalize float64.divExponent a b = e at *
    have hval : float64.ceil (float64.divMantissa a b e) e false =
        (((a + b - 1) / b : Nat) : Int) := by
      unfold float64.ceil float64.divMantissa
      by_cases he : e ≥ 0
      · have he0 : e = 0 := by omega
        have hlb2 : float64.bitLen 64 b = 1 := by omega
        have hb1 : b = 1 := by
          rw [hlb2] at hblt
          omega
        subst he0
        subst hb1
        have hr : float64.roundDiv a 1 = a := by
          unfold float64.roundDiv
          have hm : a % 1 = 0 := Nat.mod_one a
          rw [hm, Nat.div_one]
          simp
        simp [hr]
      · have hs1 : 1 ≤ (-e).toNat := by omega
        have hs2 : float64.bitLen 64 b ≤ (-e).toNat + 1 := by omega
        have hK : b < 2 ^ ((-e).toNat + 1) :=
          lt_of_lt_of_le hblt (Nat.pow_le_pow_right (by decide) hs2)
        simp only [he, if_false, Bool.false_eq_true]
        rw [float64_roundDiv_ceil a b (-e).toNat hb hs1 hK]
    rw [hval]
    have hr1 : (a + b - 1) / b ≤ a + b - 1 := Nat.div_le_self _ _
    have hr2 : a + b - 1 < 2 ^ 54 := by
      have : (2 : Nat) ^ 54 = 2 ^ 53 + 2 ^ 53 := by norm_num
      omega
    have hr3 : ¬ ((((a + b - 1) / b : Nat) : Int) < -2 ^ 63 ∨
        (((a + b - 1) / b : Nat) : Int) ≥ 2 ^ 63) := by
      have h54 : ((2 : Nat) ^ 54 : Int) < 2 ^ 63 := by norm_num
      have h4 : (((a + b - 1) / b : Nat) : Int) < ((2 : Nat) ^ 54 : Int) := by
        exact_mod_cast lt_of_le_of_lt hr1 hr2
      have h5 : (0 : Int) ≤ (((a + b - 1) / b : Nat) : Int) := Int.natCast_nonneg _
      intro h
      rcases h with h | h
      · have : (-2 ^ 63 : Int) < 0 := by norm_num
        omega
      · omega
    rw [if_neg hr3]

theorem int64_wrap_id (x : Int) (h0 : -(2 ^ 63) ≤ x) (h1 : x < 2 ^ 63) : int64.wrap x = x := by
  unfold int64.wrap
  omega

theorem Nat_ceil_spec (a b : Nat) (hb : 0 < b) :
    a ≤ (a + b - 1) / b * b ∧ ((((a + b - 1) / b : Nat) : Int) - 1) * (b : Int) < (a : Int) := by
  have h1 := Nat.div_add_mod (a + b - 1) b
  have h2 : (a + b - 1) % b < b := Nat.mod_lt _ hb
  have h3 : b * ((a + b - 1) / b) = (a + b - 1) / b * b := Nat.mul_comm _ _
  constructor
  · omega
  · have h5 : (a + b - 1) / b * b < a + b := by omega
    generalize (a + b - 1) / b = r at *
    have h4 : ((r * b : Nat) : Int) < ((a + b : Nat) : Int) := by exact_mod_cast h5
    push_cast at h4
    linarith

theorem DBSelectWithStats_paginate_none (params : ParamMap) (m : Int) (sq : SelectQuery)
    (total : Int) :
    DBSelectWithStats.paginate params m sq total = none ↔ params.lookup Page = some [] := by
  unfold DBSelectWithStats.paginate
  cases h : ResolvePage.raise params Page 1 with
  | none =>
    simp only [true_iff]
    exact (ResolvePage_raise_none _ _ _).1 h
  | some page =>
    have hp : params.lookup Page ≠ some [] := by
      intro e
      rw [(ResolvePage_raise_none _ _ _).2 e] at h
      exact Option.noConfusion h
    simp [hp]

theorem DBSelectWithStats_paginate_some (params : ParamMap) (m : Int) (sq : SelectQuery)
    (total : Int) (sq2 : SelectQuery) (stats : SelectStats)
    (h : DBSelectWithStats.paginate params m sq total = some (sq2, stats)) :
    stats.Total = total ∧ stats.Limit = max sq.Limit m ∧ sq2.Limit = stats.Limit ∧
    stats.Page =
      max 1 (((params.get Page).head?.map (fun v => (strconv.Atoi v).1)).getD 0) ∧
    sq2.Offset = int64.wrap (stats.Limit * int64.wrap (stats.Page - 1)) ∧
    stats.TotalPages = float64.divCeil (float64.ofInt total) (float64.ofInt stats.Limit) := by
  unfold DBSelectWithStats.paginate at h
  cases h2 : ResolvePage.raise params Page 1 with
  | none => rw [h2] at h; exact Option.noConfusion h
  | some page =>
    rw [h2] at h
    simp only [Option.some.injEq, Prod.mk.injEq] at h
    obtain ⟨h3, h4⟩ := h
    have hpage := ResolvePage_raise_some params Page 1 page (by decide) h2
    have hlim : (if sq.Limit < m then m else sq.Limit) = max sq.Limit m := by
      split_ifs with hlt
      · exact (max_eq_right (le_of_lt hlt)).symm
      · exact (max_eq_left (not_lt.1 hlt)).symm
    rw [← h3, ← h4]
    exact ⟨rfl, hlim, rfl, hpage, rfl, rfl⟩


theorem float64_total_pages (total limit : Int) (h0 : 0 ≤ total) (h1 : total < 2 ^ 53)
    (h2 : 1 ≤ limit) (h3 : limit < 2 ^ 53) :
    total ≤ float64.divCeil (float64.ofInt total) (float64.ofInt limit) * limit ∧
    (float64.divCeil (float64.ofInt total) (float64.ofInt limit) - 1) * limit < total := by
  obtain ⟨a, rfl⟩ := Int.eq_ofNat_of_zero_le h0
  obtain ⟨b, rfl⟩ := Int.eq_ofNat_of_zero_le (le_trans (by decide) h2)
  have ha : a < 2 ^ 53 := by exact_mod_cast h1
  have hb2 : b < 2 ^ 53 := by exact_mod_cast h3
  have hb : 0 < b := by omega
  rw [float64_ofInt_exact a ha, float64_ofInt_exact b hb2, float64_divCeil_exact a b ha hb hb2]
  obtain ⟨c1, c2⟩ := Nat_ceil_spec a b hb
  exact ⟨by exact_mod_cast c1, c2⟩

/-- C22, evaluated at failing inputs, with what the code does in general.  For
a parameter map in which PAGE is present with an empty value list
`DBSelectWithStats` does not return after a successful count query: it indexes
the empty list (`none`).  The examples of the claim come out as stated: total
12, limit 5, no page: page 1, no offset, 3 pages; page 3: offset 10.  The
arithmetic has two limits: for the total 2^53 + 1 and the limit 8 the pages
reported are 2^50, which times 8 is below the total (the quotient is taken in
`float64`); for the limit 2^62 and the page 3 the offset is -2^63 (the product
is taken in `int`).  In general, when PAGE is not present with an empty list:
the limit is the larger of the parsed limit and the minimum, the page is the
larger of 1 and the parsed first value of PAGE, the offset is limit times
(page - 1) when that is below 2^63, and the pages reported are the least
number that times the limit reaches the total when total and limit are below
2^53. -/
theorem DBSelectWithStats_page_empty_list :
    DBSelectWithStats (fun _ _ => some 12) [("PAGE", [])] [] = none ∧
    DBSelectWithStats (fun _ _ => some 12) [] [] =
      some ⟨some ("LIMIT 5", []), ⟨"LIMIT 5;", 12, 5, 1, 3⟩, false⟩ ∧
    DBSelectWithStats (fun _ _ => some 12) [("PAGE", ["3"])] [] =
      some ⟨some ("LIMIT 5 OFFSET 10", []), ⟨"LIMIT 5 OFFSET 10;", 12, 5, 3, 3⟩, false⟩ ∧
    DBSelectWithStats (fun _ _ => some 9007199254740993) [("LIM", ["8"])] [] =
      some ⟨some ("LIMIT 8", []), ⟨"LIMIT 8;", 9007199254740993, 8, 1, 1125899906842624⟩,
        false⟩ ∧
    (1125899906842624 : Int) * 8 < 9007199254740993 ∧
    DBSelectWithStats (fun _ _ => some 12) [("LIM", ["4611686018427387904"]), ("PAGE", ["3"])]
        [] =
      some ⟨some ("LIMIT 4611686018427387904 OFFSET -9223372036854775808", []),
        ⟨"LIMIT 4611686018427387904 OFFSET -9223372036854775808;", 12, 4611686018427387904, 3,
          1⟩, false⟩ ∧
    (∀ (params : ParamMap) (m : Int) (sq : SelectQuery) (total : Int),
      DBSelectWithStats.paginate params m sq total = none ↔ params.lookup Page = some []) ∧
    (∀ (params : ParamMap) (m : Int) (sq : SelectQuery) (total : Int) (sq2 : SelectQuery)
        (stats : SelectStats),
      DBSelectWithStats.paginate params m sq total = some (sq2, stats) →
      stats.Total = total ∧ stats.Limit = max sq.Limit m ∧ sq2.Limit = stats.Limit ∧
      stats.Page =
        max 1 (((params.get Page).head?.map (fun v => (strconv.Atoi v).1)).getD 0) ∧
      sq2.Offset = int64.wrap (stats.Limit * int64.wrap (stats.Page - 1)) ∧
      (1 ≤ m → stats.Limit * (stats.Page - 1) < 2 ^ 63 →
        sq2.Offset = stats.Limit * (stats.Page - 1)) ∧
      (0 ≤ total → total < 2 ^ 53 → 1 ≤ m → stats.Limit < 2 ^ 53 →
        total ≤ stats.TotalPages * stats.Limit ∧
        (stats.TotalPages - 1) * stats.Limit < total)) := by
  refine ⟨by decide, by decide, by decide, by decide, by decide, by decide,
    DBSelectWithStats_paginate_none, ?_⟩
  intro params m sq total sq2 stats h
  obtain ⟨e1, e2, e3, e4, e5, e6⟩ := DBSelectWithStats_paginate_some params m sq total sq2 stats h
  refine ⟨e1, e2, e3, e4, e5, ?_, ?_⟩
  · intro hm hlt
    have hL : 1 ≤ stats.Limit := by rw [e2]; exact le_trans hm (le_max_right _ _)
    have hP : 1 ≤ stats.Page := by rw [e4]; exact le_max_left _ _
    have hP1 : stats.Page - 1 ≤ stats.Limit * (stats.Page - 1) := by nlinarith
    have hnn : 0 ≤ stats.Limit * (stats.Page - 1) := by nlinarith
    rw [e5, int64_wrap_id (stats.Page - 1) (by omega) (by omega),
      int64_wrap_id _ (by omega) hlt]
  · intro h0 h1 hm h3
    have hL : 1 ≤ stats.Limit := by rw [e2]; exact le_trans hm (le_max_right _ _)
    rw [e6]
    exact float64_total_pages total stats.Limit h0 h1 hL h3

/-- The parameter map with page 3 on which the general part of C22 applies:
total 12 and limit 5 give 3 pages and the offset 10. -/
theorem DBSelectWithStats_page_empty_list_witness :
    DBSelectWithStats.paginate [("PAGE", ["3"])] 5 (ParseSelect [("PAGE", ["3"])]) 12 =
      some ({ ParseSelect [("PAGE", ["3"])] with Limit := 5, Offset := 10 },
        ⟨"", 12, 5, 3, 3⟩) ∧
    (12 : Int) ≤ 3 * 5 ∧ ((3 : Int) - 1) * 5 < 12 :=
  ⟨rfl,
    (DBSelectWithStats_page_empty_list.2.2.2.2.2.2.2 [("PAGE", ["3"])] 5
      (ParseSelect [("PAGE", ["3"])]) 12
      { ParseSelect [("PAGE", ["3"])] with Limit := 5, Offset := 10 } ⟨"", 12, 5, 3, 3⟩
      rfl).2.2.2.2.2.2 (by decide) (by decide) (by decide) (by decide)⟩

/-! ## The arguments of two listings of one tree -/

theorem PredGrp_upsert_keys (l : List (String × Option Pred)) (k : String) (v : Option Pred)
    (k2 : String) :
    k2 ∈ (PredGrp.upsert l k v).map Prod.fst ↔ k2 = k ∨ k2 ∈ l.map Prod.fst := by
  induction l with
  | nil => simp [PredGrp.upsert]
  | cons e rest ih =>
    obtain ⟨k1, p⟩ := e
    by_cases h1 : k = k1
    · subst h1
      simp [PredGrp.upsert]
    · by_cases h2 : k.data ≤ k1.data
      · simp [PredGrp.upsert, h1, h2]
      · simp only [PredGrp.upsert, h1, h2, if_false, List.map_cons, List.mem_cons, ih]
        tauto

theorem PredGrp_canonEntries_keys (l : List (String × Option Pred)) (k2 : String) :
    k2 ∈ (PredGrp.canonEntries l).map Prod.fst ↔ k2 ∈ l.map Prod.fst := by
  induction l with
  | nil => simp [PredGrp.canonEntries]
  | cons e rest ih =>
    obtain ⟨k1, p⟩ := e
    rw [PredGrp_canonEntries_cons, PredGrp_upsert_keys, ih]
    simp

theorem PredGrp_upsert_perm (l : List (String × Option Pred)) (k : String) (v : Option Pred)
    (h : k ∉ l.map Prod.fst) : (PredGrp.upsert l k v).Perm ((k, v) :: l) := by
  induction l with
  | nil => simp [PredGrp.upsert]
  | cons e rest ih =>
    obtain ⟨k1, p⟩ := e
    have h1 : k ≠ k1 := fun e => h (by simp [e])
    have h3 : k ∉ rest.map Prod.fst := fun e => h (by simp at e ⊢; exact Or.inr e)
    by_cases h2 : k.data ≤ k1.data
    · simp [PredGrp.upsert, h1, h2]
    · simp only [PredGrp.upsert, h1, h2, if_false]
      exact ((ih h3).cons (k1, p)).trans (List.Perm.swap _ _ _)

theorem stringifyWhere_fragments_cons (e : String × Option Pred)
    (l : List (String × Option Pred)) :
    (((e :: l).map (fun e => (stringifyPred e.2).1)).filter (fun f => f.1 ≠ "")).flatMap
        Prod.snd =
      (if (stringifyPred e.2).1.1 ≠ "" then (stringifyPred e.2).1.2 else []) ++
        ((l.map (fun e => (stringifyPred e.2).1)).filter (fun f => f.1 ≠ "")).flatMap
          Prod.snd := by
  by_cases h : (stringifyPred e.2).1.1 = ""
  · simp [List.filter_cons, h]
  · simp [List.filter_cons, h]

theorem PredGrp_keysDistinctEntries_cons (k : String) (p : Option Pred)
    (rest : List (String × Option Pred))
    (h : PredGrp.keysDistinctEntries ((k, p) :: rest) = true) :
    k ∉ rest.map Prod.fst ∧ PredGrp.keysDistinctEntries rest = true ∧
      ∀ q, p = some q → Pred.keysDistinct q = true := by
  cases p with
  | none =>
    simp only [PredGrp.keysDistinctEntries, Bool.and_eq_true, Bool.not_eq_true',
      List.any_eq_false] at h
    refine ⟨?_, h.2, fun q hq => Option.noConfusion hq⟩
    intro hm
    obtain ⟨e, he, hk⟩ := List.mem_map.1 hm
    exact h.1 e he (by simp [hk])
  | some q =>
    simp only [PredGrp.keysDistinctEntries, Bool.and_eq_true, Bool.not_eq_true',
      List.any_eq_false] at h
    refine ⟨?_, h.2, fun q2 hq => by rw [← Option.some.inj hq]; exact h.1.2⟩
    intro hm
    obtain ⟨e, he, hk⟩ := List.mem_map.1 hm
    exact h.1.1 e he (by simp [hk])

mutual
theorem stringifyPred_canon_args : ∀ p : Pred, Pred.keysDistinct p = true →
    (stringifyPred (some p)).1.2.Perm (stringifyPred (some (Pred.canon p))).1.2 ∧
    ((stringifyPred (some p)).1.1 = "" ↔ (stringifyPred (some (Pred.canon p))).1.1 = "")
  | .mk column operator value values false grp => by
    intro _
    rw [Pred_canon_mk, stringifyPred_leaf_eq, stringifyPred_leaf_eq]
    exact ⟨List.Perm.refl _, Iff.rfl⟩
  | .mk column operator value values true none => by
    intro _
    exact ⟨List.Perm.refl _, Iff.rfl⟩
  | .mk column operator value values true (some g) => by
    intro h
    have hg : PredGrp.keysDistinct g = true := by
      simpa [Pred.keysDistinct] using h
    have ih := stringifyWhere_canon_args g hg
    rw [Pred_canon_mk, stringifyPred_nested_eq, stringifyPred_nested_eq]
    refine ⟨ih, ?_⟩
    have hne : ∀ s : String, "(" ++ s ++ ")" ≠ "" := fun s =>
      String_append_ne_empty_left _ _ (String_append_ne_empty_left "(" s (by decide))
    exact ⟨fun e => absurd e (hne _), fun e => absurd e (hne _)⟩
theorem stringifyWhere_canon_args : ∀ g : PredGrp, PredGrp.keysDistinct g = true →
    (stringifyWhere (some g)).1.2.Perm (stringifyWhere (some (PredGrp.canon g))).1.2
  | .mk or preds => by
    intro h
    have hp : PredGrp.keysDistinctEntries preds = true := by
      simpa [PredGrp.keysDistinct] using h
    have ih := stringifyWhere_canon_entries preds hp
    rw [PredGrp_canon_mk, stringifyWhere_group, stringifyWhere_group]
    exact ih
theorem stringifyWhere_canon_entries : ∀ preds : List (String × Option Pred),
    PredGrp.keysDistinctEntries preds = true →
    (((preds.map (fun e => (stringifyPred e.2).1)).filter (fun f => f.1 ≠ "")).flatMap
        Prod.snd).Perm
      ((((PredGrp.canonEntries preds).map (fun e => (stringifyPred e.2).1)).filter
        (fun f => f.1 ≠ "")).flatMap Prod.snd)
  | [] => by
    intro _
    exact List.Perm.refl _
  | (key, none) :: rest => by
    intro h
    obtain ⟨hk, hr, _⟩ := PredGrp_keysDistinctEntries_cons key none rest h
    have ih := stringifyWhere_canon_entries rest hr
    have hk2 : key ∉ (PredGrp.canonEntries rest).map Prod.fst :=
      fun e => hk ((PredGrp_canonEntries_keys rest key).1 e)
    have hperm := PredGrp_upsert_perm (PredGrp.canonEntries rest) key none hk2
    have e1 : PredGrp.canonEntries ((key, none) :: rest) =
        PredGrp.upsert (PredGrp.canonEntries rest) key none := rfl
    rw [e1]
    refine List.Perm.trans ?_ (((hperm.map _).filter _).flatMap_right _).symm
    rw [stringifyWhere_fragments_cons, stringifyWhere_fragments_cons]
    exact List.Perm.append (List.Perm.refl _) ih
  | (key, some p) :: rest => by
    intro h
    obtain ⟨hk, hr, hq⟩ := PredGrp_keysDistinctEntries_cons key (some p) rest h
    have ih := stringifyWhere_canon_entries rest hr
    have ihp := stringifyPred_canon_args p (hq p rfl)
    have hk2 : key ∉ (PredGrp.canonEntries rest).map Prod.fst :=
      fun e => hk ((PredGrp_canonEntries_keys rest key).1 e)
    have hperm := PredGrp_upsert_perm (PredGrp.canonEntries rest) key (some (Pred.canon p)) hk2
    have e1 : PredGrp.canonEntries ((key, some p) :: rest) =
        PredGrp.upsert (PredGrp.canonEntries rest) key (some (Pred.canon p)) := rfl
    rw [e1]
    refine List.Perm.trans ?_ (((hperm.map _).filter _).flatMap_right _).symm
    rw [stringifyWhere_fragments_cons, stringifyWhere_fragments_cons]
    refine List.Perm.append ?_ ih
    by_cases he : (stringifyPred (some p)).1.1 = ""
    · have he2 := ihp.2.1 he
      simp [he, he2]
    · have he2 : ¬ (stringifyPred (some (Pred.canon p))).1.1 = "" := fun e => he (ihp.2.2 e)
      simp only [ne_eq, he, he2, not_false_eq_true, if_true]
      exact ihp.1
end

/-- Two listings of one tree give the same arguments up to their order. -/
theorem stringifyWhere_args_listing (g1 g2 : Option PredGrp)
    (h1 : ∀ g, g1 = some g → PredGrp.keysDistinct g = true)
    (h2 : ∀ g, g2 = some g → PredGrp.keysDistinct g = true)
    (hc : g1.map PredGrp.canon = g2.map PredGrp.canon) :
    (stringifyWhere g1).1.2.Perm (stringifyWhere g2).1.2 := by
  cases g1 with
  | none =>
    cases g2 with
    | none => exact List.Perm.refl _
    | some b => exact Option.noConfusion hc
  | some a =>
    cases g2 with
    | none => exact Option.noConfusion hc
    | some b =>
      have e : PredGrp.canon a = PredGrp.canon b := Option.some.inj hc
      have p1 := stringifyWhere_canon_args a (h1 a rfl)
      have p2 := stringifyWhere_canon_args b (h2 b rfl)
      rw [e] at p1
      exact p1.trans p2.symm

/-- C19, evaluated at the failing input, with what the code does in general.
For the query with the select list `[a]`, the source `t`, the predicates
`1 ↦ A EQ x` and `2 ↦ B EQ y`, the order list `[(a, ASC)]`, limit 10 and
offset 20: the call `Sql()` in which the loop of `stringifyWhere` enumerates
the key `1` first returns the arguments `[x, y]` and leaves the tree as it
found it, and the calls `Sql(SelectCount)` and `Sql(WhereOnly)` in which the
loop enumerates the key `2` first return `[y, x]`; the two listings are the
same predicate tree.  In general, for every SelectQuery `q`: `SelectCount q`
has the select list `[COUNT(*)]`, an empty order list, limit 0 and offset 0,
with the source and the predicate tree of `q`; `SelectAll q` has the select
list `[*]` and every other field of `q`; `WhereOnly q` has an empty select
list, empty source, empty order list, limit 0 and offset 0, with the predicate
tree of `q`; `Sql(WhereOnly)` returns the empty text when the predicate clause
is empty and otherwise `WHERE ` followed by the predicate clause (its markers
numbered); and for any two listings of one predicate tree, `Sql(SelectCount)`
and `Sql(WhereOnly)` on the one return a rearrangement of the arguments `Sql()`
returns on the other. -/
theorem SelectOption_arguments_order :
    SelectQuery.SqlRun ⟨["a"], "t", some (.mk false
        [("1", some (.mk "A" "EQ" "x" ["x"] false none)),
         ("2", some (.mk "B" "EQ" "y" ["y"] false none))]), [⟨"a", "ASC"⟩], 10, 20⟩ [] =
      (("SELECT a FROM t WHERE A = $1 AND B = $2 ORDER BY a ASC LIMIT 10 OFFSET 20",
        ["x", "y"]),
        some (.mk false
          [("1", some (.mk "A" "EQ" "x" ["x"] false none)),
           ("2", some (.mk "B" "EQ" "y" ["y"] false none))])) ∧
    SelectQuery.Sql ⟨["a"], "t", some (.mk false
        [("2", some (.mk "B" "EQ" "y" ["y"] false none)),
         ("1", some (.mk "A" "EQ" "x" ["x"] false none))]), [⟨"a", "ASC"⟩], 10, 20⟩
        [SelectCount] =
      ("SELECT COUNT(*) FROM t WHERE B = $1 AND A = $2", ["y", "x"]) ∧
    SelectQuery.Sql ⟨["a"], "t", some (.mk false
        [("2", some (.mk "B" "EQ" "y" ["y"] false none)),
         ("1", some (.mk "A" "EQ" "x" ["x"] false none))]), [⟨"a", "ASC"⟩], 10, 20⟩
        [WhereOnly] =
      ("WHERE B = $1 AND A = $2", ["y", "x"]) ∧
    PredGrp.canon (.mk false
        [("2", some (.mk "B" "EQ" "y" ["y"] false none)),
         ("1", some (.mk "A" "EQ" "x" ["x"] false none))]) =
      PredGrp.canon (.mk false
        [("1", some (.mk "A" "EQ" "x" ["x"] false none)),
         ("2", some (.mk "B" "EQ" "y" ["y"] false none))]) ∧
    (∀ q : SelectQuery,
      SelectCount q = ⟨[Count], q.From, q.Where, [], 0, 0⟩ ∧
      SelectAll q = ⟨["*"], q.From, q.Where, q.OrderBys, q.Limit, q.Offset⟩ ∧
      WhereOnly q = ⟨[], "", q.Where, [], 0, 0⟩ ∧
      (q.Sql [WhereOnly]).1 =
        (if (stringifyWhere q.Where).1.1 = "" then ""
          else "WHERE " ++ ReplacePlaceholders (stringifyWhere q.Where).1.1)) ∧
    (∀ q1 q2 : SelectQuery,
      (∀ g, q1.Where = some g → PredGrp.keysDistinct g = true) →
      (∀ g, q2.Where = some g → PredGrp.keysDistinct g = true) →
      q1.Where.map PredGrp.canon = q2.Where.map PredGrp.canon →
      (q1.Sql [SelectCount]).2.Perm (q2.Sql []).2 ∧
      (q1.Sql [WhereOnly]).2.Perm (q2.Sql []).2) := by
  refine ⟨rfl, by decide, by decide, rfl, ?_, ?_⟩
  · intro q
    refine ⟨rfl, rfl, rfl, ?_⟩
    have hd : dedup (removeEmptyStrings []) = [] := by decide
    have h0 : ReplacePlaceholders "" = "" := by decide
    have h1 : '?' ∉ ("WHERE" ++ space).data := by decide
    have h3 : "WHERE" ++ space = "WHERE " := by decide
    by_cases hw : (stringifyWhere q.Where).1.1 = ""
    · simp [SelectQuery.Sql, SelectQuery.SqlRun, WhereOnly, hd, strings.Join,
        SelectQuery.writeClause, stringifyOrder, stringifyOrder.loop, hw, h0]
    · simp [SelectQuery.Sql, SelectQuery.SqlRun, WhereOnly, hd, strings.Join,
        SelectQuery.writeClause, stringifyOrder, stringifyOrder.loop, hw]
      rw [ReplacePlaceholders_append_left _ _ h1, h3]
  · intro q1 q2 h1 h2 hc
    have h := stringifyWhere_args_listing q1.Where q2.Where h1 h2 hc
    exact ⟨h, h⟩

/-- The two listings of the failing input, on which the last part of C19
applies: both list every key once, they are the same tree, and the arguments
`[y, x]` of the one call are a rearrangement of the arguments `[x, y]` of the
other. -/
theorem SelectOption_arguments_order_witness :
    PredGrp.keysDistinct (.mk false
      [("2", some (.mk "B" "EQ" "y" ["y"] false none)),
       ("1", some (.mk "A" "EQ" "x" ["x"] false none))]) = true ∧
    PredGrp.keysDistinct (.mk false
      [("1", some (.mk "A" "EQ" "x" ["x"] false none)),
       ("2", some (.mk "B" "EQ" "y" ["y"] false none))]) = true ∧
    (["y", "x"] : List String).Perm ["x", "y"] :=
  ⟨rfl, rfl,
    (SelectOption_arguments_order.2.2.2.2.2
      ⟨["a"], "t", some (.mk false
        [("2", some (.mk "B" "EQ" "y" ["y"] false none)),
         ("1", some (.mk "A" "EQ" "x" ["x"] false none))]), [⟨"a", "ASC"⟩], 10, 20⟩
      ⟨["a"], "t", some (.mk false
        [("1", some (.mk "A" "EQ" "x" ["x"] false none)),
         ("2", some (.mk "B" "EQ" "y" ["y"] false none))]), [⟨"a", "ASC"⟩], 10, 20⟩
      (fun g hg => by cases hg; rfl) (fun g hg => by cases hg; rfl) rfl).1⟩

end Getql
